import Mathlib

/-!
Verification of the B-tree implementation in `src/rust/src/b_tree.rs`
(a Knuth-order B-tree over comparable keys with search, insertion with
preemptive/deferred splitting, and deletion with rotation and merge).

The embedding is shallow: keys are specialised to `Int` (the Rust code is
generic over `PartialOrd + Clone` keys), `Vec` becomes `List`, and in-place
mutation becomes functional update.  Every Rust operation that can panic
(out-of-bounds indexing, `expect`, the explicit `panic!` calls) is embedded
as an `Option`- or `Except`-valued function, with `none` / `.error`
marking the panic.  Recursive Rust functions are embedded with an explicit
`fuel` parameter bounding the recursion depth (the facade passes
`height + 1`-style bounds); lemmas below show the fuel never runs out on
structurally well-formed trees, so on those trees the embedding computes
exactly what the Rust recursion computes.
-/

set_option maxHeartbeats 1600000

/-- The node type of the B-tree: `struct Node { keys, children, leaf, order }`.
`children` is empty for leaves; `order` is the Knuth order `m`. -/
inductive Node where
  | mk (keys : List Int) (children : List Node) (leaf : Bool) (order : Nat)

/-- Projection: the sorted key list stored in this node. -/
def Node.keys : Node → List Int
  | .mk k _ _ _ => k

/-- Projection: the child subtrees of this node. -/
def Node.children : Node → List Node
  | .mk _ c _ _ => c

/-- Projection: the `leaf` flag of this node. -/
def Node.leaf : Node → Bool
  | .mk _ _ l _ => l

/-- Projection: the Knuth order `m` stored in this node. -/
def Node.order : Node → Nat
  | .mk _ _ _ o => o

@[simp] theorem Node.keys_mk (k : List Int) (c : List Node) (l : Bool) (o : Nat) :
    (Node.mk k c l o).keys = k := rfl

@[simp] theorem Node.children_mk (k : List Int) (c : List Node) (l : Bool) (o : Nat) :
    (Node.mk k c l o).children = c := rfl

@[simp] theorem Node.leaf_mk (k : List Int) (c : List Node) (l : Bool) (o : Nat) :
    (Node.mk k c l o).leaf = l := rfl

@[simp] theorem Node.order_mk (k : List Int) (c : List Node) (l : Bool) (o : Nat) :
    (Node.mk k c l o).order = o := rfl

/-- The tree facade: `struct BTree { root: Option<Box<Node>>, order }`. -/
structure BTree where
  root : Option Node
  order : Nat

/-- `BTree::new(m)`: the empty tree of order `m` (the Rust constructor asserts
`m >= 3`; we record the construction itself, the assertion is captured in the
claims by the `3 ≤ m` hypotheses). -/
def BTree.new (m : Nat) : BTree := ⟨none, m⟩

/-- Errors with which the embedded fallible operations abort.  `emptyTree`
and `notFound` are the two documented panics of `delete`; `fatal` stands for
every other panic (out-of-bounds indexing, `expect` failures, and the merge
index contract violation), all of which are proved unreachable on
well-formed trees. -/
inductive DErr where
  | emptyTree
  | notFound
  | fatal
deriving DecidableEq

mutual
/-- In-order key sequence of a node (models the output of `Node::traverse`):
descend into `children[i]`, emit `keys[i]`, in index order, then descend into
the final child.  `glueT` interleaves the children with the keys exactly as
the traversal loop does. -/
def Node.toList : Node → List Int
  | .mk keys children leaf _ => if leaf then keys else glueT children keys

def glueT : List Node → List Int → List Int
  | [], ks => ks
  | c :: _, [] => Node.toList c
  | c :: cs, k :: ks => Node.toList c ++ k :: glueT cs ks
end

mutual
/-- Height of a node: leaves have height 0; an internal node is one more than
its tallest child.  This is the bound the facade passes as recursion fuel. -/
def Node.height : Node → Nat
  | .mk _ children leaf _ => if leaf then 0 else 1 + maxH children

def maxH : List Node → Nat
  | [] => 0
  | c :: cs => max c.height (maxH cs)
end

/-- All nodes in the list have height `h`. -/
def allEqH : Nat → List Node → Bool
  | _, [] => true
  | h, c :: cs => (c.height == h) && allEqH h cs

/-- All nodes in the list share one height. -/
def eqH : List Node → Bool
  | [] => true
  | c :: cs => allEqH c.height cs

mutual
/-- Uniform-height (balance) invariant: at every node the children all have
the same height.  Together with `structOk` this puts every leaf at the same
depth, and in particular gives adjacent siblings the same `leaf` flag, which
`Node::merge` silently relies on. -/
def Node.unifH : Node → Bool
  | .mk _ children _ _ => eqH children && allUnif children

def allUnif : List Node → Bool
  | [] => true
  | c :: cs => c.unifH && allUnif cs
end

mutual
/-- Structural well-formedness: a leaf has no children, an internal node has
exactly one more child than it has keys, recursively. -/
def Node.structOk : Node → Bool
  | .mk keys children leaf _ =>
    (if leaf then children.isEmpty else children.length == keys.length + 1) && allStruct children

def allStruct : List Node → Bool
  | [] => true
  | c :: cs => c.structOk && allStruct cs
end

mutual
/-- Every node of the subtree (including its root) carries at least one key.
This is the minimum-key invariant actually maintained by the code for
non-root nodes; the documented `⌊K/2⌋`/`⌈K/2⌉` minimums are not (see the
claims about the §3 bounds). -/
def Node.subMin : Node → Bool
  | .mk keys children _ _ => !keys.isEmpty && allSubMin children

def allSubMin : List Node → Bool
  | [] => true
  | c :: cs => c.subMin && allSubMin cs
end

/-- Every proper descendant of this node carries at least one key (the node
itself — the root — is exempt). -/
def Node.descMin : Node → Bool
  | .mk _ children _ _ => allSubMin children

mutual
/-- All `order` fields in the subtree equal `o`. -/
def Node.ordAll : Nat → Node → Bool
  | o, .mk _ children _ order => order == o && allOrd o children

def allOrd : Nat → List Node → Bool
  | _, [] => true
  | o, c :: cs => c.ordAll o && allOrd o cs
end

mutual
/-- Multisets of leaf depths, in traversal order (`d ∈ depths n` iff some
leaf sits at depth `d`). -/
def Node.depths : Node → List Nat
  | .mk _ children leaf _ => if leaf then [0] else allDepths children

def allDepths : List Node → List Nat
  | [] => []
  | c :: cs => (c.depths.map (· + 1)) ++ allDepths cs
end

/-- Boolean sortedness (non-strict) of a key list. -/
def sortedB : List Int → Bool
  | [] => true
  | [_] => true
  | a :: b :: rest => decide (a ≤ b) && sortedB (b :: rest)

/-- The well-formedness invariant maintained between top-level operations:
structure counts, uniform order fields, a weakly sorted in-order key
sequence, every proper descendant nonempty, and a non-leaf root nonempty.
(Keys can repeat because insertion does not reject duplicates, so only weak
sortedness is invariant.) -/
def Node.wfB (o : Nat) (n : Node) : Bool :=
  n.structOk && n.ordAll o && sortedB n.toList && n.descMin && n.unifH &&
    (n.leaf || !n.keys.isEmpty)

/-- Tree-level invariant: order at least 3 and a well-formed root, if any. -/
def BTree.wf (t : BTree) : Bool :=
  3 ≤ t.order && (match t.root with
                  | none => true
                  | some r => r.wfB t.order)

/-- In-order key sequence of the whole tree. -/
def BTree.toList (t : BTree) : List Int :=
  match t.root with
  | none => []
  | some r => r.toList

/-- The key multiset currently stored in the tree. -/
def BTree.keysM (t : BTree) : Multiset Int := (t.toList : Multiset Int)

/-- `Node::binary_search` loop body.  `fuel` bounds the iteration count; the
interval `[left, right)` shrinks strictly each round, so
`keys.length + 1` fuel always suffices (`bsLoop_fuel` below). -/
def bsLoop : Nat → List Int → Int → Nat → Nat → Bool × Nat
  | 0, _, _, left, _ => (false, left)
  | fuel+1, keys, v, left, right =>
    if left < right then
      let mid := left + (right - left) / 2
      match keys[mid]? with
      | none => (false, left)
      | some k =>
        if k = v then (true, mid)
        else if k < v then bsLoop fuel keys v (mid + 1) right
        else bsLoop fuel keys v left mid
    else (false, left)

/-- `Node::binary_search`: search the whole key list. -/
def Node.binary_search (n : Node) (v : Int) : Bool × Nat :=
  bsLoop (n.keys.length + 1) n.keys v 0 n.keys.length

/-- `Node::search` (wraps the binary search helper). -/
def Node.search (n : Node) (v : Int) : Bool × Nat := n.binary_search v

/-- The iterative descent loop of `BTree::search`, with recursion fuel;
`none` models the out-of-bounds child access possible only on malformed
trees. -/
def Node.searchLoop : Nat → Node → Int → Option Bool
  | 0, _, _ => none
  | fuel+1, n, v =>
    let p := n.search v
    if p.1 then some true
    else if n.leaf then some false
    else
      match n.children[p.2]? with
      | none => none
      | some c => Node.searchLoop fuel c v

/-- `BTree::search`: returns whether `value` is present.  The Rust loop is
unbounded; `height + 1` fuel is exact for well-formed trees
(`searchLoop` never exhausts it, see the search correctness lemma). -/
def BTree.search (t : BTree) (value : Int) : Option Bool :=
  match t.root with
  | none => some false
  | some r => Node.searchLoop (r.height + 1) r value

/-- `Node::split_child(child_idx)`: split the (full) child in two, promoting
its middle key into this node.  `none` models the panics of
`Vec::split_off`, `pop().expect` and `Vec::insert` on contract violations. -/
def Node.split_child : Node → Nat → Option Node
  | .mk keys children leaf order, childIdx =>
    match children[childIdx]? with
    | none => none
    | some child =>
      let mid := child.keys.length / 2
      if child.keys.length < mid + 1 then none
      else if ¬child.leaf ∧ child.children.length < mid + 1 then none
      else if keys.length < childIdx then none
      else
        match (child.keys.take (mid + 1)).getLast? with
        | none => none
        | some middleKey =>
          let leftChild := Node.mk (child.keys.take (mid + 1)).dropLast
            (if child.leaf then child.children else child.children.take (mid + 1))
            child.leaf child.order
          let rightNode := Node.mk (child.keys.drop (mid + 1))
            (if child.leaf then [] else child.children.drop (mid + 1))
            child.leaf child.order
          some (.mk (keys.insertIdx childIdx middleKey)
            ((children.set childIdx leftChild).insertIdx (childIdx + 1) rightNode)
            leaf order)

/-- `Node::insert_non_full`, with recursion fuel (the Rust recursion descends
one level per call, so `height + 1` suffices on well-formed trees). -/
def Node.insert_non_full : Nat → Node → Int → Option Node
  | 0, _, _ => none
  | fuel+1, n, value =>
    let idx := (n.search value).2
    match n with
    | .mk keys children leaf order =>
      if leaf then
        if keys.length < idx then none
        else some (.mk (keys.insertIdx idx value) children leaf order)
      else
        match children[idx]? with
        | none => none
        | some c =>
          if c.order = 3 ∧ c.keys.length = 2 then
            match Node.insert_non_full fuel c value with
            | none => none
            | some c1 =>
              if c1.keys.length = 3 then (Node.mk keys (children.set idx c1) leaf order).split_child idx
              else some (.mk keys (children.set idx c1) leaf order)
          else if c.keys.length = c.order - 1 then
            match (Node.mk keys children leaf order).split_child idx with
            | none => none
            | some n1 =>
              match n1.keys[idx]? with
              | none => none
              | some promoted =>
                let idx2 := if promoted < value then idx + 1 else idx
                match n1.children[idx2]? with
                | none => none
                | some c2 =>
                  match Node.insert_non_full fuel c2 value with
                  | none => none
                  | some c3 => some (.mk n1.keys (n1.children.set idx2 c3) n1.leaf n1.order)
          else
            match Node.insert_non_full fuel c value with
            | none => none
            | some c1 => some (.mk keys (children.set idx c1) leaf order)

/-- `BTree::insert`.  Root overflow (and, for order 3, the deferred root
split after the recursive insertion) is handled here exactly as in the
facade code. -/
def BTree.insert (t : BTree) (value : Int) : Option BTree :=
  match t.root with
  | some r =>
    let maxKeysBeforeSplit := if t.order = 3 then 3 else t.order - 1
    if r.keys.length < maxKeysBeforeSplit then
      match Node.insert_non_full (r.height + 1) r value with
      | none => none
      | some r1 =>
        if t.order = 3 ∧ r1.keys.length = 3 then
          match (Node.mk [] [r1] false t.order).split_child 0 with
          | none => none
          | some newRoot => some ⟨some newRoot, t.order⟩
        else some ⟨some r1, t.order⟩
    else
      match (Node.mk [] [r] false t.order).split_child 0 with
      | none => none
      | some newRoot =>
        match Node.insert_non_full (newRoot.height + 1) newRoot value with
        | none => none
        | some newRoot1 => some ⟨some newRoot1, t.order⟩
  | none => some ⟨some (.mk [value] [] true t.order), t.order⟩

/-- `Node::get_rightmost`: last key of the rightmost leaf; `none` models the
two `expect` panics. -/
def Node.get_rightmost : Nat → Node → Option Int
  | 0, _ => none
  | fuel+1, n =>
    if n.leaf then n.keys.getLast?
    else
      match n.children.getLast? with
      | none => none
      | some c => Node.get_rightmost fuel c

/-- `Node::get_leftmost`: first key of the leftmost leaf. -/
def Node.get_leftmost : Nat → Node → Option Int
  | 0, _ => none
  | fuel+1, n =>
    if n.leaf then n.keys.head?
    else
      match n.children.head? with
      | none => none
      | some c => Node.get_leftmost fuel c

/-- `Node::rotate_right(child_idx)`: move the parent key at `child_idx - 1`
down into the right child and the left sibling's last key up into the
parent (plus the left sibling's last child if internal). -/
def Node.rotate_right : Node → Nat → Option Node
  | .mk keys children leaf order, childIdx =>
    if childIdx = 0 then none
    else
      match keys[childIdx - 1]? with
      | none => none
      | some middleKey =>
        match children[childIdx]?, children[childIdx - 1]? with
        | some rc, some lc =>
          match lc.keys.getLast? with
          | none => none
          | some lastKey =>
            let newKeys := (keys.eraseIdx (childIdx - 1)).insertIdx (childIdx - 1) lastKey
            if lc.leaf then
              let lc1 := Node.mk lc.keys.dropLast lc.children lc.leaf lc.order
              let rc1 := Node.mk (middleKey :: rc.keys) rc.children rc.leaf rc.order
              some (.mk newKeys ((children.set childIdx rc1).set (childIdx - 1) lc1) leaf order)
            else
              match lc.children.getLast? with
              | none => none
              | some movedChild =>
                let lc1 := Node.mk lc.keys.dropLast lc.children.dropLast lc.leaf lc.order
                let rc1 := Node.mk (middleKey :: rc.keys) (movedChild :: rc.children) rc.leaf rc.order
                some (.mk newKeys ((children.set childIdx rc1).set (childIdx - 1) lc1) leaf order)
        | _, _ => none

/-- `Node::rotate_left(child_idx)`: symmetric to `rotate_right`. -/
def Node.rotate_left : Node → Nat → Option Node
  | .mk keys children leaf order, childIdx =>
    match keys[childIdx]? with
    | none => none
    | some middleKey =>
      match children[childIdx]?, children[childIdx + 1]? with
      | some lc, some rc =>
        match rc.keys with
        | [] => none
        | firstKey :: restKeys =>
          let newKeys := (keys.eraseIdx childIdx).insertIdx childIdx firstKey
          if rc.leaf then
            let lc1 := Node.mk (lc.keys ++ [middleKey]) lc.children lc.leaf lc.order
            let rc1 := Node.mk restKeys rc.children rc.leaf rc.order
            some (.mk newKeys ((children.set childIdx lc1).set (childIdx + 1) rc1) leaf order)
          else
            match rc.children with
            | [] => none
            | firstChild :: restChildren =>
              let lc1 := Node.mk (lc.keys ++ [middleKey]) (lc.children ++ [firstChild]) lc.leaf lc.order
              let rc1 := Node.mk restKeys restChildren rc.leaf rc.order
              some (.mk newKeys ((children.set childIdx lc1).set (childIdx + 1) rc1) leaf order)
      | _, _ => none

/-- `Node::merge(child_idx)`: absorb the separating key and the right
sibling into the left child.  `none` models the explicit index-contract
panic and the out-of-bounds accesses. -/
def Node.merge : Node → Nat → Option Node
  | .mk keys children leaf order, childIdx =>
    if children.length ≤ childIdx + 1 then none
    else
      match keys[childIdx]? with
      | none => none
      | some middleKey =>
        match children[childIdx]?, children[childIdx + 1]? with
        | some lc, some rc =>
          let merged := Node.mk (lc.keys ++ middleKey :: rc.keys)
            (if lc.leaf then lc.children else lc.children ++ rc.children)
            lc.leaf lc.order
          some (.mk (keys.eraseIdx childIdx)
            ((children.eraseIdx (childIdx + 1)).set childIdx merged) leaf order)
        | _, _ => none

/-- Helper for the sibling-surplus tests in `Node::delete` case 3: the
Rust expressions `self.children[j].keys.len() >= thr` guarded by the index
checks. -/
def sibSurplus (thr : Nat) : Option Node → Bool
  | some s => decide (thr ≤ s.keys.length)
  | none => false

/-- `Node::delete`, with recursion fuel (`height + 1` suffices on
well-formed trees: every recursive call descends into a strictly lower
subtree, including after a merge or rotation). -/
def Node.delete : Nat → Node → Int → Except DErr Node
  | 0, _, _ => .error .fatal
  | fuel+1, n, value =>
    let found := (n.search value).1
    let idx := (n.search value).2
    match n with
    | .mk keys children leaf order =>
      let thr := (order - 1) / 2 + 1
      if found then
        if leaf then .ok (.mk (keys.eraseIdx idx) children leaf order)
        else
          match children[idx]? with
          | none => .error .fatal
          | some lc =>
            if thr ≤ lc.keys.length then
              match Node.get_rightmost (lc.height + 1) lc with
              | none => .error .fatal
              | some pred =>
                match Node.delete fuel lc pred with
                | .error e => .error e
                | .ok lc1 => .ok (.mk (keys.set idx pred) (children.set idx lc1) leaf order)
            else
              match children[idx + 1]? with
              | none => .error .fatal
              | some rc =>
                if thr ≤ rc.keys.length then
                  match Node.get_leftmost (rc.height + 1) rc with
                  | none => .error .fatal
                  | some succ =>
                    match Node.delete fuel rc succ with
                    | .error e => .error e
                    | .ok rc1 => .ok (.mk (keys.set idx succ) (children.set (idx + 1) rc1) leaf order)
                else
                  match (Node.mk keys children leaf order).merge idx with
                  | none => .error .fatal
                  | some n1 =>
                    match n1.children[idx]? with
                    | none => .error .fatal
                    | some m =>
                      match Node.delete fuel m value with
                      | .error e => .error e
                      | .ok m1 => .ok (.mk n1.keys (n1.children.set idx m1) n1.leaf n1.order)
      else
        if leaf then .error .notFound
        else
          match children[idx]? with
          | none => .error .fatal
          | some ci =>
            if ci.keys.length < thr then
              if 0 < idx ∧ sibSurplus thr children[idx - 1]? then
                match (Node.mk keys children leaf order).rotate_right idx with
                | none => .error .fatal
                | some n1 =>
                  match n1.children[idx]? with
                  | none => .error .fatal
                  | some c1 =>
                    match Node.delete fuel c1 value with
                    | .error e => .error e
                    | .ok c2 => .ok (.mk n1.keys (n1.children.set idx c2) n1.leaf n1.order)
              else if idx < children.length - 1 ∧ sibSurplus thr children[idx + 1]? then
                match (Node.mk keys children leaf order).rotate_left idx with
                | none => .error .fatal
                | some n1 =>
                  match n1.children[idx]? with
                  | none => .error .fatal
                  | some c1 =>
                    match Node.delete fuel c1 value with
                    | .error e => .error e
                    | .ok c2 => .ok (.mk n1.keys (n1.children.set idx c2) n1.leaf n1.order)
              else if idx = children.length - 1 then
                match (Node.mk keys children leaf order).merge (idx - 1) with
                | none => .error .fatal
                | some n1 =>
                  match n1.children[idx - 1]? with
                  | none => .error .fatal
                  | some c1 =>
                    match Node.delete fuel c1 value with
                    | .error e => .error e
                    | .ok c2 => .ok (.mk n1.keys (n1.children.set (idx - 1) c2) n1.leaf n1.order)
              else
                match (Node.mk keys children leaf order).merge idx with
                | none => .error .fatal
                | some n1 =>
                  match n1.children[idx]? with
                  | none => .error .fatal
                  | some c1 =>
                    match Node.delete fuel c1 value with
                    | .error e => .error e
                    | .ok c2 => .ok (.mk n1.keys (n1.children.set idx c2) n1.leaf n1.order)
            else
              match Node.delete fuel ci value with
              | .error e => .error e
              | .ok c2 => .ok (.mk keys (children.set idx c2) leaf order)

/-- `BTree::delete`: panics on an empty tree; otherwise delegates to the
root and shrinks the tree by one level when the root ends up keyless with
children. -/
def BTree.delete (t : BTree) (value : Int) : Except DErr BTree :=
  match t.root with
  | none => .error .emptyTree
  | some r =>
    match Node.delete (r.height + 1) r value with
    | .error e => .error e
    | .ok r1 =>
      if r1.keys = [] ∧ r1.children.isEmpty = false then
        match r1.children[0]? with
        | none => .error .fatal
        | some c => .ok ⟨some c, t.order⟩
      else .ok ⟨some r1, t.order⟩

/-- `BTree::traverse` output (the empty tree prints a banner and no keys). -/
def BTree.traverse (t : BTree) : List Int := t.toList

/-- Sequential insertion of a list of values, the driver loop
`for v in values { tree.insert(v) }` of the specified build scenarios. -/
def BTree.insertAll : BTree → List Int → Option BTree
  | t, [] => some t
  | t, v :: vs =>
    match t.insert v with
    | none => none
    | some u => BTree.insertAll u vs

/-- Boolean strict ascension of a key list: the specification's "strictly
ascending" traversal output, written from the spec's words for comparison
with the code's traversal. -/
def strictAsc : List Int → Bool
  | [] => true
  | [_] => true
  | a :: b :: rest => decide (a < b) && strictAsc (b :: rest)

mutual
/-- The key/child-count bounds of section 3 of the specification, written
from the spec's words for comparison with what the code maintains
(`K = order − 1`; `isRoot` marks the root, which is exempt from the
minimum): root-as-leaf 0..K keys; root-as-internal 1..K keys and 2..K+1
children; non-root internal ⌊K/2⌋..K keys and ⌊K/2⌋+1..K+1 children;
non-root leaf ⌈K/2⌉..K keys. -/
def Node.specBounds (K : Nat) (isRoot : Bool) : Node → Bool
  | .mk keys children l _ =>
    (if isRoot then
      if l then decide (keys.length ≤ K)
      else decide (1 ≤ keys.length) && decide (keys.length ≤ K) &&
        decide (2 ≤ children.length) && decide (children.length ≤ K + 1)
    else
      if l then decide ((K + 1) / 2 ≤ keys.length) && decide (keys.length ≤ K)
      else decide (K / 2 ≤ keys.length) && decide (keys.length ≤ K) &&
        decide (K / 2 + 1 ≤ children.length) && decide (children.length ≤ K + 1)) &&
    allSpecBounds K children

def allSpecBounds (K : Nat) : List Node → Bool
  | [] => true
  | c :: cs => c.specBounds K false && allSpecBounds K cs
end

/-- Section 3 bounds over the whole tree (spec-modelled; an empty tree
satisfies them vacuously). -/
def BTree.specBounds (t : BTree) : Bool :=
  match t.root with
  | none => true
  | some r => r.specBounds (t.order - 1) true

/-- Trees reachable through the public API: construction with order at
least 3 followed by any sequence of successful inserts and deletes. -/
inductive Reach : BTree → Prop
  | new (m : Nat) (h : 3 ≤ m) : Reach (BTree.new m)
  | ins {t u : BTree} (v : Int) (ht : Reach t) (h : t.insert v = some u) : Reach u
  | del {t u : BTree} (v : Int) (ht : Reach t) (h : t.delete v = .ok u) : Reach u

/-! ## Basic toolbox: induction principle, predicate unfoldings, list algebra -/

/-- Strong induction over the nested `Node` type: to prove `P n` it is
enough to prove it for `mk` from the property of every child. -/
def Node.strongInd {P : Node → Prop}
    (h : ∀ keys children leaf order,
      (∀ c ∈ children, P c) → P (.mk keys children leaf order)) :
    ∀ n, P n
  | .mk keys children leaf order =>
    h keys children leaf order (fun c hc =>
      Node.strongInd h c)
  termination_by n => sizeOf n
  decreasing_by
    calc sizeOf c < sizeOf children := List.sizeOf_lt_of_mem hc
    _ < sizeOf (Node.mk keys children leaf order) := by simp; omega

theorem allStruct_iff (cs : List Node) :
    allStruct cs = true ↔ ∀ c ∈ cs, c.structOk = true := by
  induction cs with
  | nil => simp [allStruct]
  | cons c cs ih => simp [allStruct, ih]

theorem allSubMin_iff (cs : List Node) :
    allSubMin cs = true ↔ ∀ c ∈ cs, c.subMin = true := by
  induction cs with
  | nil => simp [allSubMin]
  | cons c cs ih => simp [allSubMin, ih]

theorem allOrd_iff (o : Nat) (cs : List Node) :
    allOrd o cs = true ↔ ∀ c ∈ cs, c.ordAll o = true := by
  induction cs with
  | nil => simp [allOrd]
  | cons c cs ih => simp [allOrd, ih]

theorem structOk_mk {k : List Int} {c : List Node} {l : Bool} {o : Nat} :
    (Node.mk k c l o).structOk = true ↔
      (if l then c = [] else c.length = k.length + 1) ∧ ∀ x ∈ c, x.structOk = true := by
  cases l <;> simp [Node.structOk, allStruct_iff, List.isEmpty_iff]

theorem subMin_mk {k : List Int} {c : List Node} {l : Bool} {o : Nat} :
    (Node.mk k c l o).subMin = true ↔ k ≠ [] ∧ ∀ x ∈ c, x.subMin = true := by
  simp [Node.subMin, allSubMin_iff, List.isEmpty_iff]

theorem descMin_mk {k : List Int} {c : List Node} {l : Bool} {o : Nat} :
    (Node.mk k c l o).descMin = true ↔ ∀ x ∈ c, x.subMin = true := by
  simp [Node.descMin, allSubMin_iff]

theorem subMin_toList_ne {n : Node} (h : n.subMin = true) : n.keys ≠ [] := by
  cases n with
  | mk k c l o => exact (subMin_mk.1 h).1

theorem ordAll_mk {k : List Int} {c : List Node} {l : Bool} {o o9 : Nat} :
    (Node.mk k c l o9).ordAll o = true ↔ o9 = o ∧ ∀ x ∈ c, x.ordAll o = true := by
  simp [Node.ordAll, allOrd_iff]

@[simp] theorem toList_mk_leaf (k : List Int) (c : List Node) (o : Nat) :
    (Node.mk k c true o).toList = k := by
  simp [Node.toList]

@[simp] theorem toList_mk_int (k : List Int) (c : List Node) (o : Nat) :
    (Node.mk k c false o).toList = glueT c k := by
  simp [Node.toList]

@[simp] theorem height_mk_leaf (k : List Int) (c : List Node) (o : Nat) :
    (Node.mk k c true o).height = 0 := by
  simp [Node.height]

@[simp] theorem height_mk_int (k : List Int) (c : List Node) (o : Nat) :
    (Node.mk k c false o).height = 1 + maxH c := by
  simp [Node.height]

theorem maxH_le_iff (cs : List Node) (b : Nat) :
    maxH cs ≤ b ↔ ∀ c ∈ cs, c.height ≤ b := by
  induction cs with
  | nil => simp [maxH]
  | cons c cs ih => simp [maxH, ih]

theorem le_maxH_of_mem {cs : List Node} {c : Node} (h : c ∈ cs) : c.height ≤ maxH cs := by
  induction cs with
  | nil => cases h
  | cons d cs ih =>
    rcases List.mem_cons.1 h with rfl | h2
    · simp [maxH]
    · simp only [maxH]
      exact le_trans (ih h2) (le_max_right _ _)

theorem allEqH_iff (h : Nat) (cs : List Node) :
    allEqH h cs = true ↔ ∀ x ∈ cs, x.height = h := by
  induction cs with
  | nil => simp [allEqH]
  | cons c cs ih => simp [allEqH, ih]

theorem eqH_iff (cs : List Node) :
    eqH cs = true ↔ ∀ x ∈ cs, ∀ y ∈ cs, x.height = y.height := by
  cases cs with
  | nil => simp [eqH]
  | cons c cs =>
    rw [eqH, allEqH_iff]
    constructor
    · intro h x hx y hy
      have hx2 : x.height = c.height := by
        rcases List.mem_cons.1 hx with rfl | hx3
        · rfl
        · exact h x hx3
      have hy2 : y.height = c.height := by
        rcases List.mem_cons.1 hy with rfl | hy3
        · rfl
        · exact h y hy3
      rw [hx2, hy2]
    · intro h x hx
      exact h x (List.mem_cons_of_mem c hx) c (List.mem_cons_self c cs)

theorem allUnif_iff (cs : List Node) :
    allUnif cs = true ↔ ∀ x ∈ cs, x.unifH = true := by
  induction cs with
  | nil => simp [allUnif]
  | cons c cs ih => simp [allUnif, ih]

theorem unifH_mk {k : List Int} {cs : List Node} {l : Bool} {o : Nat} :
    (Node.mk k cs l o).unifH = true ↔
      (∀ x ∈ cs, ∀ y ∈ cs, x.height = y.height) ∧ ∀ x ∈ cs, x.unifH = true := by
  rw [Node.unifH, Bool.and_eq_true, eqH_iff, allUnif_iff]

theorem unifH_parts {n : Node} (h : n.unifH = true) :
    (∀ x ∈ n.children, ∀ y ∈ n.children, x.height = y.height) ∧
    ∀ x ∈ n.children, x.unifH = true := by
  rcases n with ⟨k, cs, l, o⟩
  exact unifH_mk.1 h

theorem leaf_iff_height {n : Node} (h : n.structOk = true) :
    n.leaf = true ↔ n.height = 0 := by
  rcases n with ⟨k, cs, l, o⟩
  obtain ⟨h1, h2⟩ := structOk_mk.1 h
  cases l with
  | true => simp
  | false => simp

/-- All children of a uniform node have height exactly `maxH` of the list. -/
theorem height_eq_maxH_of_eq {cs : List Node} {c : Node} (hc : c ∈ cs)
    (heq : ∀ x ∈ cs, ∀ y ∈ cs, x.height = y.height) : c.height = maxH cs := by
  have hle := le_maxH_of_mem hc
  rcases cs with _ | ⟨d, cs2⟩
  · cases hc
  · have hdle : maxH (d :: cs2) ≤ c.height := by
      rw [maxH_le_iff]
      intro x hx
      rw [heq x hx c hc]
    omega

theorem maxH_sublist_eq {cs ds : List Node} (hsub : ∀ x ∈ ds, x ∈ cs) (hne : ds ≠ [])
    (heq : ∀ x ∈ cs, ∀ y ∈ cs, x.height = y.height) : maxH ds = maxH cs := by
  rcases ds with _ | ⟨d, ds2⟩
  · cases hne rfl
  · have hd : d ∈ cs := hsub d (List.mem_cons_self _ _)
    have h1 : d.height = maxH cs := height_eq_maxH_of_eq hd heq
    have h2 : d.height = maxH (d :: ds2) :=
      height_eq_maxH_of_eq (List.mem_cons_self _ _)
        (fun x hx y hy => heq x (hsub x hx) y (hsub y hy))
    omega

theorem unifH_nil_children {k : List Int} {l : Bool} {o : Nat} :
    (Node.mk k [] l o).unifH = true :=
  unifH_mk.2 ⟨by simp, by simp⟩

theorem unifH_single {k : List Int} {l : Bool} {o : Nat} {r : Node}
    (hr : r.unifH = true) : (Node.mk k [r] l o).unifH = true := by
  apply unifH_mk.2
  constructor
  · intro x hx y hy
    rw [List.mem_singleton.1 hx, List.mem_singleton.1 hy]
  · intro x hx
    rw [List.mem_singleton.1 hx]
    exact hr

theorem sortedB_iff (l : List Int) : sortedB l = true ↔ List.Sorted (· ≤ ·) l := by
  have h : ∀ l : List Int, sortedB l = true ↔ List.Chain' (· ≤ ·) l := by
    intro l
    induction l with
    | nil => simp [sortedB]
    | cons a l ih =>
      cases l with
      | nil => simp [sortedB]
      | cons b r =>
        simp only [sortedB, Bool.and_eq_true, decide_eq_true_eq, List.chain'_cons] at ih ⊢
        exact and_congr Iff.rfl ih
  rw [h, List.chain'_iff_pairwise]
  exact Iff.rfl

/-- `l.set i a` in take-cons-drop normal form. -/
theorem list_set_eq (l : List Int) (i : Nat) (a : Int) (h : i < l.length) :
    l.set i a = l.take i ++ a :: l.drop (i + 1) := by
  induction l generalizing i with
  | nil => simp at h
  | cons x xs ih =>
    cases i with
    | zero => simp
    | succ j =>
      simp only [List.set, List.take, List.drop, List.cons_append, List.cons.injEq, true_and]
      exact ih j (by simpa using h)

/-- `l.set i a` for node lists, in take-cons-drop normal form. -/
theorem list_setN_eq (l : List Node) (i : Nat) (a : Node) (h : i < l.length) :
    l.set i a = l.take i ++ a :: l.drop (i + 1) := by
  induction l generalizing i with
  | nil => simp at h
  | cons x xs ih =>
    cases i with
    | zero => simp
    | succ j =>
      simp only [List.set, List.take, List.drop, List.cons_append, List.cons.injEq, true_and]
      exact ih j (by simpa using h)

/-- `l.insertIdx i a` in take-cons-drop normal form. -/
theorem list_insertIdx_eq {α : Type} (l : List α) (i : Nat) (a : α) (h : i ≤ l.length) :
    l.insertIdx i a = l.take i ++ a :: l.drop i := by
  induction l generalizing i with
  | nil =>
    have : i = 0 := by simpa using h
    subst this
    simp
  | cons x xs ih =>
    cases i with
    | zero => simp
    | succ j =>
      simp only [List.insertIdx_succ_cons, List.take, List.drop, List.cons_append,
        List.cons.injEq, true_and]
      exact ih j (by simpa using h)

/-- Splitting a list at a valid index. -/
theorem list_eq_take_get_drop {α : Type} (l : List α) (i : Nat) (x : α)
    (h : l[i]? = some x) : l = l.take i ++ x :: l.drop (i + 1) := by
  have hi : i < l.length := by
    by_contra hc
    rw [List.getElem?_eq_none (by omega)] at h
    cases h
  obtain ⟨h1, h2⟩ := List.getElem?_eq_some_iff.1 h
  conv_lhs => rw [← List.take_append_drop i l]
  rw [List.drop_eq_getElem_cons h1]
  simp [h2]

/-! ## glueT algebra -/

@[simp] theorem glueT_nil (ks : List Int) : glueT [] ks = ks := by
  simp [glueT]

theorem glueT_append {cs1 cs2 : List Node} {ks1 ks2 : List Int}
    (h : cs1.length = ks1.length) :
    glueT (cs1 ++ cs2) (ks1 ++ ks2) = glueT cs1 ks1 ++ glueT cs2 ks2 := by
  induction cs1 generalizing ks1 with
  | nil =>
    cases ks1 with
    | nil => simp
    | cons k ks => simp at h
  | cons c cs ih =>
    cases ks1 with
    | nil => simp at h
    | cons k ks =>
      simp only [List.cons_append, glueT]
      rw [show cs.append cs2 = cs ++ cs2 from rfl, show ks.append ks2 = ks ++ ks2 from rfl,
        ih (by simpa using h)]
      simp

theorem glueT_cons (c : Node) (cs : List Node) (k : Int) (ks : List Int) :
    glueT (c :: cs) (k :: ks) = c.toList ++ k :: glueT cs ks := by
  simp [glueT]

theorem glueT_single (c : Node) : glueT [c] [] = c.toList := by
  simp [glueT]

/-- Keys are always contained in the glued sequence. -/
theorem keys_subset_glueT (cs : List Node) (ks : List Int) : ks ⊆ glueT cs ks := by
  induction cs generalizing ks with
  | nil => simp
  | cons c cs ih =>
    cases ks with
    | nil => simp
    | cons k ks =>
      intro x hx
      rw [glueT_cons]
      rcases List.mem_cons.1 hx with rfl | hx2
      · simp
      · simp only [List.mem_append, List.mem_cons]
        exact Or.inr (Or.inr (ih ks hx2))

/-- A child's keys are contained in the glued sequence (given enough keys to
reach that child). -/
theorem child_subset_glueT {cs : List Node} {ks : List Int} {i : Nat} {c : Node}
    (hc : cs[i]? = some c) (hlen : i ≤ ks.length) : c.toList ⊆ glueT cs ks := by
  induction cs generalizing ks i with
  | nil => simp at hc
  | cons d cs ih =>
    cases i with
    | zero =>
      simp only [List.getElem?_cons_zero, Option.some.injEq] at hc
      subst hc
      cases ks with
      | nil => simp [glueT]
      | cons k ks => rw [glueT_cons]; exact fun x hx => List.mem_append.2 (Or.inl hx)
    | succ j =>
      cases ks with
      | nil => simp at hlen
      | cons k ks =>
        rw [glueT_cons]
        intro x hx
        simp only [List.mem_append, List.mem_cons]
        exact Or.inr (Or.inr (ih (by simpa using hc) (by simpa using hlen) hx))

/-! ## Binary search correctness -/

theorem bsLoop_succ_lt (fuel : Nat) (keys : List Int) (v : Int) (left right : Nat)
    (hlr : left < right) :
    bsLoop (fuel + 1) keys v left right =
      match keys[left + (right - left) / 2]? with
      | none => (false, left)
      | some k =>
        if k = v then (true, left + (right - left) / 2)
        else if k < v then bsLoop fuel keys v (left + (right - left) / 2 + 1) right
        else bsLoop fuel keys v left (left + (right - left) / 2) := by
  simp [bsLoop, hlr]

theorem bsLoop_succ_ge (fuel : Nat) (keys : List Int) (v : Int) (left right : Nat)
    (hlr : ¬left < right) :
    bsLoop (fuel + 1) keys v left right = (false, left) := by
  simp [bsLoop, hlr]

theorem bsLoop_shape (keys : List Int) (v : Int) :
    ∀ fuel left right, left ≤ right → right - left < fuel →
      (((bsLoop fuel keys v left right).1 = true →
          ∃ h : (bsLoop fuel keys v left right).2 < keys.length,
            keys[(bsLoop fuel keys v left right).2] = v ∧
            left ≤ (bsLoop fuel keys v left right).2 ∧
            (bsLoop fuel keys v left right).2 < right) ∧
       ((bsLoop fuel keys v left right).1 = false →
          left ≤ (bsLoop fuel keys v left right).2 ∧
          (bsLoop fuel keys v left right).2 ≤ right)) := by
  intro fuel
  induction fuel with
  | zero => intro left right h1 h2; omega
  | succ fuel ih =>
    intro left right h1 h2
    by_cases hlr : left < right
    · rw [bsLoop_succ_lt fuel keys v left right hlr]
      rcases hk : keys[left + (right - left) / 2]? with _ | k
      · simp only [hk]
        exact ⟨(fun ht => nomatch ht), fun _ => ⟨le_refl _, h1⟩⟩
      · obtain ⟨hklt, hkeq⟩ := List.getElem?_eq_some_iff.1 hk
        simp only [hk]
        by_cases hkv : k = v
        · simp only [if_pos hkv]
          exact ⟨(fun _ => ⟨hklt, hkeq.trans hkv, by omega, by omega⟩), (fun hf => nomatch hf)⟩
        · by_cases hkv2 : k < v
          · simp only [if_neg hkv, if_pos hkv2]
            have h3 := ih (left + (right - left) / 2 + 1) right (by omega) (by omega)
            refine ⟨fun ht => ?_, fun hf => ?_⟩
            · obtain ⟨hh, he, hl, hr⟩ := h3.1 ht
              exact ⟨hh, he, by omega, hr⟩
            · obtain ⟨hl, hr⟩ := h3.2 hf
              exact ⟨by omega, hr⟩
          · simp only [if_neg hkv, if_neg hkv2]
            have h3 := ih left (left + (right - left) / 2) (by omega) (by omega)
            refine ⟨fun ht => ?_, fun hf => ?_⟩
            · obtain ⟨hh, he, hl, hr⟩ := h3.1 ht
              exact ⟨hh, he, hl, by omega⟩
            · obtain ⟨hl, hr⟩ := h3.2 hf
              exact ⟨hl, by omega⟩
    · rw [bsLoop_succ_ge fuel keys v left right hlr]
      exact ⟨(fun ht => nomatch ht), fun _ => ⟨le_refl _, h1⟩⟩

theorem bsLoop_partition (keys : List Int) (v : Int) (hs : List.Sorted (· ≤ ·) keys) :
    ∀ fuel left right, left ≤ right → right ≤ keys.length → right - left < fuel →
      (∀ j (hj : j < keys.length), j < left → keys[j] < v) →
      (∀ j (hj : j < keys.length), right ≤ j → v < keys[j]) →
      (bsLoop fuel keys v left right).1 = false →
      (∀ j (hj : j < keys.length), j < (bsLoop fuel keys v left right).2 → keys[j] < v) ∧
      (∀ j (hj : j < keys.length), (bsLoop fuel keys v left right).2 ≤ j → v < keys[j]) := by
  intro fuel
  induction fuel with
  | zero => intro left right h1 hr h2; omega
  | succ fuel ih =>
    intro left right h1 hr h2 H1 H2 hf
    by_cases hlr : left < right
    · have hd : (right - left) / 2 < right - left := Nat.div_lt_self (by omega) (by omega)
      have hklt : left + (right - left) / 2 < keys.length := by omega
      rw [bsLoop_succ_lt fuel keys v left right hlr] at hf ⊢
      rcases hk : keys[left + (right - left) / 2]? with _ | k
      · have h9 := List.getElem?_eq_none_iff.1 hk; omega
      · obtain ⟨hklt2, hkeq⟩ := List.getElem?_eq_some_iff.1 hk
        simp only [hk] at hf ⊢
        by_cases hkv : k = v
        · simp [hkv] at hf
        · skip
          by_cases hkv2 : k < v
          · have H1a : ∀ j (hj : j < keys.length), j < left + (right - left) / 2 + 1 →
                keys[j] < v := by
              intro j hj hjlt
              have hle : keys[j] ≤ keys[left + (right - left) / 2] := by
                rcases Nat.lt_or_ge j (left + (right - left) / 2) with hlt | hge
                · exact List.Sorted.rel_get_of_le hs (by exact_mod_cast Nat.le_of_lt hlt)
                · have hje : j = left + (right - left) / 2 := by omega
                  subst hje; exact le_refl _
              calc keys[j] ≤ k := by rw [← hkeq]; exact hle
              _ < v := hkv2
            simp only [if_neg hkv, if_pos hkv2] at hf ⊢
            exact ih (left + (right - left) / 2 + 1) right (by omega) hr (by omega) H1a H2 hf
          · have hkgt : v < k := lt_of_le_of_ne (not_lt.1 hkv2) (fun he => hkv he.symm)
            have H2a : ∀ j (hj : j < keys.length), left + (right - left) / 2 ≤ j →
                v < keys[j] := by
              intro j hj hjge
              by_cases hjr : right ≤ j
              · exact H2 j hj hjr
              · have hle : keys[left + (right - left) / 2] ≤ keys[j] := by
                  rcases Nat.lt_or_ge (left + (right - left) / 2) j with hlt | hge
                  · exact List.Sorted.rel_get_of_le hs (by exact_mod_cast Nat.le_of_lt hlt)
                  · have hje : j = left + (right - left) / 2 := by omega
                    subst hje; exact le_refl _
                calc v < k := hkgt
                _ = keys[left + (right - left) / 2] := hkeq.symm
                _ ≤ keys[j] := hle
            simp only [if_neg hkv, if_neg hkv2] at hf ⊢
            exact ih left (left + (right - left) / 2) (by omega) (by omega) (by omega) H1 H2a hf
    · rw [bsLoop_succ_ge fuel keys v left right hlr] at hf ⊢
      have hle : left = right := by omega
      exact ⟨fun j hj hjl => H1 j hj hjl, fun j hj hjl => H2 j hj (by omega)⟩

/-! ## Node-level search spec -/

theorem search_shape (n : Node) (v : Int) :
    ((n.search v).1 = true →
      ∃ h : (n.search v).2 < n.keys.length, n.keys[(n.search v).2] = v) ∧
    (n.search v).2 ≤ n.keys.length := by
  have h := bsLoop_shape n.keys v (n.keys.length + 1) 0 n.keys.length (by omega) (by omega)
  unfold Node.search Node.binary_search
  rcases hb : (bsLoop (n.keys.length + 1) n.keys v 0 n.keys.length).1 with _ | _
  · rw [hb] at h
    refine ⟨(fun ht => nomatch ht), ?_⟩
    exact (h.2 rfl).2
  · rw [hb] at h
    obtain ⟨hh, he, _, hlt⟩ := h.1 rfl
    exact ⟨fun _ => ⟨hh, he⟩, by omega⟩

theorem search_idx_le (n : Node) (v : Int) : (n.search v).2 ≤ n.keys.length :=
  (search_shape n v).2

theorem search_found_get (n : Node) (v : Int) (hf : (n.search v).1 = true) :
    n.keys[(n.search v).2]? = some v := by
  obtain ⟨hh, he⟩ := (search_shape n v).1 hf
  rw [List.getElem?_eq_getElem hh, he]

theorem search_found_mem (n : Node) (v : Int) (hf : (n.search v).1 = true) :
    v ∈ n.keys :=
  List.getElem?_mem (search_found_get n v hf)

theorem search_partition (n : Node) (v : Int) (hs : List.Sorted (· ≤ ·) n.keys)
    (hf : (n.search v).1 = false) :
    (∀ j (hj : j < n.keys.length), j < (n.search v).2 → n.keys[j] < v) ∧
    (∀ j (hj : j < n.keys.length), (n.search v).2 ≤ j → v < n.keys[j]) := by
  have h := bsLoop_partition n.keys v hs (n.keys.length + 1) 0 n.keys.length
    (by omega) (by omega) (by omega) (fun j hj hjl => by omega) (fun j hj hjl => by omega)
  exact h hf

theorem search_false_not_mem (n : Node) (v : Int) (hs : List.Sorted (· ≤ ·) n.keys)
    (hf : (n.search v).1 = false) : v ∉ n.keys := by
  intro hmem
  obtain ⟨j, hj, he⟩ := List.mem_iff_getElem.1 hmem
  obtain ⟨h1, h2⟩ := search_partition n v hs hf
  rcases Nat.lt_or_ge j (n.search v).2 with hlt | hge
  · exact absurd he (ne_of_lt (h1 j hj hlt))
  · exact absurd he (ne_of_gt (h2 j hj hge))

theorem search_found_iff (n : Node) (v : Int) (hs : List.Sorted (· ≤ ·) n.keys) :
    (n.search v).1 = true ↔ v ∈ n.keys := by
  constructor
  · exact search_found_mem n v
  · intro hmem
    rcases hb : (n.search v).1 with _ | _
    · exact absurd hmem (search_false_not_mem n v hs hb)
    · rfl

/-! ## Decomposition of the glued sequence -/

/-- Suffix of the in-order sequence after a given child: the separating key
followed by the glue of the remaining children and keys (empty after the
last child). -/
def glueS : List Node → List Int → List Int
  | _, [] => []
  | cs, k :: ks => k :: glueT cs ks

theorem sublist_glueT (cs : List Node) (ks : List Int) : ks.Sublist (glueT cs ks) := by
  induction cs generalizing ks with
  | nil => simp
  | cons c cs ih =>
    cases ks with
    | nil => simp
    | cons k ks =>
      rw [glueT_cons]
      exact List.Sublist.trans (List.Sublist.cons₂ k (ih ks)) (List.sublist_append_right _ _)

theorem glueT_decomp {cs : List Node} {ks : List Int} {i : Nat} {c : Node}
    (hc : cs[i]? = some c) (hlen : cs.length = ks.length + 1) :
    glueT cs ks =
      glueT (cs.take i) (ks.take i) ++ c.toList ++ glueS (cs.drop (i + 1)) (ks.drop i) := by
  have hi : i < cs.length := by
    by_contra hcon
    rw [List.getElem?_eq_none (by omega)] at hc
    cases hc
  have hik : i ≤ ks.length := by omega
  have hcs : cs = cs.take i ++ c :: cs.drop (i + 1) := list_eq_take_get_drop cs i c hc
  have hks : ks = ks.take i ++ ks.drop i := (List.take_append_drop i ks).symm
  conv_lhs => rw [hcs, hks]
  rw [glueT_append (by simp [List.length_take]; omega)]
  rcases hd : ks.drop i with _ | ⟨k1, ks1⟩
  · have : ks.length ≤ i := by
      have := List.length_drop i ks ▸ congrArg List.length hd
      simp at this; omega
    have hieq : i = ks.length := by omega
    have hcs1 : cs.drop (i + 1) = [] := by
      apply List.eq_nil_of_length_eq_zero
      simp [List.length_drop]; omega
    rw [hcs1]
    simp [glueT, glueS]
  · simp only [glueS, glueT, List.append_assoc]

theorem mem_glueT_iff {cs : List Node} {ks : List Int}
    (hlen : cs.length = ks.length + 1) (x : Int) :
    x ∈ glueT cs ks ↔ x ∈ ks ∨ ∃ (j : Nat) (c : Node), cs[j]? = some c ∧ x ∈ c.toList := by
  induction cs generalizing ks with
  | nil => simp at hlen
  | cons c cs ih =>
    cases ks with
    | nil =>
      have hcs : cs = [] := by
        have h0 : cs.length = 0 := by simpa using hlen
        exact List.eq_nil_of_length_eq_zero h0
      subst hcs
      simp only [glueT, List.not_mem_nil, false_or]
      constructor
      · intro h; exact ⟨0, c, rfl, h⟩
      · rintro ⟨j, d, hd, hxd⟩
        cases j with
        | zero => simp at hd; subst hd; exact hxd
        | succ j2 => simp at hd
    | cons k ks =>
      rw [glueT_cons]
      simp only [List.mem_append, List.mem_cons]
      rw [ih (by simpa using hlen)]
      constructor
      · rintro (hx | rfl | hx | ⟨j, d, hd, hxd⟩)
        · exact Or.inr ⟨0, c, by simp, hx⟩
        · exact Or.inl (Or.inl rfl)
        · exact Or.inl (Or.inr hx)
        · exact Or.inr ⟨j + 1, d, by simpa using hd, hxd⟩
      · rintro ((rfl | hx) | ⟨j, d, hd, hxd⟩)
        · exact Or.inr (Or.inl rfl)
        · exact Or.inr (Or.inr (Or.inl hx))
        · cases j with
          | zero =>
            simp only [List.getElem?_cons_zero, Option.some.injEq] at hd
            subst hd
            exact Or.inl hxd
          | succ j2 =>
            exact Or.inr (Or.inr (Or.inr ⟨j2, d, by simpa using hd, hxd⟩))

theorem height_child_lt {k : List Int} {cs : List Node} {o : Nat} {c : Node}
    (hc : c ∈ cs) : c.height < (Node.mk k cs false o).height := by
  rw [height_mk_int]
  have := le_maxH_of_mem hc
  omega

theorem height_child_lt' {k : List Int} {cs : List Node} {o : Nat} {c : Node} {i : Nat}
    (hc : cs[i]? = some c) : c.height < (Node.mk k cs false o).height :=
  height_child_lt (List.getElem?_mem hc)

/-- Sortedness restricted to a decomposed middle segment. -/
theorem sorted_of_decomp {A B C : List Int} (h : List.Sorted (· ≤ ·) (A ++ B ++ C)) :
    List.Sorted (· ≤ ·) B := by
  have h1 : B.Sublist (A ++ B ++ C) := by
    rw [List.append_assoc]
    exact List.sublist_append_of_sublist_right
      (List.sublist_append_of_sublist_left (List.Sublist.refl B))
  exact List.Pairwise.sublist h1 h

/-! ## Separation bounds extracted from a sorted in-order sequence -/

theorem sorted_append_pair {A B : List Int} (h : List.Sorted (· ≤ ·) (A ++ B)) :
    ∀ a ∈ A, ∀ b ∈ B, a ≤ b :=
  (List.pairwise_append.1 h).2.2

theorem drop_cons_head {k : List Int} {j : Nat} {k1 : Int} {ks1 : List Int}
    (hdk : k.drop j = k1 :: ks1) (hj : j < k.length) : k1 = k[j] := by
  have h1 := List.getElem?_drop k j 0
  rw [hdk, Nat.add_zero] at h1
  simp only [List.getElem?_cons_zero] at h1
  rw [List.getElem?_eq_getElem hj] at h1
  exact Option.some_injective _ h1

/-- Every element of child `j` is at most the separating key `k[j]`. -/
theorem child_le_key {cs : List Node} {k : List Int} {j : Nat} {d : Node}
    (hlen : cs.length = k.length + 1) (hs : List.Sorted (· ≤ ·) (glueT cs k))
    (hd : cs[j]? = some d) (hj : j < k.length) :
    ∀ x ∈ d.toList, x ≤ k[j] := by
  intro x hx
  have hdec := glueT_decomp hd hlen
  rw [hdec] at hs
  rcases hdk : k.drop j with _ | ⟨k1, ks1⟩
  · have h2 := List.length_drop j k ▸ congrArg List.length hdk
    simp at h2; omega
  · have hk1 : k1 = k[j] := drop_cons_head hdk hj
    rw [hdk] at hs
    simp only [glueS] at hs
    have := sorted_append_pair hs x (List.mem_append.2 (Or.inr hx)) k1 (List.mem_cons_self _ _)
    omega

/-- Every element of child `j` is at least the separating key `k[j-1]`
(for `0 < j`). -/
theorem key_le_child {cs : List Node} {k : List Int} {j : Nat} {d : Node}
    (hlen : cs.length = k.length + 1) (hs : List.Sorted (· ≤ ·) (glueT cs k))
    (hd : cs[j]? = some d) (hj : 0 < j) (hj2 : j - 1 < k.length) :
    ∀ x ∈ d.toList, k[j - 1] ≤ x := by
  intro x hx
  have hdec := glueT_decomp hd hlen
  rw [hdec] at hs
  have hmem : k[j - 1] ∈ glueT (cs.take j) (k.take j) := by
    apply keys_subset_glueT
    have h1 : (k.take j)[j - 1]? = some (k[j - 1]) := by
      rw [List.getElem?_take_of_lt (by omega : j - 1 < j)]
      exact List.getElem?_eq_getElem hj2
    exact List.getElem?_mem h1
  rw [List.append_assoc] at hs
  exact sorted_append_pair hs _ hmem x (List.mem_append.2 (Or.inl hx))

/-- When the binary search partition localises `v` to child `idx`, `v` is in
the glued sequence iff it is in that child. -/
theorem mem_glueT_iff_child {cs : List Node} {k : List Int} {idx : Nat} {c : Node} {v : Int}
    (hlen : cs.length = k.length + 1) (hs : List.Sorted (· ≤ ·) (glueT cs k))
    (hc : cs[idx]? = some c)
    (H1 : ∀ j (hj : j < k.length), j < idx → k[j] < v)
    (H2 : ∀ j (hj : j < k.length), idx ≤ j → v < k[j]) :
    v ∈ glueT cs k ↔ v ∈ c.toList := by
  have hidx : idx < cs.length := by
    by_contra hcon
    rw [List.getElem?_eq_none (by omega)] at hc
    cases hc
  constructor
  · intro hv
    rcases (mem_glueT_iff hlen v).1 hv with hk | ⟨j, d, hd, hvd⟩
    · obtain ⟨j, hj, he⟩ := List.mem_iff_getElem.1 hk
      rcases Nat.lt_or_ge j idx with hlt | hge
      · exact absurd he (ne_of_lt (H1 j hj hlt))
      · exact absurd he (ne_of_gt (H2 j hj hge))
    · rcases Nat.lt_trichotomy j idx with hlt | heq | hgt
      · have hjk : j < k.length := by omega
        have := child_le_key hlen hs hd hjk v hvd
        have := H1 j hjk hlt
        omega
      · subst heq
        rw [hd] at hc
        cases hc
        exact hvd
      · have hjlen : j < cs.length := by
          by_contra hcon
          rw [List.getElem?_eq_none (by omega)] at hd
          cases hd
        have hjk : j - 1 < k.length := by omega
        have := key_le_child hlen hs hd (by omega) hjk v hvd
        have := H2 (j - 1) hjk (by omega)
        omega
  · intro hv
    exact child_subset_glueT hc (by omega) hv

/-! ## Search correctness -/

theorem searchLoop_succ (fuel : Nat) (n : Node) (v : Int) :
    Node.searchLoop (fuel + 1) n v =
      (if (n.search v).1 then some true
       else if n.leaf then some false
       else match n.children[(n.search v).2]? with
            | none => none
            | some c => Node.searchLoop fuel c v) := rfl

theorem searchLoop_correct :
    ∀ fuel (n : Node) (v : Int), n.structOk = true →
      List.Sorted (· ≤ ·) n.toList → n.height < fuel →
      Node.searchLoop fuel n v = some (decide (v ∈ n.toList)) := by
  intro fuel
  induction fuel with
  | zero => intro n v h1 h2 h3; omega
  | succ fuel ih =>
    rintro ⟨k, cs, l, o⟩ v hstruct hsort hh
    obtain ⟨hcnt, hkids⟩ := structOk_mk.1 hstruct
    cases l with
    | true =>
      simp only [toList_mk_leaf] at hsort ⊢
      rcases hf : ((Node.mk k cs true o).search v).1 with _ | _
      · have hnm : v ∉ k := search_false_not_mem _ v (by simpa using hsort) hf
        rw [searchLoop_succ, hf]
        simp [hnm]
      · have hm : v ∈ k := search_found_mem _ v hf
        rw [searchLoop_succ, hf]
        simp [hm]
    | false =>
      have hlen : cs.length = k.length + 1 := by simpa using hcnt
      simp only [toList_mk_int] at hsort ⊢
      have hsk : List.Sorted (· ≤ ·) k :=
        List.Pairwise.sublist (sublist_glueT cs k) hsort
      rcases hf : ((Node.mk k cs false o).search v).1 with _ | _
      · have hidx := search_idx_le (Node.mk k cs false o) v
        simp only [Node.keys_mk] at hidx
        have hcidx : ((Node.mk k cs false o).search v).2 < cs.length := by omega
        rcases hc : cs[((Node.mk k cs false o).search v).2]? with _ | c
        · rw [List.getElem?_eq_none_iff] at hc; omega
        · obtain ⟨H1, H2⟩ := search_partition (Node.mk k cs false o) v (by simpa using hsk) hf
          simp only [Node.keys_mk] at H1 H2
          have hmm := mem_glueT_iff_child hlen hsort hc H1 H2
          have hcs : c.structOk = true := hkids c (List.getElem?_mem hc)
          have hcsort : List.Sorted (· ≤ ·) c.toList := by
            have hdec := glueT_decomp hc hlen
            rw [hdec] at hsort
            exact sorted_of_decomp hsort
          have hch : c.height < fuel := by
            have := height_child_lt' (k := k) (o := o) hc
            omega
          have hrec := ih c v hcs hcsort hch
          rw [searchLoop_succ, hf]
          simp only [Node.leaf_mk, Node.children_mk, Bool.false_eq_true, if_false, hc]
          rw [hrec]
          by_cases hvm : v ∈ glueT cs k
          · simp [hvm, hmm.1 hvm]
          · have hnc : v ∉ c.toList := fun hvc => hvm (hmm.2 hvc)
            simp [hvm, hnc]
      · have hm : v ∈ k := search_found_mem _ v hf
        have hvg : v ∈ glueT cs k := keys_subset_glueT cs k hm
        rw [searchLoop_succ, hf]
        simp [hvg]

/-- Facade search computes membership in the stored multiset, on any
well-formed tree. -/
theorem BTree_search_correct (t : BTree) (v : Int) (hwf : t.wf = true) :
    t.search v = some (decide (v ∈ t.toList)) := by
  rcases t with ⟨root, o⟩
  rcases root with _ | r
  · simp [BTree.search, BTree.toList]
  · simp only [BTree.wf, Bool.and_eq_true] at hwf
    have hr := hwf.2
    simp only [Node.wfB, Bool.and_eq_true] at hr
    obtain ⟨⟨⟨⟨⟨hstruct, hord⟩, hsortb⟩, hdesc⟩, hunif⟩, hleaf⟩ := hr
    have hsort := (sortedB_iff _).1 hsortb
    simp only [BTree.search, BTree.toList]
    exact searchLoop_correct (r.height + 1) r v hstruct hsort (by omega)

/-! ## split_child specification -/

theorem glueT_key_decomp {cs : List Node} {ks : List Int} {j : Nat}
    (hlen : cs.length = ks.length + 1) (hj : j < ks.length) :
    glueT cs ks = glueT (cs.take (j + 1)) (ks.take j) ++
      (ks[j]) :: glueT (cs.drop (j + 1)) (ks.drop (j + 1)) := by
  induction j generalizing cs ks with
  | zero =>
    rcases cs with _ | ⟨c, cs1⟩
    · simp at hlen
    · rcases ks with _ | ⟨k, ks1⟩
      · simp at hj
      · simp [glueT_cons, glueT]
  | succ j ih =>
    rcases cs with _ | ⟨c, cs1⟩
    · simp at hlen
    · rcases ks with _ | ⟨k, ks1⟩
      · simp at hj
      · have hlen1 : cs1.length = ks1.length + 1 := by simpa using hlen
        have hj1 : j < ks1.length := by simpa using hj
        rw [glueT_cons, ih hlen1 hj1]
        simp [glueT_cons, List.take_succ_cons, List.drop_succ_cons]

theorem dropLast_take {α : Type} (l : List α) (i : Nat) (h : i < l.length) :
    (l.take (i + 1)).dropLast = l.take i := by
  rw [List.dropLast_eq_take, List.take_take]
  congr 1
  rw [List.length_take]
  omega

theorem getLast?_take {α : Type} (l : List α) (i : Nat) (h : i < l.length) :
    (l.take (i + 1)).getLast? = l[i]? := by
  rw [List.getLast?_eq_getElem?, List.length_take]
  have hm : min (i + 1) l.length = i + 1 := by omega
  rw [hm]
  simp only [Nat.add_sub_cancel]
  exact List.getElem?_take_of_lt (by omega)

theorem split_child_spec {k : List Int} {cs : List Node} {pl : Bool} {o childIdx : Nat}
    {c : Node} (hc : cs[childIdx]? = some c) (hknz : c.keys ≠ [])
    (hcc : c.leaf = false → c.children.length = c.keys.length + 1)
    (hki : childIdx ≤ k.length) :
    ∃ m,
      c.keys[c.keys.length / 2]? = some m ∧
      (Node.mk k cs pl o).split_child childIdx =
        some (.mk (k.insertIdx childIdx m)
          ((cs.set childIdx
              (Node.mk (c.keys.take (c.keys.length / 2))
                (if c.leaf then c.children else c.children.take (c.keys.length / 2 + 1))
                c.leaf c.order)).insertIdx (childIdx + 1)
            (Node.mk (c.keys.drop (c.keys.length / 2 + 1))
              (if c.leaf then [] else c.children.drop (c.keys.length / 2 + 1))
              c.leaf c.order)) pl o) ∧
      (Node.mk (c.keys.take (c.keys.length / 2))
          (if c.leaf then c.children else c.children.take (c.keys.length / 2 + 1))
          c.leaf c.order).toList ++ m ::
        (Node.mk (c.keys.drop (c.keys.length / 2 + 1))
          (if c.leaf then [] else c.children.drop (c.keys.length / 2 + 1))
          c.leaf c.order).toList = c.toList := by
  have hkpos : 0 < c.keys.length := List.length_pos.2 hknz
  have hmid : c.keys.length / 2 < c.keys.length := Nat.div_lt_self hkpos (by omega)
  obtain ⟨m, hm⟩ : ∃ m, c.keys[c.keys.length / 2]? = some m :=
    ⟨c.keys[c.keys.length / 2], List.getElem?_eq_getElem hmid⟩
  refine ⟨m, hm, ?_, ?_⟩
  · simp only [Node.split_child, hc]
    have hg1 : ¬(c.keys.length < c.keys.length / 2 + 1) := by omega
    have hg2 : ¬(¬c.leaf = true ∧ c.children.length < c.keys.length / 2 + 1) := by
      rintro ⟨hl, hlen2⟩
      have := hcc (by simpa using hl)
      omega
    have hg3 : ¬(k.length < childIdx) := by omega
    rw [if_neg hg1, if_neg hg2, if_neg hg3]
    rw [getLast?_take _ _ hmid, hm]
    simp only [Option.some.injEq]
    rw [dropLast_take _ _ hmid]
  · rcases c with ⟨ck, cc, cl, co⟩
    simp only [Node.keys_mk, Node.children_mk, Node.leaf_mk] at hm hcc ⊢
    cases cl with
    | true =>
      simp only [if_pos rfl, toList_mk_leaf]
      exact (list_eq_take_get_drop ck (ck.length / 2) m hm).symm
    | false =>
      have hcl : cc.length = ck.length + 1 := hcc rfl
      simp only [Bool.false_eq_true, if_false, toList_mk_int]
      have hj : ck.length / 2 < ck.length := by simpa using hmid
      have hd := glueT_key_decomp hcl hj
      obtain ⟨hlt, hget⟩ := List.getElem?_eq_some_iff.1 hm
      rw [hd, hget]

/-! ## Surgery helpers: heights, depths, sorted reassembly -/

theorem maxH_append (l1 l2 : List Node) : maxH (l1 ++ l2) = max (maxH l1) (maxH l2) := by
  induction l1 with
  | nil => simp [maxH]
  | cons c cs ih => simp [maxH, ih, Nat.max_assoc]

theorem allDepths_append (l1 l2 : List Node) :
    allDepths (l1 ++ l2) = allDepths l1 ++ allDepths l2 := by
  induction l1 with
  | nil => simp [allDepths]
  | cons c cs ih => simp [allDepths, ih]

theorem maxH_cons (c : Node) (cs : List Node) : maxH (c :: cs) = max c.height (maxH cs) := rfl

theorem allDepths_cons (c : Node) (cs : List Node) :
    allDepths (c :: cs) = c.depths.map (· + 1) ++ allDepths cs := rfl

@[simp] theorem depths_mk_leaf (k : List Int) (c : List Node) (o : Nat) :
    (Node.mk k c true o).depths = [0] := by
  simp [Node.depths]

@[simp] theorem depths_mk_int (k : List Int) (c : List Node) (o : Nat) :
    (Node.mk k c false o).depths = allDepths c := by
  simp [Node.depths]

theorem mem_take_imp {l : List Int} {i : Nat} {x : Int} (h : x ∈ l.take i) :
    ∃ (j : Nat) (hj : j < l.length), j < i ∧ l[j] = x := by
  obtain ⟨j, hj, he⟩ := List.mem_iff_getElem.1 h
  rw [List.length_take] at hj
  have hj2 : j < l.length := by omega
  refine ⟨j, hj2, by omega, ?_⟩
  rw [← he, List.getElem_take]

theorem mem_drop_imp {l : List Int} {i : Nat} {x : Int} (h : x ∈ l.drop i) :
    ∃ (j : Nat) (hj : j < l.length), i ≤ j ∧ l[j] = x := by
  obtain ⟨j, hj, he⟩ := List.mem_iff_getElem.1 h
  rw [List.length_drop] at hj
  have hj2 : i + j < l.length := by omega
  refine ⟨i + j, hj2, by omega, ?_⟩
  rw [← he, List.getElem_drop]

/-- Inserting a properly bounded value at the partition point of a sorted
list keeps it sorted. -/
theorem sorted_insert_mid {k : List Int} {v : Int} {i : Nat}
    (hs : List.Sorted (· ≤ ·) k) (hi : i ≤ k.length)
    (h1 : ∀ j (hj : j < k.length), j < i → k[j] ≤ v)
    (h2 : ∀ j (hj : j < k.length), i ≤ j → v ≤ k[j]) :
    List.Sorted (· ≤ ·) (k.take i ++ v :: k.drop i) := by
  rw [List.Sorted, List.pairwise_append]
  refine ⟨List.Pairwise.sublist (List.take_sublist i k) hs, ?_, ?_⟩
  · rw [List.pairwise_cons]
    refine ⟨?_, List.Pairwise.sublist (List.drop_sublist i k) hs⟩
    intro b hb
    obtain ⟨j, hj, hij, he⟩ := mem_drop_imp hb
    rw [← he]
    exact h2 j hj hij
  · intro a ha b hb
    obtain ⟨j, hj, hji, he⟩ := mem_take_imp ha
    rcases List.mem_cons.1 hb with rfl | hb2
    · rw [← he]; exact h1 j hj hji
    · obtain ⟨j2, hj2, hij2, he2⟩ := mem_drop_imp hb2
      rw [← he, ← he2]
      exact List.Sorted.rel_get_of_le hs (Fin.mk_le_mk.2 (by omega))

/-- Replacing the middle block of a sorted concatenation by a sorted block
with the same outer bounds keeps the whole sorted. -/
theorem sorted_replace_mid {A B B' C : List Int}
    (hs : List.Sorted (· ≤ ·) (A ++ B ++ C)) (hsB : List.Sorted (· ≤ ·) B')
    (hA : ∀ x ∈ B', ∀ a ∈ A, a ≤ x) (hC : ∀ x ∈ B', ∀ c ∈ C, x ≤ c) :
    List.Sorted (· ≤ ·) (A ++ B' ++ C) := by
  rw [List.Sorted, List.append_assoc, List.pairwise_append]
  rw [List.Sorted, List.append_assoc, List.pairwise_append] at hs
  obtain ⟨hsA, hsBC, hABC⟩ := hs
  rw [List.pairwise_append] at hsBC
  obtain ⟨hsB0, hsC, hBC⟩ := hsBC
  refine ⟨hsA, ?_, ?_⟩
  · rw [List.pairwise_append]
    exact ⟨hsB, hsC, fun x hx c hc => hC x hx c hc⟩
  · intro a ha y hy
    rcases List.mem_append.1 hy with hyB | hyC
    · exact hA y hyB a ha
    · exact hABC a ha y (List.mem_append.2 (Or.inr hyC))

/-- Weak partition bounds valid whether or not the search found the value. -/
theorem search_weak_bounds (n : Node) (v : Int) (hs : List.Sorted (· ≤ ·) n.keys) :
    (∀ j (hj : j < n.keys.length), j < (n.search v).2 → n.keys[j] ≤ v) ∧
    (∀ j (hj : j < n.keys.length), (n.search v).2 ≤ j → v ≤ n.keys[j]) := by
  rcases hf : (n.search v).1 with _ | _
  · obtain ⟨H1, H2⟩ := search_partition n v hs hf
    exact ⟨fun j hj h => le_of_lt (H1 j hj h), fun j hj h => le_of_lt (H2 j hj h)⟩
  · obtain ⟨hlt, he⟩ := (search_shape n v).1 hf
    constructor
    · intro j hj h
      rw [← he]
      exact List.Sorted.rel_get_of_le hs (Fin.mk_le_mk.2 (le_of_lt h))
    · intro j hj h
      rw [← he]
      exact List.Sorted.rel_get_of_le hs (Fin.mk_le_mk.2 h)

theorem glueT_cons_eq_glueS (c : Node) (cs : List Node) (ks : List Int) :
    glueT (c :: cs) ks = c.toList ++ glueS cs ks := by
  cases ks with
  | nil => simp [glueT, glueS]
  | cons k kr => simp [glueT, glueS]

theorem insertIdx_after_prefix {α : Type} (A B : List α) (x y : α) (i : Nat)
    (h : A.length = i) :
    (A ++ x :: B).insertIdx (i + 1) y = A ++ x :: y :: B := by
  induction A generalizing i with
  | nil =>
    subst h
    simp [List.insertIdx_succ_cons]
  | cons a A ih =>
    cases i with
    | zero => simp at h
    | succ j =>
      simp only [List.cons_append, List.insertIdx_succ_cons, List.cons.injEq, true_and]
      exact ih j (by simpa using h)

/-- Normal form of the two-step child surgery done by `split_child`. -/
theorem set_insert_decomp {cs : List Node} {childIdx : Nat} {lc rn : Node}
    (hci : childIdx < cs.length) :
    (cs.set childIdx lc).insertIdx (childIdx + 1) rn =
      cs.take childIdx ++ lc :: rn :: cs.drop (childIdx + 1) := by
  rw [list_setN_eq cs childIdx lc hci]
  exact insertIdx_after_prefix _ _ _ _ _ (by rw [List.length_take]; omega)

/-! ## Prefix/suffix bounds around an insertion point -/

theorem mem_glueT_imp {cs : List Node} {ks : List Int} {x : Int} (h : x ∈ glueT cs ks) :
    x ∈ ks ∨ ∃ (j : Nat) (c : Node), cs[j]? = some c ∧ j ≤ ks.length ∧ x ∈ c.toList := by
  induction cs generalizing ks with
  | nil => simp at h; exact Or.inl h
  | cons c cs ih =>
    cases ks with
    | nil =>
      simp only [glueT] at h
      exact Or.inr ⟨0, c, by simp, by simp, h⟩
    | cons k kr =>
      rw [glueT_cons] at h
      rcases List.mem_append.1 h with hx | hx
      · exact Or.inr ⟨0, c, by simp, by simp, hx⟩
      · rcases List.mem_cons.1 hx with rfl | hx2
        · exact Or.inl (by simp)
        · rcases ih hx2 with hk | ⟨j, d, hd, hj, hxd⟩
          · exact Or.inl (List.mem_cons.2 (Or.inr hk))
          · exact Or.inr ⟨j + 1, d, by simpa using hd, by simpa using hj, hxd⟩

theorem prefix_le_v {cs : List Node} {k : List Int} {idx : Nat} {v : Int}
    (hlen : cs.length = k.length + 1) (hs : List.Sorted (· ≤ ·) (glueT cs k))
    (hidx : idx ≤ k.length)
    (B1 : ∀ j (hj : j < k.length), j < idx → k[j] ≤ v) :
    ∀ x ∈ glueT (cs.take idx) (k.take idx), x ≤ v := by
  intro x hx
  rcases mem_glueT_imp hx with hk | ⟨j, d, hd, hj, hxd⟩
  · obtain ⟨j, hj, hji, he⟩ := mem_take_imp hk
    rw [← he]; exact B1 j hj hji
  · have hjlt : j < idx := by
      by_contra hcon
      rw [List.getElem?_eq_none (by rw [List.length_take]; omega)] at hd
      cases hd
    rw [List.getElem?_take_of_lt hjlt] at hd
    have hjk : j < k.length := by omega
    have := child_le_key hlen hs hd hjk x hxd
    have := B1 j hjk hjlt
    omega

theorem suffix_ge_v {cs : List Node} {k : List Int} {idx : Nat} {v : Int}
    (hlen : cs.length = k.length + 1) (hs : List.Sorted (· ≤ ·) (glueT cs k))
    (hidx : idx ≤ k.length)
    (B2 : ∀ j (hj : j < k.length), idx ≤ j → v ≤ k[j]) :
    ∀ x ∈ glueS (cs.drop (idx + 1)) (k.drop idx), v ≤ x := by
  intro x hx
  rcases hdk : k.drop idx with _ | ⟨k1, kr⟩
  · rw [hdk] at hx; simp [glueS] at hx
  · have hidx2 : idx < k.length := by
      by_contra hcon
      rw [List.drop_eq_nil_of_le (by omega)] at hdk
      cases hdk
    have hk1 : k1 = k[idx] := drop_cons_head hdk hidx2
    rw [hdk] at hx
    simp only [glueS, List.mem_cons] at hx
    rcases hx with rfl | hx2
    · rw [hk1]; exact B2 idx hidx2 (le_refl _)
    · have hkr : kr = k.drop (idx + 1) := by
        have h1 : (k.drop idx).tail = k.drop (idx + 1) := by
          rw [List.tail_drop]
        rw [hdk] at h1
        simpa using h1
      rcases mem_glueT_imp hx2 with hk | ⟨j, d, hd, hj, hxd⟩
      · rw [hkr] at hk
        obtain ⟨j, hj, hij, he⟩ := mem_drop_imp hk
        rw [← he]
        exact B2 j hj (by omega)
      · have hjlen : j < cs.length - (idx + 1) := by
          by_contra hcon
          rw [List.getElem?_eq_none (by rw [List.length_drop]; omega)] at hd
          cases hd
        rw [List.getElem?_drop] at hd
        have habs : idx + 1 + j < cs.length := by omega
        have hjk : idx + 1 + j - 1 < k.length := by omega
        have h3 := key_le_child hlen hs hd (by omega) hjk x hxd
        have h4 := B2 (idx + 1 + j - 1) hjk (by omega)
        omega

theorem glueT_set_form {cs : List Node} {k : List Int} {idx : Nat} (c' : Node)
    (hidx : idx < cs.length) (hik : idx ≤ k.length) :
    glueT (cs.set idx c') k =
      glueT (cs.take idx) (k.take idx) ++ c'.toList ++ glueS (cs.drop (idx + 1)) (k.drop idx) := by
  rw [list_setN_eq _ _ _ hidx]
  conv_lhs => rw [← List.take_append_drop idx k]
  rw [glueT_append (by rw [List.length_take, List.length_take]; omega)]
  rw [glueT_cons_eq_glueS, List.append_assoc]

/-- The in-order list of an internal node, decomposed at child `idx`
(restatement of `glueT_decomp` in the same shape as `glueT_set_form`). -/
theorem glueT_id_form {cs : List Node} {k : List Int} {idx : Nat} {c : Node}
    (hc : cs[idx]? = some c) (hlen : cs.length = k.length + 1) :
    glueT cs k =
      glueT (cs.take idx) (k.take idx) ++ c.toList ++ glueS (cs.drop (idx + 1)) (k.drop idx) :=
  glueT_decomp hc hlen

theorem getElem?_append_len {α : Type} (A B : List α) (x : α) :
    (A ++ x :: B)[A.length]? = some x := by
  rw [List.getElem?_append_right (le_refl _)]
  simp

theorem getElem?_append_len_succ {α : Type} (A B : List α) (x y : α) :
    (A ++ x :: y :: B)[A.length + 1]? = some y := by
  rw [List.getElem?_append_right (by omega)]
  simp

theorem getElem?_append_lt {α : Type} (A B : List α) (j : Nat) (h : j < A.length) :
    (A ++ B)[j]? = A[j]? := List.getElem?_append_left h

/-! ## Facts about the two halves produced by a split -/

theorem split_pieces {c : Node} (hstruct : c.structOk = true) (h3 : 3 ≤ c.keys.length) :
    (Node.mk (c.keys.take (c.keys.length / 2))
        (if c.leaf then c.children else c.children.take (c.keys.length / 2 + 1))
        c.leaf c.order).structOk = true ∧
    (Node.mk (c.keys.drop (c.keys.length / 2 + 1))
        (if c.leaf then [] else c.children.drop (c.keys.length / 2 + 1))
        c.leaf c.order).structOk = true ∧
    c.keys.take (c.keys.length / 2) ≠ [] ∧
    c.keys.drop (c.keys.length / 2 + 1) ≠ [] ∧
    max (Node.mk (c.keys.take (c.keys.length / 2))
        (if c.leaf then c.children else c.children.take (c.keys.length / 2 + 1))
        c.leaf c.order).height
      (Node.mk (c.keys.drop (c.keys.length / 2 + 1))
        (if c.leaf then [] else c.children.drop (c.keys.length / 2 + 1))
        c.leaf c.order).height = c.height ∧
    (∀ d, (d ∈ (Node.mk (c.keys.take (c.keys.length / 2))
        (if c.leaf then c.children else c.children.take (c.keys.length / 2 + 1))
        c.leaf c.order).depths ∨
      d ∈ (Node.mk (c.keys.drop (c.keys.length / 2 + 1))
        (if c.leaf then [] else c.children.drop (c.keys.length / 2 + 1))
        c.leaf c.order).depths) ↔ d ∈ c.depths) ∧
    ((∀ x ∈ c.children, x.subMin = true) →
      (Node.mk (c.keys.take (c.keys.length / 2))
        (if c.leaf then c.children else c.children.take (c.keys.length / 2 + 1))
        c.leaf c.order).subMin = true ∧
      (Node.mk (c.keys.drop (c.keys.length / 2 + 1))
        (if c.leaf then [] else c.children.drop (c.keys.length / 2 + 1))
        c.leaf c.order).subMin = true) ∧
    (∀ o, c.ordAll o = true →
      (Node.mk (c.keys.take (c.keys.length / 2))
        (if c.leaf then c.children else c.children.take (c.keys.length / 2 + 1))
        c.leaf c.order).ordAll o = true ∧
      (Node.mk (c.keys.drop (c.keys.length / 2 + 1))
        (if c.leaf then [] else c.children.drop (c.keys.length / 2 + 1))
        c.leaf c.order).ordAll o = true) ∧
    (c.unifH = true →
      (Node.mk (c.keys.take (c.keys.length / 2))
        (if c.leaf then c.children else c.children.take (c.keys.length / 2 + 1))
        c.leaf c.order).height = c.height ∧
      (Node.mk (c.keys.drop (c.keys.length / 2 + 1))
        (if c.leaf then [] else c.children.drop (c.keys.length / 2 + 1))
        c.leaf c.order).height = c.height ∧
      (Node.mk (c.keys.take (c.keys.length / 2))
        (if c.leaf then c.children else c.children.take (c.keys.length / 2 + 1))
        c.leaf c.order).unifH = true ∧
      (Node.mk (c.keys.drop (c.keys.length / 2 + 1))
        (if c.leaf then [] else c.children.drop (c.keys.length / 2 + 1))
        c.leaf c.order).unifH = true) := by
  rcases c with ⟨ck, cc, cl, co⟩
  simp only [Node.keys_mk, Node.children_mk, Node.leaf_mk, Node.order_mk] at h3 ⊢
  obtain ⟨hcnt, hkids⟩ := structOk_mk.1 hstruct
  have hmid1 : 1 ≤ ck.length / 2 := by omega
  have hmid2 : ck.length / 2 < ck.length := Nat.div_lt_self (by omega) (by omega)
  have hmid3 : ck.length / 2 + 1 < ck.length := by omega
  have htknz : ck.take (ck.length / 2) ≠ [] := by
    apply List.ne_nil_of_length_pos
    rw [List.length_take]; omega
  have hdknz : ck.drop (ck.length / 2 + 1) ≠ [] := by
    apply List.ne_nil_of_length_pos
    rw [List.length_drop]; omega
  cases cl with
  | true =>
    have hccnil : cc = [] := by simpa using hcnt
    subst hccnil
    refine ⟨by simp [structOk_mk], by simp [structOk_mk], htknz, hdknz, by simp, by simp [Node.depths], ?_, ?_, ?_⟩
    · intro _
      constructor <;> simp [subMin_mk, htknz, hdknz]
    · intro o ho
      obtain ⟨rfl, _⟩ := ordAll_mk.1 ho
      constructor <;> simp [ordAll_mk]
    · intro _
      refine ⟨by simp, by simp, ?_, ?_⟩
      all_goals
        apply unifH_mk.2
        constructor <;> simp
  | false =>
    have hccl : cc.length = ck.length + 1 := by simpa using hcnt
    have htc : (cc.take (ck.length / 2 + 1)).length = ck.length / 2 + 1 := by
      rw [List.length_take]; omega
    have hdc : (cc.drop (ck.length / 2 + 1)).length = cc.length - (ck.length / 2 + 1) := by
      rw [List.length_drop]
    refine ⟨?_, ?_, htknz, hdknz, ?_, ?_, ?_, ?_, ?_⟩
    · rw [structOk_mk]
      simp only [Bool.false_eq_true, if_false]
      refine ⟨by rw [htc, List.length_take]; omega, ?_⟩
      intro x hx
      exact hkids x (List.mem_of_mem_take hx)
    · rw [structOk_mk]
      simp only [Bool.false_eq_true, if_false]
      refine ⟨by rw [hdc, List.length_drop]; omega, ?_⟩
      intro x hx
      exact hkids x (List.mem_of_mem_drop hx)
    · simp only [Bool.false_eq_true, if_false, height_mk_int]
      have h9 : maxH (cc.take (ck.length / 2 + 1)) ⊔ maxH (cc.drop (ck.length / 2 + 1)) = maxH cc := by
        conv_rhs => rw [← List.take_append_drop (ck.length / 2 + 1) cc]
        rw [maxH_append]
      omega
    · intro d
      simp only [Bool.false_eq_true, if_false, Node.depths]
      conv_rhs => rw [← List.take_append_drop (ck.length / 2 + 1) cc]
      rw [allDepths_append]
      simp [List.mem_append]
    · intro hsub
      constructor
      · rw [subMin_mk]
        simp only [Bool.false_eq_true, if_false]
        exact ⟨htknz, fun x hx => hsub x (List.mem_of_mem_take hx)⟩
      · rw [subMin_mk]
        simp only [Bool.false_eq_true, if_false]
        exact ⟨hdknz, fun x hx => hsub x (List.mem_of_mem_drop hx)⟩
    · intro o ho
      obtain ⟨rfl, hkord⟩ := ordAll_mk.1 ho
      constructor
      · rw [ordAll_mk]
        simp only [Bool.false_eq_true, if_false]
        exact ⟨by trivial, fun x hx => hkord x (List.mem_of_mem_take hx)⟩
      · rw [ordAll_mk]
        simp only [Bool.false_eq_true, if_false]
        exact ⟨by trivial, fun x hx => hkord x (List.mem_of_mem_drop hx)⟩
    · intro hu
      obtain ⟨hueq, huall⟩ := unifH_mk.1 hu
      have htne : cc.take (ck.length / 2 + 1) ≠ [] := by
        apply List.ne_nil_of_length_pos
        rw [List.length_take]; omega
      have hdne : cc.drop (ck.length / 2 + 1) ≠ [] := by
        apply List.ne_nil_of_length_pos
        rw [List.length_drop]; omega
      have hmt : maxH (cc.take (ck.length / 2 + 1)) = maxH cc :=
        maxH_sublist_eq (fun x hx => List.mem_of_mem_take hx) htne hueq
      have hmd : maxH (cc.drop (ck.length / 2 + 1)) = maxH cc :=
        maxH_sublist_eq (fun x hx => List.mem_of_mem_drop hx) hdne hueq
      refine ⟨?_, ?_, ?_, ?_⟩
      · simp only [Bool.false_eq_true, if_false, height_mk_int]
        omega
      · simp only [Bool.false_eq_true, if_false, height_mk_int]
        omega
      · simp only [Bool.false_eq_true, if_false]
        apply unifH_mk.2
        exact ⟨fun x hx y hy => hueq x (List.mem_of_mem_take hx) y (List.mem_of_mem_take hy),
          fun x hx => huall x (List.mem_of_mem_take hx)⟩
      · simp only [Bool.false_eq_true, if_false]
        apply unifH_mk.2
        exact ⟨fun x hx y hy => hueq x (List.mem_of_mem_drop hx) y (List.mem_of_mem_drop hy),
          fun x hx => huall x (List.mem_of_mem_drop hx)⟩

/-! ## Assembly lemmas: child replacement and child split in a parent frame -/

theorem structOk_parts {n : Node} (h : n.structOk = true) :
    (n.leaf = true → n.children = []) ∧
    (n.leaf = false → n.children.length = n.keys.length + 1) ∧
    ∀ x ∈ n.children, x.structOk = true := by
  rcases n with ⟨k, cs, l, o⟩
  obtain ⟨h1, h2⟩ := structOk_mk.1 h
  cases l with
  | true => exact ⟨(fun _ => by simpa using h1), (fun hf => nomatch hf), h2⟩
  | false => exact ⟨(fun ht => nomatch ht), (fun _ => by simpa using h1), h2⟩

theorem subMin_parts {n : Node} (h : n.subMin = true) :
    n.keys ≠ [] ∧ ∀ x ∈ n.children, x.subMin = true := by
  rcases n with ⟨k, cs, l, o⟩
  exact subMin_mk.1 h

theorem ordAll_parts {o : Nat} {n : Node} (h : n.ordAll o = true) :
    n.order = o ∧ ∀ x ∈ n.children, x.ordAll o = true := by
  rcases n with ⟨k, cs, l, o2⟩
  exact ordAll_mk.1 h


theorem mem_map_add_one_iff {l1 l2 : List Nat} (h : ∀ d, d ∈ l1 ↔ d ∈ l2) (d : Nat) :
    d ∈ l1.map (· + 1) ↔ d ∈ l2.map (· + 1) := by
  simp only [List.mem_map]
  constructor
  · rintro ⟨d0, hd0, rfl⟩; exact ⟨d0, (h d0).1 hd0, rfl⟩
  · rintro ⟨d0, hd0, rfl⟩; exact ⟨d0, (h d0).2 hd0, rfl⟩

theorem assemble_set
    {k : List Int} {cs : List Node} {idx : Nat} {c c1 : Node} {o9 o : Nat} {v : Int}
    (hlen : cs.length = k.length + 1)
    (hc : cs[idx]? = some c)
    (hik : idx ≤ k.length)
    (hsort : List.Sorted (· ≤ ·) (glueT cs k))
    (B1 : ∀ j (hj : j < k.length), j < idx → k[j] ≤ v)
    (B2 : ∀ j (hj : j < k.length), idx ≤ j → v ≤ k[j])
    (hstruct : (Node.mk k cs false o9).structOk = true)
    (h1 : c1.structOk = true)
    (hperm : c1.toList.Perm (v :: c.toList))
    (hs1 : List.Sorted (· ≤ ·) c1.toList)
    (hh : c1.height = c.height)
    (hdep : ∀ d, d ∈ c1.depths ↔ d ∈ c.depths) :
    (Node.mk k (cs.set idx c1) false o9).structOk = true ∧
    List.Sorted (· ≤ ·) (glueT (cs.set idx c1) k) ∧
    (glueT (cs.set idx c1) k).Perm (v :: glueT cs k) ∧
    (Node.mk k (cs.set idx c1) false o9).height = (Node.mk k cs false o9).height ∧
    (∀ d, d ∈ (Node.mk k (cs.set idx c1) false o9).depths ↔
      d ∈ (Node.mk k cs false o9).depths) ∧
    ((Node.mk k cs false o9).ordAll o = true → c1.ordAll o = true →
      (Node.mk k (cs.set idx c1) false o9).ordAll o = true) ∧
    ((Node.mk k cs false o9).subMin = true → c1.subMin = true →
      (Node.mk k (cs.set idx c1) false o9).subMin = true) ∧
    ((Node.mk k cs false o9).unifH = true → c1.unifH = true →
      (Node.mk k (cs.set idx c1) false o9).unifH = true) := by
  have hidx : idx < cs.length := by omega
  obtain ⟨hcnt, hkids⟩ := structOk_mk.1 hstruct
  have hset : cs.set idx c1 = cs.take idx ++ c1 :: cs.drop (idx + 1) :=
    list_setN_eq cs idx c1 hidx
  have hid : cs = cs.take idx ++ c :: cs.drop (idx + 1) := list_eq_take_get_drop cs idx c hc
  have hmemset : ∀ x ∈ cs.set idx c1, x = c1 ∨ x ∈ cs := by
    intro x hx
    rcases List.mem_or_eq_of_mem_set hx with hx2 | rfl
    · exact Or.inr hx2
    · exact Or.inl rfl
  have hsform := glueT_set_form c1 hidx hik
  have hiform := glueT_id_form hc hlen
  have hAx : ∀ x ∈ c1.toList, ∀ a ∈ glueT (cs.take idx) (k.take idx), a ≤ x := by
    intro x hx a ha
    rcases List.mem_cons.1 (hperm.mem_iff.1 hx) with rfl | hxc
    · exact prefix_le_v hlen hsort hik B1 a ha
    · rw [hiform, List.append_assoc] at hsort
      exact sorted_append_pair hsort a ha x (List.mem_append.2 (Or.inl hxc))
  have hCx : ∀ x ∈ c1.toList, ∀ b ∈ glueS (cs.drop (idx + 1)) (k.drop idx), x ≤ b := by
    intro x hx b hb
    rcases List.mem_cons.1 (hperm.mem_iff.1 hx) with rfl | hxc
    · exact suffix_ge_v hlen hsort hik B2 b hb
    · rw [hiform, List.append_assoc] at hsort
      have h9 := (List.pairwise_append.1 hsort).2.1
      exact sorted_append_pair h9 x hxc b hb
  refine ⟨?_, ?_, ?_, ?_, ?_, ?_, ?_, ?_⟩
  · rw [structOk_mk]
    simp only [Bool.false_eq_true, if_false, List.length_set]
    refine ⟨by omega, ?_⟩
    intro x hx
    rcases hmemset x hx with rfl | hx2
    · exact h1
    · exact hkids x hx2
  · rw [hsform]
    rw [hiform] at hsort
    exact sorted_replace_mid hsort hs1 hAx hCx
  · rw [hsform, hiform]
    have p1 : (glueT (cs.take idx) (k.take idx) ++ c1.toList ++
        glueS (cs.drop (idx + 1)) (k.drop idx)).Perm
        (glueT (cs.take idx) (k.take idx) ++ (v :: c.toList) ++
          glueS (cs.drop (idx + 1)) (k.drop idx)) :=
      List.Perm.append_right _ (List.Perm.append_left _ hperm)
    refine p1.trans ?_
    have p2 : (glueT (cs.take idx) (k.take idx) ++ (v :: c.toList)).Perm
        (v :: (glueT (cs.take idx) (k.take idx) ++ c.toList)) := List.perm_middle
    have p3 := List.Perm.append_right (glueS (cs.drop (idx + 1)) (k.drop idx)) p2
    refine p3.trans ?_
    simp
  · simp only [height_mk_int]
    conv_lhs => rw [hset]
    conv_rhs => rw [hid]
    rw [maxH_append, maxH_append, maxH_cons, maxH_cons, hh]
  · intro d
    simp only [Node.depths, Bool.false_eq_true, if_false]
    conv_lhs => rw [hset]
    conv_rhs => rw [hid]
    rw [allDepths_append, allDepths_append, allDepths_cons, allDepths_cons]
    simp only [List.mem_append]
    have := mem_map_add_one_iff hdep d
    tauto
  · intro ho ho1
    obtain ⟨rfl, hkord⟩ := ordAll_mk.1 ho
    rw [ordAll_mk]
    refine ⟨rfl, ?_⟩
    intro x hx
    rcases hmemset x hx with rfl | hx2
    · exact ho1
    · exact hkord x hx2
  · intro hsub h1sub
    obtain ⟨hknz, hcsub⟩ := subMin_mk.1 hsub
    rw [subMin_mk]
    refine ⟨hknz, ?_⟩
    intro x hx
    rcases hmemset x hx with rfl | hx2
    · exact h1sub
    · exact hcsub x hx2
  · intro hu hu1
    obtain ⟨hueq, huall⟩ := unifH_mk.1 hu
    have hcmem : c ∈ cs := List.getElem?_mem hc
    have hgt : ∀ x ∈ cs.set idx c1, x.height = c.height := by
      intro x hx
      rcases hmemset x hx with rfl | hx2
      · exact hh
      · exact hueq x hx2 c hcmem
    apply unifH_mk.2
    constructor
    · intro x hx y hy
      rw [hgt x hx, hgt y hy]
    · intro x hx
      rcases hmemset x hx with rfl | hx2
      · exact hu1
      · exact huall x hx2

theorem mem_map_add_two_iff {l1 l2 l3 : List Nat}
    (h : ∀ d, (d ∈ l1 ∨ d ∈ l2) ↔ d ∈ l3) (d : Nat) :
    (d ∈ l1.map (· + 1) ∨ d ∈ l2.map (· + 1)) ↔ d ∈ l3.map (· + 1) := by
  simp only [List.mem_map]
  constructor
  · rintro (⟨d0, hd0, rfl⟩ | ⟨d0, hd0, rfl⟩)
    · exact ⟨d0, (h d0).1 (Or.inl hd0), rfl⟩
    · exact ⟨d0, (h d0).1 (Or.inr hd0), rfl⟩
  · rintro ⟨d0, hd0, rfl⟩
    rcases (h d0).2 hd0 with h1 | h2
    · exact Or.inl ⟨d0, h1, rfl⟩
    · exact Or.inr ⟨d0, h2, rfl⟩

theorem assemble_split {k : List Int} {cs : List Node} {idx : Nat} {c : Node} {o9 : Nat}
    (hlen : cs.length = k.length + 1)
    (hc : cs[idx]? = some c)
    (hik : idx ≤ k.length)
    (hcstruct : c.structOk = true)
    (hkids : ∀ x ∈ cs, x.structOk = true)
    (h3 : 3 ≤ c.keys.length) :
    ∃ n1 m,
      (Node.mk k cs false o9).split_child idx = some n1 ∧
      n1.toList = (Node.mk k cs false o9).toList ∧
      n1.structOk = true ∧
      n1.height = (Node.mk k cs false o9).height ∧
      (∀ d, d ∈ n1.depths ↔ d ∈ (Node.mk k cs false o9).depths) ∧
      n1.leaf = false ∧ n1.order = o9 ∧
      n1.keys.length = k.length + 1 ∧
      (∀ o, (Node.mk k cs false o9).ordAll o = true → n1.ordAll o = true) ∧
      ((∀ x ∈ cs, x.subMin = true) → ∀ x ∈ n1.children, x.subMin = true) ∧
      ((Node.mk k cs false o9).unifH = true → n1.unifH = true) ∧
      c.keys[c.keys.length / 2]? = some m ∧
      n1.keys = k.take idx ++ m :: k.drop idx ∧
      n1.children = cs.take idx ++
        (Node.mk (c.keys.take (c.keys.length / 2))
          (if c.leaf then c.children else c.children.take (c.keys.length / 2 + 1))
          c.leaf c.order) ::
        (Node.mk (c.keys.drop (c.keys.length / 2 + 1))
          (if c.leaf then [] else c.children.drop (c.keys.length / 2 + 1))
          c.leaf c.order) ::
        cs.drop (idx + 1) ∧
      (Node.mk (c.keys.take (c.keys.length / 2))
          (if c.leaf then c.children else c.children.take (c.keys.length / 2 + 1))
          c.leaf c.order).toList ++ m ::
        (Node.mk (c.keys.drop (c.keys.length / 2 + 1))
          (if c.leaf then [] else c.children.drop (c.keys.length / 2 + 1))
          c.leaf c.order).toList = c.toList := by
  have hidx : idx < cs.length := by omega
  obtain ⟨hcleaf, hccnt, hckids⟩ := structOk_parts hcstruct
  have hknz : c.keys ≠ [] := by
    apply List.ne_nil_of_length_pos; omega
  obtain ⟨m, hm, heq, htl⟩ := @split_child_spec k cs false o9 idx c hc hknz hccnt hik
  obtain ⟨hlcS, hrnS, hlcK, hrnK, hmaxEq, hdepEq, hsubEq, hordEq, hunifEq⟩ :=
    split_pieces hcstruct h3
  set lc := Node.mk (c.keys.take (c.keys.length / 2))
    (if c.leaf then c.children else c.children.take (c.keys.length / 2 + 1)) c.leaf c.order
    with hlc
  set rn := Node.mk (c.keys.drop (c.keys.length / 2 + 1))
    (if c.leaf then [] else c.children.drop (c.keys.length / 2 + 1)) c.leaf c.order
    with hrn
  have hchform : (cs.set idx lc).insertIdx (idx + 1) rn =
      cs.take idx ++ lc :: rn :: cs.drop (idx + 1) := set_insert_decomp hidx
  have hkform : k.insertIdx idx m = k.take idx ++ m :: k.drop idx :=
    list_insertIdx_eq k idx m hik
  have hkAlen : (k.take idx).length = idx := by rw [List.length_take]; omega
  have hAlen : (cs.take idx).length = idx := by rw [List.length_take]; omega
  have hBlen : (cs.drop (idx + 1)).length = cs.length - idx - 1 := by
    rw [List.length_drop]; omega
  have hkBlen : (k.drop idx).length = k.length - idx := by rw [List.length_drop]
  have hid : cs = cs.take idx ++ c :: cs.drop (idx + 1) := list_eq_take_get_drop cs idx c hc
  have hmemA : ∀ x ∈ cs.take idx, x ∈ cs := fun x hx => List.mem_of_mem_take hx
  have hmemB : ∀ x ∈ cs.drop (idx + 1), x ∈ cs := fun x hx => List.mem_of_mem_drop hx
  rw [hchform, hkform] at heq
  refine ⟨_, m, heq, ?_, ?_, ?_, ?_, by simp, by simp, ?_, ?_, ?_, ?_, hm,
    by simp, by simp, htl⟩
  · simp only [toList_mk_int]
    conv_lhs => rw [show k.take idx ++ m :: k.drop idx =
      k.take idx ++ (m :: k.drop idx) from rfl]
    rw [glueT_append (by omega)]
    rw [glueT_cons, glueT_cons_eq_glueS]
    conv_rhs => rw [glueT_id_form hc hlen]
    rw [← htl]
    simp [List.append_assoc]
  · rw [structOk_mk]
    simp only [Bool.false_eq_true, if_false]
    constructor
    · simp only [List.length_append, List.length_cons, hAlen, hBlen, hkAlen, hkBlen]
      omega
    · intro x hx
      simp only [List.mem_append, List.mem_cons] at hx
      rcases hx with hA | rfl | rfl | hB
      · exact hkids x (hmemA x hA)
      · exact hlcS
      · exact hrnS
      · exact hkids x (hmemB x hB)
  · simp only [height_mk_int]
    conv_rhs => rw [hid]
    rw [maxH_append, maxH_append, maxH_cons, maxH_cons, maxH_cons]
    omega
  · intro d
    simp only [Node.depths, Bool.false_eq_true, if_false]
    conv_rhs => rw [hid]
    rw [allDepths_append, allDepths_append, allDepths_cons, allDepths_cons, allDepths_cons]
    simp only [List.mem_append]
    have h9 := mem_map_add_two_iff hdepEq d
    tauto
  · simp only [Node.keys_mk, List.length_append, List.length_cons, hkAlen, hkBlen]
    omega
  · intro o ho
    obtain ⟨rfl, hkord⟩ := ordAll_mk.1 ho
    rw [ordAll_mk]
    refine ⟨by trivial, ?_⟩
    intro x hx
    simp only [List.mem_append, List.mem_cons] at hx
    rcases hx with hA | rfl | rfl | hB
    · exact hkord x (hmemA x hA)
    · exact (hordEq _ (hkord c (List.getElem?_mem hc))).1
    · exact (hordEq _ (hkord c (List.getElem?_mem hc))).2
    · exact hkord x (hmemB x hB)
  · intro hsub x hx
    simp only [Node.children_mk, List.mem_append, List.mem_cons] at hx
    have hcsub := hsub c (List.getElem?_mem hc)
    have hcchild : ∀ y ∈ c.children, y.subMin = true := by
      rcases c with ⟨ck, cc, cl2, co2⟩
      exact (subMin_mk.1 hcsub).2
    rcases hx with hA | rfl | rfl | hB
    · exact hsub x (hmemA x hA)
    · exact (hsubEq hcchild).1
    · exact (hsubEq hcchild).2
    · exact hsub x (hmemB x hB)
  · intro hu
    obtain ⟨hueq, huall⟩ := unifH_mk.1 hu
    have hcmem2 : c ∈ cs := List.getElem?_mem hc
    have hcu : c.unifH = true := huall c hcmem2
    obtain ⟨hlcH, hrnH, hlcU, hrnU⟩ := hunifEq hcu
    apply unifH_mk.2
    constructor
    · have hgt : ∀ x ∈ cs.take idx ++ lc :: rn :: cs.drop (idx + 1), x.height = c.height := by
        intro x hx
        simp only [List.mem_append, List.mem_cons] at hx
        rcases hx with hA | rfl | rfl | hB
        · exact hueq x (hmemA x hA) c hcmem2
        · exact hlcH
        · exact hrnH
        · exact hueq x (hmemB x hB) c hcmem2
      intro x hx y hy
      rw [hgt x hx, hgt y hy]
    · intro x hx
      simp only [List.mem_append, List.mem_cons] at hx
      rcases hx with hA | rfl | rfl | hB
      · exact huall x (hmemA x hA)
      · exact hlcU
      · exact hrnU
      · exact huall x (hmemB x hB)

theorem frame_getElem {k : List Int} {m : Int} {idx j : Nat} (hik : idx ≤ k.length)
    (hj : j < (k.take idx ++ m :: k.drop idx).length) :
    (j < idx ∧ ∃ hjk : j < k.length,
        (k.take idx ++ m :: k.drop idx)[j] = k[j]) ∨
    (j = idx ∧ (k.take idx ++ m :: k.drop idx)[j] = m) ∨
    (idx < j ∧ ∃ hjk : j - 1 < k.length,
        (k.take idx ++ m :: k.drop idx)[j] = k[j - 1]) := by
  have hkAlen : (k.take idx).length = idx := by rw [List.length_take]; omega
  have hlen : (k.take idx ++ m :: k.drop idx).length = k.length + 1 := by
    simp [List.length_take, List.length_drop]; omega
  have hsome : (k.take idx ++ m :: k.drop idx)[j]? =
      some ((k.take idx ++ m :: k.drop idx)[j]) := List.getElem?_eq_getElem hj
  rcases Nat.lt_trichotomy j idx with hlt | rfl | hgt
  · left
    refine ⟨hlt, by omega, ?_⟩
    rw [getElem?_append_lt _ _ _ (by omega), List.getElem?_take_of_lt hlt,
      List.getElem?_eq_getElem (by omega : j < k.length)] at hsome
    exact (Option.some_injective _ hsome).symm
  · right; left
    refine ⟨rfl, ?_⟩
    have h2 := getElem?_append_len (k.take j) (k.drop j) m
    rw [hkAlen] at h2
    rw [h2] at hsome
    exact (Option.some_injective _ hsome.symm)
  · right; right
    refine ⟨hgt, by omega, ?_⟩
    rw [List.getElem?_append_right (by omega : (k.take idx).length ≤ j)] at hsome
    rw [hkAlen] at hsome
    rcases hsub : j - idx with _ | j2
    · omega
    · rw [hsub] at hsome
      simp only [List.getElem?_cons_succ] at hsome
      rw [List.getElem?_drop] at hsome
      have hje : idx + j2 = j - 1 := by omega
      rw [hje] at hsome
      rw [List.getElem?_eq_getElem (by omega : j - 1 < k.length)] at hsome
      exact (Option.some_injective _ hsome).symm

theorem frame_bounds {k : List Int} {m v : Int} {idx idx2 : Nat} (hik : idx ≤ k.length)
    (B1 : ∀ j (hj : j < k.length), j < idx → k[j] ≤ v)
    (B2 : ∀ j (hj : j < k.length), idx ≤ j → v ≤ k[j])
    (hcase : (idx2 = idx ∧ v ≤ m) ∨ (idx2 = idx + 1 ∧ m ≤ v)) :
    (∀ j (hj : j < (k.take idx ++ m :: k.drop idx).length), j < idx2 →
        (k.take idx ++ m :: k.drop idx)[j] ≤ v) ∧
    (∀ j (hj : j < (k.take idx ++ m :: k.drop idx).length), idx2 ≤ j →
        v ≤ (k.take idx ++ m :: k.drop idx)[j]) := by
  constructor
  · intro j hj hji
    rcases frame_getElem hik hj with ⟨hlt, hjk, he⟩ | ⟨rfl, he⟩ | ⟨hgt, hjk, he⟩
    · rw [he]; exact B1 j hjk hlt
    · rw [he]
      rcases hcase with ⟨he2, _⟩ | ⟨he2, hmv⟩
      · omega
      · exact hmv
    · rcases hcase with ⟨rfl, _⟩ | ⟨rfl, _⟩ <;> omega
  · intro j hj hji
    rcases frame_getElem hik hj with ⟨hlt, hjk, he⟩ | ⟨rfl, he⟩ | ⟨hgt, hjk, he⟩
    · rcases hcase with ⟨rfl, _⟩ | ⟨rfl, _⟩ <;> omega
    · rw [he]
      rcases hcase with ⟨he2, hvm⟩ | ⟨he2, _⟩
      · exact hvm
      · omega
    · rw [he]; exact B2 (j - 1) hjk (by omega)

/-! ## insert_non_full master specification -/

theorem getElem?_set_self {l : List Node} {i : Nat} {a : Node} (h : i < l.length) :
    (l.set i a)[i]? = some a := by
  rw [list_setN_eq l i a h]
  have h2 := getElem?_append_len (l.take i) (l.drop (i + 1)) a
  rw [List.length_take] at h2
  rw [show min i l.length = i by omega] at h2
  exact h2

theorem node_eta (n : Node) : Node.mk n.keys n.children n.leaf n.order = n := by
  rcases n with ⟨k, cs, l, o⟩
  rfl

/-- Bundle of conclusions of the `insert_non_full` specification. -/
def InsOut (o : Nat) (v : Int) (n n' : Node) : Prop :=
  n'.structOk = true ∧ n'.ordAll o = true ∧
  List.Sorted (· ≤ ·) n'.toList ∧
  n'.toList.Perm (v :: n.toList) ∧
  n'.height = n.height ∧
  (∀ d, d ∈ n'.depths ↔ d ∈ n.depths) ∧
  n'.leaf = n.leaf ∧ n'.order = n.order ∧
  n.keys.length ≤ n'.keys.length ∧ n'.keys.length ≤ n.keys.length + 1 ∧
  (n.subMin = true → n'.subMin = true) ∧
  (n.unifH = true → n'.unifH = true)

theorem insNF_succ (fuel : Nat) (k : List Int) (cs : List Node) (l : Bool) (o : Nat) (v : Int) :
    Node.insert_non_full (fuel + 1) (.mk k cs l o) v =
      (if l then
        (if k.length < ((Node.mk k cs l o).search v).2 then none
         else some (.mk (k.insertIdx ((Node.mk k cs l o).search v).2 v) cs l o))
      else
        match cs[((Node.mk k cs l o).search v).2]? with
        | none => none
        | some c =>
          if c.order = 3 ∧ c.keys.length = 2 then
            match Node.insert_non_full fuel c v with
            | none => none
            | some c1 =>
              if c1.keys.length = 3 then
                (Node.mk k (cs.set ((Node.mk k cs l o).search v).2 c1) l o).split_child
                  ((Node.mk k cs l o).search v).2
              else some (.mk k (cs.set ((Node.mk k cs l o).search v).2 c1) l o)
          else if c.keys.length = c.order - 1 then
            match (Node.mk k cs l o).split_child ((Node.mk k cs l o).search v).2 with
            | none => none
            | some n1 =>
              match n1.keys[((Node.mk k cs l o).search v).2]? with
              | none => none
              | some promoted =>
                match n1.children[if promoted < v then ((Node.mk k cs l o).search v).2 + 1
                                  else ((Node.mk k cs l o).search v).2]? with
                | none => none
                | some c2 =>
                  match Node.insert_non_full fuel c2 v with
                  | none => none
                  | some c3 =>
                    some (.mk n1.keys
                      (n1.children.set (if promoted < v then ((Node.mk k cs l o).search v).2 + 1
                                        else ((Node.mk k cs l o).search v).2) c3)
                      n1.leaf n1.order)
          else
            match Node.insert_non_full fuel c v with
            | none => none
            | some c1 => some (.mk k (cs.set ((Node.mk k cs l o).search v).2 c1) l o)) := rfl

theorem insNF_spec :
    ∀ fuel (n : Node) (v : Int) (o : Nat), 3 ≤ o →
      n.structOk = true → n.ordAll o = true →
      List.Sorted (· ≤ ·) n.toList → n.height < fuel →
      ∃ n', Node.insert_non_full fuel n v = some n' ∧ InsOut o v n n' := by
  intro fuel
  induction fuel with
  | zero => intro n v o h3 h1 h2 hs hh; omega
  | succ fuel ih =>
    rintro ⟨k, cs, l, o9⟩ v o h3 hstruct hord hsort hh
    obtain ⟨ho9, hkord⟩ := ordAll_parts hord
    simp only [Node.order_mk] at ho9
    subst ho9
    rw [insNF_succ]
    cases l with
    | true =>
      set idx := ((Node.mk k cs true o9).search v).2 with hidxdef
      have hik : idx ≤ k.length := search_idx_le _ v
      rw [if_pos (show (true : Bool) = true from rfl)]
      simp only [toList_mk_leaf] at hsort
      rw [if_neg (show ¬(k.length < idx) by omega)]
      refine ⟨_, rfl, ?_⟩
      obtain ⟨B1, B2⟩ := search_weak_bounds (Node.mk k cs true o9) v (by simpa using hsort)
      simp only [Node.keys_mk] at B1 B2
      have hform := list_insertIdx_eq k idx v hik
      obtain ⟨hleafC, _, hkids⟩ := structOk_parts hstruct
      have hcsnil : cs = [] := hleafC rfl
      subst hcsnil
      refine ⟨by simp [structOk_mk], by simp [ordAll_mk], ?_, ?_, by simp, by simp, by simp,
        by simp, ?_, ?_, ?_, ?_⟩
      · simp only [toList_mk_leaf, hform]
        exact sorted_insert_mid (by simpa using hsort) hik B1 B2
      · simp only [toList_mk_leaf, hform]
        refine List.Perm.trans List.perm_middle ?_
        rw [List.take_append_drop]
      · simp only [Node.keys_mk]
        rw [hform]
        simp only [List.length_append, List.length_cons, List.length_take, List.length_drop]
        omega
      · simp only [Node.keys_mk]
        rw [hform]
        simp only [List.length_append, List.length_cons, List.length_take, List.length_drop]
        omega
      · intro hsub
        rw [subMin_mk]
        refine ⟨?_, by simp⟩
        apply List.ne_nil_of_length_pos
        rw [hform]
        simp [List.length_take, List.length_drop]
      · intro _
        exact unifH_nil_children
    | false =>
      set idx := ((Node.mk k cs false o9).search v).2 with hidxdef
      have hik : idx ≤ k.length := search_idx_le _ v
      rw [if_neg (show ¬((false : Bool) = true) by simp)]
      obtain ⟨_, hcntf, hkids⟩ := structOk_parts hstruct
      have hlen : cs.length = k.length + 1 := by simpa using hcntf rfl
      simp only [toList_mk_int] at hsort
      have hsk : List.Sorted (· ≤ ·) k :=
        List.Pairwise.sublist (sublist_glueT cs k) hsort
      obtain ⟨B1, B2⟩ := search_weak_bounds (Node.mk k cs false o9) v (by simpa using hsk)
      simp only [Node.keys_mk] at B1 B2
      rcases hc : cs[idx]? with _ | c
      · rw [List.getElem?_eq_none_iff] at hc; omega
      · simp only [hc]
        have hcmem : c ∈ cs := List.getElem?_mem hc
        have hcstruct : c.structOk = true := hkids c hcmem
        have hcord : c.ordAll o9 = true := hkord c hcmem
        have hcord2 : c.order = o9 := (ordAll_parts hcord).1
        have hcsort : List.Sorted (· ≤ ·) c.toList := by
          rw [glueT_id_form hc hlen] at hsort
          exact sorted_of_decomp hsort
        have hsort0 : List.Sorted (· ≤ ·) (glueT cs k) := hsort
        have hch : c.height < fuel := by
          have := height_child_lt' (k := k) (o := o9) hc
          simp only [height_mk_int] at this hh ⊢
          omega
        by_cases hA : c.order = 3 ∧ c.keys.length = 2
        · rw [if_pos hA]
          obtain ⟨c1, hc1, hc1struct, hc1ord, hc1sort, hc1perm, hc1h, hc1dep, hc1leaf,
            hc1order, hc1klo, hc1khi, hc1sub, hc1unif⟩ := ih c v o9 h3 hcstruct hcord hcsort hch
          simp only [hc1]
          obtain ⟨hA1, hA2, hA3, hA4, hA5, hA6, hA7, hA8⟩ :=
            assemble_set hlen hc hik hsort0 B1 B2 hstruct hc1struct hc1perm hc1sort hc1h hc1dep
          by_cases h33 : c1.keys.length = 3
          · rw [if_pos h33]
            have hsetlen : (cs.set idx c1).length = k.length + 1 := by
              rw [List.length_set]; exact hlen
            have hsetc : (cs.set idx c1)[idx]? = some c1 := getElem?_set_self (by omega)
            have hsetkids : ∀ x ∈ cs.set idx c1, x.structOk = true := by
              intro x hx
              rcases List.mem_or_eq_of_mem_set hx with hx2 | rfl
              · exact hkids x hx2
              · exact hc1struct
            obtain ⟨n1, m, hn1eq, hn1tl, hn1struct, hn1h, hn1dep, hn1leaf, hn1order,
              hn1klen, hn1ord, hn1sub, hn1unif, _, _, _, _⟩ :=
              @assemble_split k (cs.set idx c1) idx c1 o9 hsetlen hsetc hik hc1struct hsetkids (by omega)
            refine ⟨n1, hn1eq, hn1struct, hn1ord o9 (hA6 hord hc1ord), ?_, ?_, ?_, ?_,
              by simp [hn1leaf], by simp [hn1order], ?_, ?_, ?_, ?_⟩
            · rw [hn1tl]
              simpa using hA2
            · rw [hn1tl]
              simpa using hA3
            · rw [hn1h]
              simpa using hA4
            · intro d
              rw [hn1dep d]
              exact hA5 d
            · simp only [Node.keys_mk] at hn1klen ⊢
              omega
            · simp only [Node.keys_mk] at hn1klen ⊢
              omega
            · intro hsub
              obtain ⟨hknz2, hcsub⟩ := subMin_parts hsub
              simp only [Node.keys_mk, Node.children_mk] at hknz2 hcsub
              have hn1csub : ∀ x ∈ n1.children, x.subMin = true := by
                apply hn1sub
                intro y hy
                rcases List.mem_or_eq_of_mem_set hy with hy2 | rfl
                · exact hcsub y hy2
                · exact hc1sub (hcsub c hcmem)
              rcases n1 with ⟨n1k, n1c, n1l, n1o⟩
              rw [subMin_mk]
              refine ⟨?_, hn1csub⟩
              apply List.ne_nil_of_length_pos
              simp only [Node.keys_mk] at hn1klen
              omega
            · intro hu
              exact hn1unif (hA8 hu (hc1unif ((unifH_mk.1 hu).2 c hcmem)))
          · rw [if_neg h33]
            refine ⟨_, rfl, hA1, hA6 hord hc1ord, by simpa using hA2, by simpa using hA3,
              by simpa using hA4, hA5, by simp, by simp, by simp, by simp, ?_, ?_⟩
            · intro hsub
              obtain ⟨hknz2, hcsub⟩ := subMin_parts hsub
              simp only [Node.keys_mk, Node.children_mk] at hknz2 hcsub
              exact hA7 hsub (hc1sub (hcsub c hcmem))
            · intro hu
              exact hA8 hu (hc1unif ((unifH_mk.1 hu).2 c hcmem))
        · rw [if_neg hA]
          by_cases hB : c.keys.length = c.order - 1
          · rw [if_pos hB]
            have ho4 : 4 ≤ o9 := by
              by_contra hcon
              have ho3 : o9 = 3 := by omega
              rw [hcord2, ho3] at hB
              exact hA ⟨by rw [hcord2, ho3], by omega⟩
            have h3c : 3 ≤ c.keys.length := by
              rw [hB, hcord2]; omega
            obtain ⟨n1, m, hn1eq, hn1tl, hn1struct, hn1h, hn1dep, hn1leaf, hn1order,
              hn1klen, hn1ord, hn1sub, hn1unif, hmval, hn1keys, hn1kids, hn1split⟩ :=
              @assemble_split k cs idx c o9 hlen hc hik hcstruct hkids h3c
            simp only [hn1eq]
            rcases n1 with ⟨n1k, n1c, n1l, n1o⟩
            simp only [Node.keys_mk, Node.children_mk, Node.leaf_mk, Node.order_mk]
              at hn1tl hn1h hn1dep hn1leaf hn1order hn1klen hn1keys hn1kids hn1sub ⊢
            subst hn1leaf
            have hn1oflip : o9 = n1o := hn1order.symm
            subst hn1oflip
            have hkAlen : (k.take idx).length = idx := by rw [List.length_take]; omega
            have hAlen : (cs.take idx).length = idx := by rw [List.length_take]; omega
            have hprom : n1k[idx]? = some m := by
              rw [hn1keys]
              have h9 := getElem?_append_len (k.take idx) (k.drop idx) m
              rw [hkAlen] at h9
              exact h9
            simp only [hprom]
            have hn1ordT : (Node.mk n1k n1c false o9).ordAll o9 = true := hn1ord o9 hord
            obtain ⟨_, hn1cntf, hn1kidsS⟩ := structOk_parts hn1struct
            have hn1len : n1c.length = n1k.length + 1 := by simpa using hn1cntf rfl
            obtain ⟨_, hn1kord⟩ := ordAll_parts hn1ordT
            simp only [Node.children_mk] at hn1kidsS hn1kord
            set lc := Node.mk (c.keys.take (c.keys.length / 2))
              (if c.leaf then c.children else c.children.take (c.keys.length / 2 + 1))
              c.leaf c.order with hlcdef
            set rn := Node.mk (c.keys.drop (c.keys.length / 2 + 1))
              (if c.leaf then [] else c.children.drop (c.keys.length / 2 + 1))
              c.leaf c.order with hrndef
            set idx2 := if m < v then idx + 1 else idx with hidx2def
            have hc2get : n1c[idx2]? = some (if m < v then rn else lc) := by
              rw [hn1kids, hidx2def]
              by_cases hmv : m < v
              · rw [if_pos hmv, if_pos hmv]
                have h9 := getElem?_append_len_succ (cs.take idx) (cs.drop (idx + 1)) lc rn
                rw [hAlen] at h9
                exact h9
              · rw [if_neg hmv, if_neg hmv]
                have h9 := getElem?_append_len (cs.take idx) (rn :: cs.drop (idx + 1)) lc
                rw [hAlen] at h9
                exact h9
            set c2 := if m < v then rn else lc with hc2def
            simp only [hc2get]
            have hc2mem : c2 ∈ n1c := List.getElem?_mem hc2get
            have hc2struct : c2.structOk = true := hn1kidsS c2 hc2mem
            have hc2ord : c2.ordAll o9 = true := hn1kord c2 hc2mem
            have hidx2le : idx2 ≤ n1k.length := by
              rw [hidx2def]
              by_cases hmv : m < v
              · rw [if_pos hmv]; omega
              · rw [if_neg hmv]; omega
            have hn1sortT : List.Sorted (· ≤ ·) (glueT n1c n1k) := by
              have h9 : (Node.mk n1k n1c false o9).toList = glueT n1c n1k := toList_mk_int _ _ _
              rw [← h9, hn1tl]
              simpa using hsort
            have hc2sort : List.Sorted (· ≤ ·) c2.toList := by
              have h9 := hn1sortT
              rw [glueT_id_form hc2get hn1len] at h9
              exact sorted_of_decomp h9
            have hc2h : c2.height < fuel := by
              have h9 : c2.height < (Node.mk n1k n1c false o9).height :=
                height_child_lt hc2mem
              rw [hn1h] at h9
              simp only [height_mk_int] at h9 hh
              omega
            obtain ⟨c3, hc3, hc3struct, hc3ord, hc3sort, hc3perm, hc3h, hc3dep, hc3leaf,
              hc3order, hc3klo, hc3khi, hc3sub, hc3unif⟩ := ih c2 v o9 h3 hc2struct hc2ord hc2sort hc2h
            simp only [hc3]
            have hcase : (idx2 = idx ∧ v ≤ m) ∨ (idx2 = idx + 1 ∧ m ≤ v) := by
              rw [hidx2def]
              by_cases hmv : m < v
              · rw [if_pos hmv]
                right; exact ⟨rfl, by omega⟩
              · rw [if_neg hmv]
                left; exact ⟨rfl, by omega⟩
            have hFB := frame_bounds (m := m) hik B1 B2 hcase
            have hB1f : ∀ j (hj : j < n1k.length), j < idx2 → n1k[j] ≤ v := by
              intro j hj hji
              have hj2 : j < (k.take idx ++ m :: k.drop idx).length := by
                rw [← hn1keys]; exact hj
              have h9 := hFB.1 j hj2 hji
              have h10 : (k.take idx ++ m :: k.drop idx)[j] = n1k[j] := by
                congr 1
                · exact hn1keys.symm
              rw [← h10]
              exact h9
            have hB2f : ∀ j (hj : j < n1k.length), idx2 ≤ j → v ≤ n1k[j] := by
              intro j hj hji
              have hj2 : j < (k.take idx ++ m :: k.drop idx).length := by
                rw [← hn1keys]; exact hj
              have h9 := hFB.2 j hj2 hji
              have h10 : (k.take idx ++ m :: k.drop idx)[j] = n1k[j] := by
                congr 1
                · exact hn1keys.symm
              rw [← h10]
              exact h9
            obtain ⟨hS1, hS2, hS3, hS4, hS5, hS6, hS7, hS8⟩ :=
              @assemble_set n1k n1c idx2 c2 c3 o9 o9 v hn1len hc2get hidx2le hn1sortT
                hB1f hB2f hn1struct hc3struct hc3perm hc3sort hc3h hc3dep
            refine ⟨_, rfl, hS1, hS6 hn1ordT hc3ord, ?_, ?_, ?_, ?_, by simp, by simp,
              ?_, ?_, ?_, ?_⟩
            · simpa using hS2
            · simp only [toList_mk_int]
              refine hS3.trans ?_
              have h9 : glueT n1c n1k = glueT cs k := by
                have h10 : (Node.mk n1k n1c false o9).toList = glueT n1c n1k := toList_mk_int _ _ _
                rw [← h10, hn1tl]
                simp
              rw [h9]
            · rw [hS4, hn1h]
            · intro d
              rw [hS5 d, hn1dep d]
            · simp only [Node.keys_mk]
              omega
            · simp only [Node.keys_mk]
              omega
            · intro hsub
              obtain ⟨hknz2, hcsub⟩ := subMin_parts hsub
              simp only [Node.keys_mk, Node.children_mk] at hknz2 hcsub
              have hn1csub : ∀ x ∈ n1c, x.subMin = true := by
                have := hn1sub hcsub
                simpa using this
              have hn1subT : (Node.mk n1k n1c false o9).subMin = true := by
                rw [subMin_mk]
                refine ⟨?_, hn1csub⟩
                apply List.ne_nil_of_length_pos
                omega
              exact hS7 hn1subT (hc3sub (hn1csub c2 hc2mem))
            · intro hu
              have hn1u : (Node.mk n1k n1c false o9).unifH = true := hn1unif hu
              exact hS8 hn1u (hc3unif ((unifH_mk.1 hn1u).2 c2 hc2mem))
          · rw [if_neg hB]
            obtain ⟨c1, hc1, hc1struct, hc1ord, hc1sort, hc1perm, hc1h, hc1dep, hc1leaf,
              hc1order, hc1klo, hc1khi, hc1sub, hc1unif⟩ := ih c v o9 h3 hcstruct hcord hcsort hch
            simp only [hc1]
            obtain ⟨hA1, hA2, hA3, hA4, hA5, hA6, hA7, hA8⟩ :=
              assemble_set hlen hc hik hsort0 B1 B2 hstruct hc1struct hc1perm hc1sort hc1h hc1dep
            refine ⟨_, rfl, hA1, hA6 hord hc1ord, by simpa using hA2, by simpa using hA3,
              by simpa using hA4, hA5, by simp, by simp, by simp, by simp, ?_, ?_⟩
            · intro hsub
              obtain ⟨hknz2, hcsub⟩ := subMin_parts hsub
              simp only [Node.keys_mk, Node.children_mk] at hknz2 hcsub
              exact hA7 hsub (hc1sub (hcsub c hcmem))
            · intro hu
              exact hA8 hu (hc1unif ((unifH_mk.1 hu).2 c hcmem))

/-! ## Facade insert specification -/

theorem wfB_parts {o : Nat} {r : Node} (h : r.wfB o = true) :
    r.structOk = true ∧ r.ordAll o = true ∧ List.Sorted (· ≤ ·) r.toList ∧
    (∀ x ∈ r.children, x.subMin = true) ∧ (r.leaf = false → r.keys ≠ []) ∧
    r.unifH = true := by
  simp only [Node.wfB, Bool.and_eq_true, Bool.or_eq_true, Bool.not_eq_true'] at h
  obtain ⟨⟨⟨⟨⟨h1, h2⟩, h3⟩, h4⟩, h6⟩, h5⟩ := h
  have hdm : ∀ x ∈ r.children, x.subMin = true := by
    rcases r with ⟨k, cs, l, o2⟩
    exact (descMin_mk).1 h4
  refine ⟨h1, h2, (sortedB_iff _).1 h3, hdm, ?_, h6⟩
  intro hl
  rcases h5 with h5 | h5
  · rw [hl] at h5; cases h5
  · intro hnil
    rw [hnil] at h5
    simp at h5

theorem wfB_build {o : Nat} {r : Node} (h1 : r.structOk = true) (h2 : r.ordAll o = true)
    (h3 : List.Sorted (· ≤ ·) r.toList) (h4 : ∀ x ∈ r.children, x.subMin = true)
    (h6 : r.unifH = true)
    (h5 : r.leaf = false → r.keys ≠ []) :
    r.wfB o = true := by
  simp only [Node.wfB, Bool.and_eq_true, Bool.or_eq_true, Bool.not_eq_true']
  refine ⟨⟨⟨⟨⟨h1, h2⟩, (sortedB_iff _).2 h3⟩, ?_⟩, h6⟩, ?_⟩
  · rcases r with ⟨k, cs, l, o2⟩
    exact (descMin_mk).2 h4
  · rcases hl : r.leaf with _ | _
    · right
      rcases hk : r.keys with _ | ⟨a, t⟩
      · exact absurd hk (h5 hl)
      · rfl
    · left; rfl

theorem subMin_of_wfB {o : Nat} {v : Int} {r r1 : Node} (hwf : r.wfB o = true)
    (hio : InsOut o v r r1) : r1.subMin = true := by
  obtain ⟨hstruct, hord, hsort, hdm, hkeys, _⟩ := wfB_parts hwf
  obtain ⟨h1struct, _, _, h1perm, _, _, h1leaf, _, hklo, _, hsub, _⟩ := hio
  rcases hl : r.leaf with _ | _
  · apply hsub
    rcases r with ⟨k, cs, l2, o2⟩
    simp only [Node.leaf_mk] at hl
    subst hl
    exact subMin_mk.2 ⟨hkeys rfl, hdm⟩
  · have h1l : r1.leaf = true := by rw [h1leaf, hl]
    obtain ⟨hlc, _, _⟩ := structOk_parts h1struct
    have hcnil := hlc h1l
    have hlist : r1.toList ≠ [] := by
      intro hnil
      have h9 := h1perm.length_eq
      rw [hnil] at h9
      simp at h9
    rcases r1 with ⟨k1, cs1, l1, o1⟩
    simp only [Node.children_mk] at hcnil
    simp only [Node.leaf_mk] at h1l
    subst hcnil
    subst h1l
    apply subMin_mk.2
    refine ⟨?_, by simp⟩
    simpa using hlist

theorem BTree_insert_spec (t : BTree) (v : Int) (hwf : t.wf = true) :
    ∃ u, t.insert v = some u ∧ u.wf = true ∧ u.order = t.order ∧
      u.toList.Perm (v :: t.toList) ∧ u.root.isSome = true := by
  rcases t with ⟨root, o⟩
  simp only [BTree.wf, Bool.and_eq_true, decide_eq_true_eq] at hwf
  obtain ⟨ho3, hroot⟩ := hwf
  rcases root with _ | r
  · refine ⟨⟨some (.mk [v] [] true o), o⟩, rfl, ?_, rfl, ?_, rfl⟩
    · simp only [BTree.wf, Bool.and_eq_true, decide_eq_true_eq]
      refine ⟨ho3, ?_⟩
      apply wfB_build
      · simp [structOk_mk]
      · simp [ordAll_mk]
      · simp
      · simp
      · exact unifH_nil_children
      · simp
    · simp [BTree.toList]
  · have hwfr : r.wfB o = true := hroot
    obtain ⟨hstruct, hord, hsort, hdm, hkeys, hunif⟩ := wfB_parts hwfr
    simp only [BTree.insert]
    by_cases hfull : r.keys.length < (if o = 3 then 3 else o - 1)
    · rw [if_pos hfull]
      obtain ⟨r1, hr1, hio⟩ :=
        insNF_spec (r.height + 1) r v o ho3 hstruct hord hsort (by omega)
      obtain ⟨h1struct, h1ord, h1sort, h1perm, h1h, h1dep, h1leaf, h1order, h1klo,
        h1khi, h1subC, h1unifC⟩ := hio
      have h1sub : r1.subMin = true := subMin_of_wfB hwfr
        ⟨h1struct, h1ord, h1sort, h1perm, h1h, h1dep, h1leaf, h1order, h1klo, h1khi, h1subC,
          h1unifC⟩
      simp only [hr1]
      by_cases h33 : o = 3 ∧ r1.keys.length = 3
      · rw [if_pos h33]
        have hc0 : [r1][0]? = some r1 := by simp
        have hkid0 : ∀ x ∈ [r1], x.structOk = true := by
          intro x hx
          rw [List.mem_singleton.1 hx]
          exact h1struct
        obtain ⟨n1, m, hn1eq, hn1tl, hn1struct, hn1h, hn1dep, hn1leaf, hn1order,
          hn1klen, hn1ord, hn1sub, hn1unifC, _, _, _, _⟩ :=
          @assemble_split [] [r1] 0 r1 o rfl hc0 (by simp) h1struct hkid0 (by omega)
        simp only [hn1eq]
        have hn1tl2 : n1.toList = r1.toList := by
          rw [hn1tl]
          simp only [toList_mk_int]
          rw [glueT_single]
        refine ⟨⟨some n1, o⟩, rfl, ?_, rfl, ?_, rfl⟩
        · simp only [BTree.wf, Bool.and_eq_true, decide_eq_true_eq]
          refine ⟨ho3, ?_⟩
          apply wfB_build
          · exact hn1struct
          · apply hn1ord
            rw [ordAll_mk]
            refine ⟨rfl, ?_⟩
            intro x hx
            rw [List.mem_singleton.1 hx]
            exact h1ord
          · rw [hn1tl2]; exact h1sort
          · apply hn1sub
            intro x hx
            rw [List.mem_singleton.1 hx]
            exact h1sub
          · exact hn1unifC (unifH_single (h1unifC hunif))
          · intro _
            apply List.ne_nil_of_length_pos
            simp only [List.length_nil] at hn1klen
            omega
        · simp only [BTree.toList, hn1tl2]
          exact h1perm
      · rw [if_neg h33]
        refine ⟨⟨some r1, o⟩, rfl, ?_, rfl, ?_, rfl⟩
        · simp only [BTree.wf, Bool.and_eq_true, decide_eq_true_eq]
          refine ⟨ho3, ?_⟩
          apply wfB_build
          · exact h1struct
          · exact h1ord
          · exact h1sort
          · exact (subMin_parts h1sub).2
          · exact h1unifC hunif
          · intro _
            exact (subMin_parts h1sub).1
        · simp only [BTree.toList]
          exact h1perm
    · rw [if_neg hfull]
      have h3r : 3 ≤ r.keys.length := by
        by_cases ho : o = 3
        · rw [if_pos ho] at hfull; omega
        · rw [if_neg ho] at hfull; omega
      have hrsub : r.subMin = true := by
        rcases r with ⟨k, cs, l, o2⟩
        apply subMin_mk.2
        refine ⟨?_, hdm⟩
        apply List.ne_nil_of_length_pos
        simp only [Node.keys_mk] at h3r ⊢
        omega
      have hc0 : [r][0]? = some r := by simp
      have hkid0 : ∀ x ∈ [r], x.structOk = true := by
        intro x hx
        rw [List.mem_singleton.1 hx]
        exact hstruct
      obtain ⟨n1, m, hn1eq, hn1tl, hn1struct, hn1h, hn1dep, hn1leaf, hn1order,
        hn1klen, hn1ord, hn1sub, hn1unifC, _, _, _, _⟩ :=
        @assemble_split [] [r] 0 r o rfl hc0 (by simp) hstruct hkid0 h3r
      simp only [hn1eq]
      have hn1tl2 : n1.toList = r.toList := by
        rw [hn1tl]
        simp only [toList_mk_int]
        rw [glueT_single]
      have hn1ordT : n1.ordAll o = true := by
        apply hn1ord
        rw [ordAll_mk]
        refine ⟨rfl, ?_⟩
        intro x hx
        rw [List.mem_singleton.1 hx]
        exact hord
      have hn1subT : n1.subMin = true := by
        rcases hn1 : n1 with ⟨n1k, n1c, n1l, n1o⟩
        apply subMin_mk.2
        constructor
        · apply List.ne_nil_of_length_pos
          rw [hn1] at hn1klen
          simp only [Node.keys_mk, List.length_nil] at hn1klen
          omega
        · have h9 : ∀ x ∈ n1.children, x.subMin = true := by
            apply hn1sub
            intro x hx
            rw [List.mem_singleton.1 hx]
            exact hrsub
          rw [hn1] at h9
          simpa using h9
      obtain ⟨n2, hn2, hio2⟩ :=
        insNF_spec (n1.height + 1) n1 v o ho3 hn1struct hn1ordT
          (by rw [hn1tl2]; exact hsort) (by omega)
      obtain ⟨h2struct, h2ord, h2sort, h2perm, h2h, h2dep, h2leaf, h2order, h2klo,
        h2khi, h2subC, h2unifC⟩ := hio2
      simp only [hn2]
      have h2sub : n2.subMin = true := h2subC hn1subT
      refine ⟨⟨some n2, o⟩, rfl, ?_, rfl, ?_, rfl⟩
      · simp only [BTree.wf, Bool.and_eq_true, decide_eq_true_eq]
        refine ⟨ho3, ?_⟩
        apply wfB_build
        · exact h2struct
        · exact h2ord
        · exact h2sort
        · exact (subMin_parts h2sub).2
        · exact h2unifC (hn1unifC (unifH_single hunif))
        · intro _
          exact (subMin_parts h2sub).1
      · simp only [BTree.toList]
        refine h2perm.trans ?_
        rw [hn1tl2]

/-! ## Delete-side glue algebra and extrema helpers -/

theorem glueT_append_mid {cs1 cs2 : List Node} {ks1 ks2 : List Int} {v : Int}
    (h : cs1.length = ks1.length + 1) :
    glueT (cs1 ++ cs2) (ks1 ++ v :: ks2) = glueT cs1 ks1 ++ v :: glueT cs2 ks2 := by
  induction ks1 generalizing cs1 with
  | nil =>
    rcases cs1 with _ | ⟨c, cs1⟩
    · simp at h
    · have hnil : cs1 = [] := List.eq_nil_of_length_eq_zero (by simpa using h)
      subst hnil
      simp only [List.nil_append, List.singleton_append, glueT_cons, glueT_single]
  | cons k1 ks1 ih =>
    rcases cs1 with _ | ⟨c, cs1⟩
    · simp at h
    · simp only [List.cons_append, glueT_cons]
      rw [ih (by simpa using h)]
      simp

theorem glueT_snoc {cs : List Node} {ks : List Int} {c : Node} {m : Int}
    (h : cs.length = ks.length + 1) :
    glueT (cs ++ [c]) (ks ++ [m]) = glueT cs ks ++ m :: c.toList := by
  have h9 := @glueT_append_mid cs [c] ks [] m h
  rw [glueT_single] at h9
  exact h9

theorem glueT_snoc_child {cs : List Node} {ks : List Int} {c : Node}
    (h : cs.length = ks.length) :
    glueT (cs ++ [c]) ks = glueT cs ks ++ c.toList := by
  induction cs generalizing ks with
  | nil =>
    have hnil : ks = [] := List.eq_nil_of_length_eq_zero (by simpa using h.symm)
    subst hnil
    rw [List.nil_append, glueT_single]
    rfl
  | cons d cs ih =>
    rcases ks with _ | ⟨k1, ks⟩
    · simp at h
    · simp only [List.cons_append, glueT_cons]
      rw [ih (by simpa using h)]
      simp

theorem maxH_all_eq {ds : List Node} {h : Nat} (ha : ∀ x ∈ ds, x.height = h)
    (hne : ds ≠ []) : maxH ds = h := by
  induction ds with
  | nil => cases hne rfl
  | cons d ds ih =>
    rw [maxH_cons, ha d (List.mem_cons_self _ _)]
    rcases ds with _ | ⟨e, es⟩
    · simp [maxH]
    · rw [ih (fun x hx => ha x (List.mem_cons_of_mem _ hx)) (by simp)]
      simp

theorem sorted_max_of_getLast {l : List Int} {a : Int} (hs : List.Sorted (· ≤ ·) l)
    (h : l.getLast? = some a) : a ∈ l ∧ ∀ x ∈ l, x ≤ a := by
  have hne : l ≠ [] := by rintro rfl; simp at h
  have hlp : 0 < l.length := List.length_pos.2 hne
  have hget : l.getLast? = l[l.length - 1]? := List.getLast?_eq_getElem? l
  rw [h, List.getElem?_eq_getElem (by omega)] at hget
  have ha2 : a = l[l.length - 1] := Option.some_injective _ hget
  constructor
  · rw [ha2]; exact List.getElem_mem _
  · intro x hx
    obtain ⟨i, hi, rfl⟩ := List.mem_iff_getElem.1 hx
    rw [ha2]
    exact List.Sorted.rel_get_of_le hs (Fin.mk_le_mk.2 (by omega))

theorem sorted_min_of_head {l : List Int} {a : Int} (hs : List.Sorted (· ≤ ·) l)
    (h : l.head? = some a) : a ∈ l ∧ ∀ x ∈ l, a ≤ x := by
  rcases l with _ | ⟨b, l⟩
  · simp at h
  · simp only [List.head?_cons, Option.some.injEq] at h
    subst h
    refine ⟨List.mem_cons_self _ _, ?_⟩
    intro x hx
    rcases List.mem_cons.1 hx with rfl | hx2
    · exact le_refl x
    · exact List.rel_of_sorted_cons hs x hx2

theorem subMin_build {n : Node} (hk : n.keys ≠ []) (hc : ∀ x ∈ n.children, x.subMin = true) :
    n.subMin = true := by
  rcases n with ⟨k, cs, l, o⟩
  simp only [Node.keys_mk] at hk
  simp only [Node.children_mk] at hc
  exact subMin_mk.2 ⟨hk, hc⟩

theorem insertIdx_at_prefix {α : Type} (A B : List α) (y : α) (i : Nat)
    (h : A.length = i) : (A ++ B).insertIdx i y = A ++ y :: B := by
  induction A generalizing i with
  | nil =>
    subst h
    simp
  | cons a A ih =>
    cases i with
    | zero => simp at h
    | succ j =>
      simp only [List.cons_append, List.insertIdx_succ_cons, List.cons.injEq, true_and]
      exact ih j (by simpa using h)

theorem erase_insert_set {α : Type} (l : List α) (j : Nat) (a : α) (h : j < l.length) :
    (l.eraseIdx j).insertIdx j a = l.take j ++ a :: l.drop (j + 1) := by
  rw [List.eraseIdx_eq_take_drop_succ]
  exact insertIdx_at_prefix _ _ a j (by rw [List.length_take]; omega)

theorem glueT_getLast? {cs : List Node} {ks : List Int} {c : Node}
    (hlen : cs.length = ks.length + 1) (hcl : cs.getLast? = some c)
    (hcne : c.toList ≠ []) :
    (glueT cs ks).getLast? = c.toList.getLast? ∧ glueT cs ks ≠ [] := by
  have hne : cs ≠ [] := by rintro rfl; simp at hcl
  have hceq : c = cs.getLast hne := by
    have h9 := List.getLast?_eq_getLast cs hne
    rw [hcl] at h9
    exact Option.some_injective _ h9
  have hdl : cs.dropLast ++ [c] = cs := by
    rw [hceq]; exact List.dropLast_append_getLast hne
  by_cases hk : ks = []
  · subst hk
    have h1 : cs.length = 1 := by simpa using hlen
    have hcs1 : cs = [c] := by
      rcases cs with _ | ⟨d, ds⟩
      · simp at h1
      · have hds : ds = [] := by
          apply List.eq_nil_of_length_eq_zero
          simpa using h1
        subst hds
        simp only [List.getLast?_singleton, Option.some.injEq] at hcl
        rw [hcl]
    rw [hcs1, glueT_single]
    exact ⟨rfl, hcne⟩
  · have hdlk : ks.dropLast ++ [ks.getLast hk] = ks := List.dropLast_append_getLast hk
    have hkp : 0 < ks.length := List.length_pos.2 hk
    have hg : glueT cs ks = glueT cs.dropLast ks.dropLast ++ ks.getLast hk :: c.toList := by
      conv_lhs => rw [← hdl, ← hdlk]
      exact glueT_snoc (by rw [List.length_dropLast, List.length_dropLast]; omega)
    rw [hg]
    rcases hct : c.toList with _ | ⟨b, rest⟩
    · cases hcne hct
    · constructor
      · rw [List.getLast?_append_cons]
        have h9 : ks.getLast hk :: b :: rest = [ks.getLast hk] ++ b :: rest := rfl
        rw [h9, List.getLast?_append_cons]
      · simp

theorem glueT_head? {cs : List Node} {ks : List Int} {c : Node}
    (hcl : cs.head? = some c) (hcne : c.toList ≠ []) :
    (glueT cs ks).head? = c.toList.head? ∧ glueT cs ks ≠ [] := by
  rcases cs with _ | ⟨d, ds⟩
  · simp at hcl
  · simp only [List.head?_cons, Option.some.injEq] at hcl
    rw [← hcl] at hcne ⊢
    rw [glueT_cons_eq_glueS]
    rcases hct : d.toList with _ | ⟨b, rest⟩
    · cases hcne hct
    · simp

/-! ## Specifications of get_rightmost / get_leftmost -/

theorem get_rightmost_succ (fuel : Nat) (n : Node) :
    Node.get_rightmost (fuel + 1) n =
      (if n.leaf then n.keys.getLast?
       else match n.children.getLast? with
            | none => none
            | some c => Node.get_rightmost fuel c) := rfl

theorem get_leftmost_succ (fuel : Nat) (n : Node) :
    Node.get_leftmost (fuel + 1) n =
      (if n.leaf then n.keys.head?
       else match n.children.head? with
            | none => none
            | some c => Node.get_leftmost fuel c) := rfl

theorem get_rightmost_spec :
    ∀ fuel (n : Node), n.structOk = true → n.subMin = true → n.height < fuel →
      n.toList ≠ [] ∧ Node.get_rightmost fuel n = n.toList.getLast? := by
  intro fuel
  induction fuel with
  | zero => intro n _ _ hh; omega
  | succ fuel ih =>
    rintro ⟨k, cs, l, o⟩ hstruct hsub hh
    obtain ⟨hknz, hcsub⟩ := subMin_mk.1 hsub
    rw [get_rightmost_succ]
    cases l with
    | true =>
      simp only [Node.leaf_mk, if_true, toList_mk_leaf]
      exact ⟨hknz, rfl⟩
    | false =>
      obtain ⟨hcnt, hkids⟩ := structOk_mk.1 hstruct
      have hlen : cs.length = k.length + 1 := by simpa using hcnt
      have hcsne : cs ≠ [] := by
        apply List.ne_nil_of_length_pos
        omega
      have hcl : cs.getLast? = some (cs.getLast hcsne) := List.getLast?_eq_getLast cs hcsne
      have hcmem : cs.getLast hcsne ∈ cs := List.getLast_mem hcsne
      have hch : (cs.getLast hcsne).height < fuel := by
        have h9 : (cs.getLast hcsne).height < (Node.mk k cs false o).height :=
          height_child_lt hcmem
        simp only [height_mk_int] at h9 hh
        omega
      obtain ⟨hcne, hcr⟩ := ih (cs.getLast hcsne) (hkids _ hcmem) (hcsub _ hcmem) hch
      obtain ⟨hgl, hgne⟩ := glueT_getLast? hlen hcl hcne
      simp only [Node.leaf_mk, Bool.false_eq_true, if_false, Node.children_mk, hcl,
        toList_mk_int]
      exact ⟨hgne, by rw [hcr, hgl]⟩

theorem get_leftmost_spec :
    ∀ fuel (n : Node), n.structOk = true → n.subMin = true → n.height < fuel →
      n.toList ≠ [] ∧ Node.get_leftmost fuel n = n.toList.head? := by
  intro fuel
  induction fuel with
  | zero => intro n _ _ hh; omega
  | succ fuel ih =>
    rintro ⟨k, cs, l, o⟩ hstruct hsub hh
    obtain ⟨hknz, hcsub⟩ := subMin_mk.1 hsub
    rw [get_leftmost_succ]
    cases l with
    | true =>
      simp only [Node.leaf_mk, if_true, toList_mk_leaf]
      exact ⟨hknz, rfl⟩
    | false =>
      obtain ⟨hcnt, hkids⟩ := structOk_mk.1 hstruct
      have hlen : cs.length = k.length + 1 := by simpa using hcnt
      rcases hcs : cs with _ | ⟨c0, ds⟩
      · rw [hcs] at hlen; simp at hlen
      · rw [← hcs]
        have hcl : cs.head? = some c0 := by rw [hcs]; rfl
        have hcmem : c0 ∈ cs := by rw [hcs]; exact List.mem_cons_self _ _
        have hch : c0.height < fuel := by
          have h9 : c0.height < (Node.mk k cs false o).height := height_child_lt hcmem
          simp only [height_mk_int] at h9 hh
          omega
        obtain ⟨hcne, hcr⟩ := ih c0 (hkids _ hcmem) (hcsub _ hcmem) hch
        obtain ⟨hgl, hgne⟩ := @glueT_head? cs k c0 hcl hcne
        simp only [Node.leaf_mk, Bool.false_eq_true, if_false, Node.children_mk, hcl,
          toList_mk_int]
        exact ⟨hgne, by rw [hcr, hgl]⟩

/-! ## Merge specification -/

theorem toList_of_leaf {n : Node} (h : n.leaf = true) : n.toList = n.keys := by
  rcases n with ⟨k, cs, l, o⟩
  simp only [Node.leaf_mk] at h
  subst h
  simp

theorem toList_of_int {n : Node} (h : n.leaf = false) : n.toList = glueT n.children n.keys := by
  rcases n with ⟨k, cs, l, o⟩
  simp only [Node.leaf_mk] at h
  subst h
  simp

theorem height_of_leaf {n : Node} (h : n.leaf = true) : n.height = 0 := by
  rcases n with ⟨k, cs, l, o⟩
  simp only [Node.leaf_mk] at h
  subst h
  simp

theorem height_of_int {n : Node} (h : n.leaf = false) : n.height = 1 + maxH n.children := by
  rcases n with ⟨k, cs, l, o⟩
  simp only [Node.leaf_mk] at h
  subst h
  simp

theorem set_cons_junction {α : Type} (A B : List α) (x y : α) :
    (A ++ x :: B).set A.length y = A ++ y :: B := by
  induction A with
  | nil => rfl
  | cons a A ih =>
    simp only [List.cons_append, List.length_cons, List.set_cons_succ, ih]

theorem drop_succ_form {α : Type} {l : List α} {i : Nat} {x : α}
    (h : l[i]? = some x) : l.drop i = x :: l.drop (i + 1) := by
  obtain ⟨hi, he⟩ := List.getElem?_eq_some_iff.1 h
  rw [List.drop_eq_getElem_cons hi, he]

theorem leaf_flag_eq {lc rc : Node} (hlcS : lc.structOk = true) (hrcS : rc.structOk = true)
    (hlh : lc.height = rc.height) : rc.leaf = lc.leaf := by
  by_cases hl : lc.leaf = true
  · have h0 : lc.height = 0 := (leaf_iff_height hlcS).1 hl
    have h1 : rc.height = 0 := by omega
    rw [(leaf_iff_height hrcS).2 h1, hl]
  · have hlf : lc.leaf = false := by
      rcases hb : lc.leaf with _ | _
      · rfl
      · exact absurd hb hl
    rcases hb : rc.leaf with _ | _
    · rw [hlf]
    · have h0 : rc.height = 0 := (leaf_iff_height hrcS).1 hb
      have h1 : lc.height = 0 := by omega
      exact absurd ((leaf_iff_height hlcS).2 h1) hl

theorem merge_spec {k : List Int} {cs : List Node} {o9 idx : Nat} {v : Int} {lc rc : Node}
    (hlen : cs.length = k.length + 1)
    (hv : k[idx]? = some v)
    (hlc : cs[idx]? = some lc)
    (hrc : cs[idx + 1]? = some rc)
    (hstruct : (Node.mk k cs false o9).structOk = true)
    (hunif : (Node.mk k cs false o9).unifH = true) :
    ∃ mg,
      (Node.mk k cs false o9).merge idx =
        some (.mk (k.eraseIdx idx) ((cs.eraseIdx (idx + 1)).set idx mg) false o9) ∧
      mg.toList = lc.toList ++ v :: rc.toList ∧
      mg.keys.length = lc.keys.length + 1 + rc.keys.length ∧
      mg.height = lc.height ∧
      mg.leaf = lc.leaf ∧
      mg.structOk = true ∧
      mg.unifH = true ∧
      (∀ o, (Node.mk k cs false o9).ordAll o = true → mg.ordAll o = true) ∧
      (lc.subMin = true → rc.subMin = true → mg.subMin = true) ∧
      (cs.eraseIdx (idx + 1)).set idx mg = cs.take idx ++ mg :: cs.drop (idx + 2) ∧
      ((cs.eraseIdx (idx + 1)).set idx mg)[idx]? = some mg ∧
      (Node.mk (k.eraseIdx idx) ((cs.eraseIdx (idx + 1)).set idx mg) false o9).toList
        = (Node.mk k cs false o9).toList ∧
      (Node.mk (k.eraseIdx idx) ((cs.eraseIdx (idx + 1)).set idx mg) false o9).structOk = true ∧
      (Node.mk (k.eraseIdx idx) ((cs.eraseIdx (idx + 1)).set idx mg) false o9).height
        = (Node.mk k cs false o9).height ∧
      (Node.mk (k.eraseIdx idx) ((cs.eraseIdx (idx + 1)).set idx mg) false o9).unifH = true ∧
      (∀ o, (Node.mk k cs false o9).ordAll o = true →
        (Node.mk (k.eraseIdx idx) ((cs.eraseIdx (idx + 1)).set idx mg) false o9).ordAll o
          = true) ∧
      ((∀ x ∈ cs, x.subMin = true) →
        ∀ x ∈ (cs.eraseIdx (idx + 1)).set idx mg, x.subMin = true) := by
  have hik : idx < k.length := by
    by_contra hcon
    rw [List.getElem?_eq_none (by omega)] at hv
    cases hv
  have hic : idx + 1 < cs.length := by
    by_contra hcon
    rw [List.getElem?_eq_none (by omega)] at hrc
    cases hrc
  obtain ⟨_, hcntf, hkids⟩ := structOk_parts hstruct
  obtain ⟨hueq, huall⟩ := unifH_mk.1 hunif
  have hlcmem : lc ∈ cs := List.getElem?_mem hlc
  have hrcmem : rc ∈ cs := List.getElem?_mem hrc
  simp only [Node.children_mk] at hkids
  have hlcS : lc.structOk = true := hkids lc hlcmem
  have hrcS : rc.structOk = true := hkids rc hrcmem
  have hlh : lc.height = rc.height := hueq lc hlcmem rc hrcmem
  have hleq : rc.leaf = lc.leaf := leaf_flag_eq hlcS hrcS hlh
  have hlcU : lc.unifH = true := huall lc hlcmem
  have hrcU : rc.unifH = true := huall rc hrcmem
  have hAlen : (cs.take idx).length = idx := by rw [List.length_take]; omega
  have hKAlen : (k.take idx).length = idx := by rw [List.length_take]; omega
  have hid : cs = cs.take idx ++ lc :: cs.drop (idx + 1) := list_eq_take_get_drop cs idx lc hlc
  have hdrop : cs.drop (idx + 1) = rc :: cs.drop (idx + 2) := drop_succ_form hrc
  have hcseq : cs = cs.take idx ++ lc :: rc :: cs.drop (idx + 2) := by
    conv_lhs => rw [hid]
    rw [hdrop]
  have hkeq : k = k.take idx ++ v :: k.drop (idx + 1) := list_eq_take_get_drop k idx v hv
  have hera : cs.eraseIdx (idx + 1) = cs.take idx ++ lc :: cs.drop (idx + 2) := by
    rw [List.eraseIdx_eq_take_drop_succ]
    have ht : cs.take (idx + 1) = cs.take idx ++ [lc] := by
      rw [List.take_succ, hlc]
      rfl
    rw [ht]
    simp
  have hkera : k.eraseIdx idx = k.take idx ++ k.drop (idx + 1) :=
    List.eraseIdx_eq_take_drop_succ k idx
  have hmemA : ∀ x ∈ cs.take idx, x ∈ cs := fun x hx => List.mem_of_mem_take hx
  have hmemB : ∀ x ∈ cs.drop (idx + 2), x ∈ cs := fun x hx => List.mem_of_mem_drop hx
  set mg := Node.mk (lc.keys ++ v :: rc.keys)
    (if lc.leaf then lc.children else lc.children ++ rc.children) lc.leaf lc.order with hmgdef
  have hlf_or : lc.leaf = true ∨ lc.leaf = false := by
    rcases lc.leaf with _ | _
    · exact Or.inr rfl
    · exact Or.inl rfl
  have hmgtl : mg.toList = lc.toList ++ v :: rc.toList := by
    rcases hlf_or with hl | hlf
    · have hrl : rc.leaf = true := by rw [hleq, hl]
      rw [hmgdef]
      simp only [hl, if_true]
      rw [toList_of_leaf (by simp [hl]), toList_of_leaf hl, toList_of_leaf hrl]
      simp
    · have hrf : rc.leaf = false := by rw [hleq, hlf]
      obtain ⟨_, hlcnt, _⟩ := structOk_parts hlcS
      rw [hmgdef]
      simp only [hlf, Bool.false_eq_true, if_false]
      rw [toList_of_int (by simp [hlf]), toList_of_int hlf, toList_of_int hrf]
      simp only [Node.children_mk, Node.keys_mk]
      exact glueT_append_mid (hlcnt hlf)
  have hmgh : mg.height = lc.height := by
    rcases hlf_or with hl | hlf
    · rw [hmgdef]
      simp only [hl, if_true]
      rw [height_of_leaf (by simp [hl]), height_of_leaf hl]
    · have hrf : rc.leaf = false := by rw [hleq, hlf]
      rw [hmgdef]
      simp only [hlf, Bool.false_eq_true, if_false]
      rw [height_of_int (by simp [hlf])]
      simp only [Node.children_mk]
      rw [maxH_append]
      have h9 := height_of_int hlf
      have h10 := height_of_int hrf
      omega
  have hmgS : mg.structOk = true := by
    rcases hlf_or with hl | hlf
    · obtain ⟨hlcc, _, _⟩ := structOk_parts hlcS
      rw [hmgdef, structOk_mk]
      simp only [hl, if_true, hlcc hl]
      simp
    · have hrf : rc.leaf = false := by rw [hleq, hlf]
      obtain ⟨_, hlcnt, hlkid⟩ := structOk_parts hlcS
      obtain ⟨_, hrcnt, hrkid⟩ := structOk_parts hrcS
      rw [hmgdef, structOk_mk]
      simp only [hlf, Bool.false_eq_true, if_false]
      constructor
      · rw [List.length_append, List.length_append, List.length_cons,
          hlcnt hlf, hrcnt hrf]
        omega
      · intro x hx
        rcases List.mem_append.1 hx with hx | hx
        · exact hlkid x hx
        · exact hrkid x hx
  have hmgU : mg.unifH = true := by
    rcases hlf_or with hl | hlf
    · obtain ⟨hlcc, _, _⟩ := structOk_parts hlcS
      rw [hmgdef]
      simp only [hl, if_true, hlcc hl]
      exact unifH_nil_children
    · have hrf : rc.leaf = false := by rw [hleq, hlf]
      rw [hmgdef]
      simp only [hlf, Bool.false_eq_true, if_false]
      have hlcx : ∀ x ∈ lc.children, x.height + 1 = lc.height := by
        intro x hx
        have h9 := height_eq_maxH_of_eq hx (unifH_parts hlcU).1
        have h10 := height_of_int hlf
        omega
      have hrcx : ∀ x ∈ rc.children, x.height + 1 = rc.height := by
        intro x hx
        have h9 := height_eq_maxH_of_eq hx (unifH_parts hrcU).1
        have h10 := height_of_int hrf
        omega
      apply unifH_mk.2
      constructor
      · intro x hx y hy
        have h1 : x.height + 1 = lc.height := by
          rcases List.mem_append.1 hx with hx | hx
          · exact hlcx x hx
          · rw [hlh]; exact hrcx x hx
        have h2 : y.height + 1 = lc.height := by
          rcases List.mem_append.1 hy with hy | hy
          · exact hlcx y hy
          · rw [hlh]; exact hrcx y hy
        omega
      · intro x hx
        rcases List.mem_append.1 hx with hx | hx
        · exact (unifH_parts hlcU).2 x hx
        · exact (unifH_parts hrcU).2 x hx
  have hmgOrd : ∀ o, (Node.mk k cs false o9).ordAll o = true → mg.ordAll o = true := by
    intro o ho
    obtain ⟨_, hkord⟩ := ordAll_parts ho
    simp only [Node.children_mk] at hkord
    have hlco := hkord lc hlcmem
    have hrco := hkord rc hrcmem
    rw [hmgdef, ordAll_mk]
    constructor
    · exact (ordAll_parts hlco).1
    · intro x hx
      rcases hlf_or with hl | hlf
      · simp only [hl, if_true] at hx
        exact (ordAll_parts hlco).2 x hx
      · simp only [hlf, Bool.false_eq_true, if_false] at hx
        rcases List.mem_append.1 hx with hx | hx
        · exact (ordAll_parts hlco).2 x hx
        · exact (ordAll_parts hrco).2 x hx
  have hmgSub : lc.subMin = true → rc.subMin = true → mg.subMin = true := by
    intro hls hrs
    rw [hmgdef, subMin_mk]
    constructor
    · simp
    · intro x hx
      rcases hlf_or with hl | hlf
      · simp only [hl, if_true] at hx
        exact (subMin_parts hls).2 x hx
      · simp only [hlf, Bool.false_eq_true, if_false] at hx
        rcases List.mem_append.1 hx with hx | hx
        · exact (subMin_parts hls).2 x hx
        · exact (subMin_parts hrs).2 x hx
  have hsetf : (cs.eraseIdx (idx + 1)).set idx mg = cs.take idx ++ mg :: cs.drop (idx + 2) := by
    rw [hera]
    have h9 := set_cons_junction (cs.take idx) (cs.drop (idx + 2)) lc mg
    rw [hAlen] at h9
    exact h9
  have hmgk : mg.keys.length = lc.keys.length + 1 + rc.keys.length := by
    rw [hmgdef]
    simp only [Node.keys_mk, List.length_append, List.length_cons]
    omega
  have hmgl : mg.leaf = lc.leaf := rfl
  refine ⟨mg, ?_, hmgtl, hmgk, hmgh, hmgl, hmgS, hmgU, hmgOrd, hmgSub, hsetf, ?_,
    ?_, ?_, ?_, ?_, ?_, ?_⟩
  · simp only [Node.merge]
    rw [if_neg (by omega)]
    simp only [hv, hlc, hrc]
  · rw [hsetf]
    have h10 := getElem?_append_len (cs.take idx) (cs.drop (idx + 2)) mg
    rw [hAlen] at h10
    exact h10
  · simp only [toList_mk_int]
    rw [hsetf, hkera]
    rw [glueT_append (by rw [hAlen, hKAlen])]
    rw [glueT_cons_eq_glueS, hmgtl]
    conv_rhs => rw [hcseq, hkeq]
    rw [glueT_append (by rw [hAlen, hKAlen])]
    rw [glueT_cons, glueT_cons_eq_glueS]
    simp [List.append_assoc]
  · rw [structOk_mk]
    simp only [Bool.false_eq_true, if_false]
    constructor
    · rw [hsetf, hkera]
      simp only [List.length_append, List.length_cons, List.length_take, List.length_drop]
      omega
    · rw [hsetf]
      intro x hx
      simp only [List.mem_append, List.mem_cons] at hx
      rcases hx with hx | rfl | hx
      · exact hkids x (hmemA x hx)
      · exact hmgS
      · exact hkids x (hmemB x hx)
  · simp only [height_mk_int]
    rw [hsetf]
    have hcsne : cs ≠ [] := by
      apply List.ne_nil_of_length_pos
      omega
    have hmax1 : maxH cs = lc.height := maxH_all_eq (fun x hx => hueq x hx lc hlcmem) hcsne
    have hmax2 : maxH (cs.take idx ++ mg :: cs.drop (idx + 2)) = lc.height := by
      apply maxH_all_eq
      · intro x hx
        simp only [List.mem_append, List.mem_cons] at hx
        rcases hx with hx | rfl | hx
        · exact hueq x (hmemA x hx) lc hlcmem
        · exact hmgh
        · exact hueq x (hmemB x hx) lc hlcmem
      · simp
    omega
  · rw [hsetf]
    apply unifH_mk.2
    constructor
    · intro x hx y hy
      simp only [List.mem_append, List.mem_cons] at hx hy
      have h1 : x.height = lc.height := by
        rcases hx with hx | rfl | hx
        · exact hueq x (hmemA x hx) lc hlcmem
        · exact hmgh
        · exact hueq x (hmemB x hx) lc hlcmem
      have h2 : y.height = lc.height := by
        rcases hy with hy | rfl | hy
        · exact hueq y (hmemA y hy) lc hlcmem
        · exact hmgh
        · exact hueq y (hmemB y hy) lc hlcmem
      rw [h1, h2]
    · intro x hx
      simp only [List.mem_append, List.mem_cons] at hx
      rcases hx with hx | rfl | hx
      · exact huall x (hmemA x hx)
      · exact hmgU
      · exact huall x (hmemB x hx)
  · intro o ho
    obtain ⟨ho9, hkord⟩ := ordAll_parts ho
    simp only [Node.children_mk] at hkord
    simp only [Node.order_mk] at ho9
    rw [ordAll_mk]
    constructor
    · exact ho9
    · rw [hsetf]
      intro x hx
      simp only [List.mem_append, List.mem_cons] at hx
      rcases hx with hx | rfl | hx
      · exact hkord x (hmemA x hx)
      · exact hmgOrd o ho
      · exact hkord x (hmemB x hx)
  · intro hsub
    rw [hsetf]
    intro x hx
    simp only [List.mem_append, List.mem_cons] at hx
    rcases hx with hx | rfl | hx
    · exact hsub x (hmemA x hx)
    · exact hmgSub (hsub lc hlcmem) (hsub rc hrcmem)
    · exact hsub x (hmemB x hx)

/-! ## Rotation specifications -/

theorem set_cons_junction_succ {α : Type} (A B : List α) (x y z : α) :
    (A ++ x :: y :: B).set (A.length + 1) z = A ++ x :: z :: B := by
  have h9 := set_cons_junction (A ++ [x]) B y z
  simp only [List.append_assoc, List.singleton_append, List.length_append,
    List.length_singleton] at h9
  exact h9

theorem rotate_frame {k : List Int} {cs : List Node} {o9 j : Nat} {mid w : Int}
    {lc rc lc1 rc1 : Node}
    (hlen : cs.length = k.length + 1)
    (hmid : k[j]? = some mid)
    (hlc : cs[j]? = some lc)
    (hrc : cs[j + 1]? = some rc)
    (hstruct : (Node.mk k cs false o9).structOk = true)
    (hunif : (Node.mk k cs false o9).unifH = true)
    (hseg : lc1.toList ++ w :: rc1.toList = lc.toList ++ mid :: rc.toList)
    (h1S : lc1.structOk = true) (h2S : rc1.structOk = true)
    (h1h : lc1.height = lc.height) (h2h : rc1.height = rc.height)
    (h1U : lc1.unifH = true) (h2U : rc1.unifH = true)
    (h1ord : ∀ o, (Node.mk k cs false o9).ordAll o = true → lc1.ordAll o = true)
    (h2ord : ∀ o, (Node.mk k cs false o9).ordAll o = true → rc1.ordAll o = true)
    (h1sub : (∀ x ∈ cs, x.subMin = true) → lc1.subMin = true)
    (h2sub : (∀ x ∈ cs, x.subMin = true) → rc1.subMin = true) :
    (cs.take j ++ lc1 :: rc1 :: cs.drop (j + 2))[j]? = some lc1 ∧
    (cs.take j ++ lc1 :: rc1 :: cs.drop (j + 2))[j + 1]? = some rc1 ∧
    (k.take j ++ w :: k.drop (j + 1)).length = k.length ∧
    (Node.mk (k.take j ++ w :: k.drop (j + 1))
        (cs.take j ++ lc1 :: rc1 :: cs.drop (j + 2)) false o9).toList
      = (Node.mk k cs false o9).toList ∧
    (Node.mk (k.take j ++ w :: k.drop (j + 1))
        (cs.take j ++ lc1 :: rc1 :: cs.drop (j + 2)) false o9).structOk = true ∧
    (Node.mk (k.take j ++ w :: k.drop (j + 1))
        (cs.take j ++ lc1 :: rc1 :: cs.drop (j + 2)) false o9).height
      = (Node.mk k cs false o9).height ∧
    (Node.mk (k.take j ++ w :: k.drop (j + 1))
        (cs.take j ++ lc1 :: rc1 :: cs.drop (j + 2)) false o9).unifH = true ∧
    (∀ o, (Node.mk k cs false o9).ordAll o = true →
      (Node.mk (k.take j ++ w :: k.drop (j + 1))
        (cs.take j ++ lc1 :: rc1 :: cs.drop (j + 2)) false o9).ordAll o = true) ∧
    ((∀ x ∈ cs, x.subMin = true) →
      ∀ x ∈ cs.take j ++ lc1 :: rc1 :: cs.drop (j + 2), x.subMin = true) := by
  have hjk : j < k.length := by
    by_contra hcon
    rw [List.getElem?_eq_none (by omega)] at hmid
    cases hmid
  have hjc : j + 1 < cs.length := by
    by_contra hcon
    rw [List.getElem?_eq_none (by omega)] at hrc
    cases hrc
  obtain ⟨_, hcntf, hkids⟩ := structOk_parts hstruct
  obtain ⟨hueq, huall⟩ := unifH_mk.1 hunif
  simp only [Node.children_mk] at hkids
  have hlcmem : lc ∈ cs := List.getElem?_mem hlc
  have hrcmem : rc ∈ cs := List.getElem?_mem hrc
  have hlh : lc.height = rc.height := hueq lc hlcmem rc hrcmem
  have hAlen : (cs.take j).length = j := by rw [List.length_take]; omega
  have hKAlen : (k.take j).length = j := by rw [List.length_take]; omega
  have hid : cs = cs.take j ++ lc :: cs.drop (j + 1) := list_eq_take_get_drop cs j lc hlc
  have hdrop : cs.drop (j + 1) = rc :: cs.drop (j + 2) := drop_succ_form hrc
  have hcseq : cs = cs.take j ++ lc :: rc :: cs.drop (j + 2) := by
    conv_lhs => rw [hid]
    rw [hdrop]
  have hkeq : k = k.take j ++ mid :: k.drop (j + 1) := list_eq_take_get_drop k j mid hmid
  have hmemA : ∀ x ∈ cs.take j, x ∈ cs := fun x hx => List.mem_of_mem_take hx
  have hmemB : ∀ x ∈ cs.drop (j + 2), x ∈ cs := fun x hx => List.mem_of_mem_drop hx
  refine ⟨?_, ?_, ?_, ?_, ?_, ?_, ?_, ?_, ?_⟩
  · have h9 := getElem?_append_len (cs.take j) (rc1 :: cs.drop (j + 2)) lc1
    rw [hAlen] at h9
    exact h9
  · have h9 := getElem?_append_len_succ (cs.take j) (cs.drop (j + 2)) lc1 rc1
    rw [hAlen] at h9
    exact h9
  · simp only [List.length_append, List.length_cons, List.length_take, List.length_drop]
    omega
  · simp only [toList_mk_int]
    rw [glueT_append (by rw [hAlen, hKAlen])]
    rw [glueT_cons, glueT_cons_eq_glueS]
    conv_rhs => rw [hcseq, hkeq]
    rw [glueT_append (by rw [hAlen, hKAlen])]
    rw [glueT_cons, glueT_cons_eq_glueS]
    have h9 : lc1.toList ++ w :: (rc1.toList ++ glueS (cs.drop (j + 2)) (k.drop (j + 1)))
        = (lc1.toList ++ w :: rc1.toList) ++ glueS (cs.drop (j + 2)) (k.drop (j + 1)) := by
      simp
    rw [h9, hseg]
    simp
  · rw [structOk_mk]
    simp only [Bool.false_eq_true, if_false]
    constructor
    · simp only [List.length_append, List.length_cons, List.length_take, List.length_drop]
      omega
    · intro x hx
      simp only [List.mem_append, List.mem_cons] at hx
      rcases hx with hx | rfl | rfl | hx
      · exact hkids x (hmemA x hx)
      · exact h1S
      · exact h2S
      · exact hkids x (hmemB x hx)
  · simp only [height_mk_int]
    have hcsne : cs ≠ [] := by
      apply List.ne_nil_of_length_pos
      omega
    have hmax1 : maxH cs = lc.height := maxH_all_eq (fun x hx => hueq x hx lc hlcmem) hcsne
    have hmax2 : maxH (cs.take j ++ lc1 :: rc1 :: cs.drop (j + 2)) = lc.height := by
      apply maxH_all_eq
      · intro x hx
        simp only [List.mem_append, List.mem_cons] at hx
        rcases hx with hx | rfl | rfl | hx
        · exact hueq x (hmemA x hx) lc hlcmem
        · exact h1h
        · rw [h2h]; omega
        · exact hueq x (hmemB x hx) lc hlcmem
      · simp
    omega
  · apply unifH_mk.2
    constructor
    · intro x hx y hy
      simp only [List.mem_append, List.mem_cons] at hx hy
      have hht : ∀ z, z ∈ cs.take j ∨ z = lc1 ∨ z = rc1 ∨ z ∈ cs.drop (j + 2) →
          z.height = lc.height := by
        rintro z (hz | rfl | rfl | hz)
        · exact hueq z (hmemA z hz) lc hlcmem
        · exact h1h
        · rw [h2h]; omega
        · exact hueq z (hmemB z hz) lc hlcmem
      rw [hht x hx, hht y hy]
    · intro x hx
      simp only [List.mem_append, List.mem_cons] at hx
      rcases hx with hx | rfl | rfl | hx
      · exact huall x (hmemA x hx)
      · exact h1U
      · exact h2U
      · exact huall x (hmemB x hx)
  · intro o ho
    obtain ⟨ho9, hkord⟩ := ordAll_parts ho
    simp only [Node.children_mk] at hkord
    simp only [Node.order_mk] at ho9
    rw [ordAll_mk]
    refine ⟨ho9, ?_⟩
    intro x hx
    simp only [List.mem_append, List.mem_cons] at hx
    rcases hx with hx | rfl | rfl | hx
    · exact hkord x (hmemA x hx)
    · exact h1ord o ho
    · exact h2ord o ho
    · exact hkord x (hmemB x hx)
  · intro hsub x hx
    simp only [List.mem_append, List.mem_cons] at hx
    rcases hx with hx | rfl | rfl | hx
    · exact hsub x (hmemA x hx)
    · exact h1sub hsub
    · exact h2sub hsub
    · exact hsub x (hmemB x hx)

theorem rotate_right_spec {k : List Int} {cs : List Node} {o9 idx : Nat} {mid : Int}
    {lc rc : Node}
    (hlen : cs.length = k.length + 1)
    (hpos : 0 < idx)
    (hmid : k[idx - 1]? = some mid)
    (hlc : cs[idx - 1]? = some lc)
    (hrc : cs[idx]? = some rc)
    (hstruct : (Node.mk k cs false o9).structOk = true)
    (hunif : (Node.mk k cs false o9).unifH = true)
    (hlk2 : 2 ≤ lc.keys.length) :
    ∃ lc1 rc1 w,
      (Node.mk k cs false o9).rotate_right idx =
        some (.mk (k.take (idx - 1) ++ w :: k.drop idx)
          (cs.take (idx - 1) ++ lc1 :: rc1 :: cs.drop (idx + 1)) false o9) ∧
      (cs.take (idx - 1) ++ lc1 :: rc1 :: cs.drop (idx + 1))[idx]? = some rc1 ∧
      rc.toList ⊆ rc1.toList ∧
      rc1.keys.length = rc.keys.length + 1 ∧
      rc1.height = rc.height ∧
      rc1.structOk = true ∧
      (k.take (idx - 1) ++ w :: k.drop idx).length = k.length ∧
      (Node.mk (k.take (idx - 1) ++ w :: k.drop idx)
          (cs.take (idx - 1) ++ lc1 :: rc1 :: cs.drop (idx + 1)) false o9).toList
        = (Node.mk k cs false o9).toList ∧
      (Node.mk (k.take (idx - 1) ++ w :: k.drop idx)
          (cs.take (idx - 1) ++ lc1 :: rc1 :: cs.drop (idx + 1)) false o9).structOk = true ∧
      (Node.mk (k.take (idx - 1) ++ w :: k.drop idx)
          (cs.take (idx - 1) ++ lc1 :: rc1 :: cs.drop (idx + 1)) false o9).height
        = (Node.mk k cs false o9).height ∧
      (Node.mk (k.take (idx - 1) ++ w :: k.drop idx)
          (cs.take (idx - 1) ++ lc1 :: rc1 :: cs.drop (idx + 1)) false o9).unifH = true ∧
      (∀ o, (Node.mk k cs false o9).ordAll o = true →
        (Node.mk (k.take (idx - 1) ++ w :: k.drop idx)
          (cs.take (idx - 1) ++ lc1 :: rc1 :: cs.drop (idx + 1)) false o9).ordAll o = true) ∧
      ((∀ x ∈ cs, x.subMin = true) →
        ∀ x ∈ cs.take (idx - 1) ++ lc1 :: rc1 :: cs.drop (idx + 1), x.subMin = true) := by
  have hik1 : idx - 1 < k.length := by
    by_contra hcon
    rw [List.getElem?_eq_none (by omega)] at hmid
    cases hmid
  have hic : idx < cs.length := by
    by_contra hcon
    rw [List.getElem?_eq_none (by omega)] at hrc
    cases hrc
  have he1 : idx - 1 + 1 = idx := by omega
  have he2 : idx - 1 + 2 = idx + 1 := by omega
  obtain ⟨_, hcntf, hkids⟩ := structOk_parts hstruct
  simp only [Node.children_mk] at hkids
  obtain ⟨hueq, huall⟩ := unifH_mk.1 hunif
  have hlcmem : lc ∈ cs := List.getElem?_mem hlc
  have hrcmem : rc ∈ cs := List.getElem?_mem hrc
  have hlcS : lc.structOk = true := hkids lc hlcmem
  have hrcS : rc.structOk = true := hkids rc hrcmem
  have hlh : lc.height = rc.height := hueq lc hlcmem rc hrcmem
  have hleq : rc.leaf = lc.leaf := leaf_flag_eq hlcS hrcS hlh
  have hlcU : lc.unifH = true := huall lc hlcmem
  have hrcU : rc.unifH = true := huall rc hrcmem
  have hkne : lc.keys ≠ [] := by
    apply List.ne_nil_of_length_pos
    omega
  have hlastq : lc.keys.getLast? = some (lc.keys.getLast hkne) :=
    List.getLast?_eq_getLast _ _
  have hkdl : lc.keys.dropLast ++ [lc.keys.getLast hkne] = lc.keys :=
    List.dropLast_append_getLast hkne
  have hkdll : lc.keys.dropLast.length = lc.keys.length - 1 := by
    rw [List.length_dropLast]
  have hlcord : ∀ o, (Node.mk k cs false o9).ordAll o = true → lc.ordAll o = true := by
    intro o ho
    have h9 := (ordAll_parts ho).2
    simp only [Node.children_mk] at h9
    exact h9 lc hlcmem
  have hrcord : ∀ o, (Node.mk k cs false o9).ordAll o = true → rc.ordAll o = true := by
    intro o ho
    have h9 := (ordAll_parts ho).2
    simp only [Node.children_mk] at h9
    exact h9 rc hrcmem
  have hnk : (k.eraseIdx (idx - 1)).insertIdx (idx - 1) (lc.keys.getLast hkne)
      = k.take (idx - 1) ++ lc.keys.getLast hkne :: k.drop idx := by
    rw [erase_insert_set k (idx - 1) _ (by omega), he1]
  have hAlen2 : (cs.take (idx - 1)).length = idx - 1 := by rw [List.length_take]; omega
  have hcseq2 : cs = cs.take (idx - 1) ++ lc :: rc :: cs.drop (idx + 1) := by
    have h1 := list_eq_take_get_drop cs (idx - 1) lc hlc
    rw [he1] at h1
    have h4 : cs.drop idx = rc :: cs.drop (idx + 1) := drop_succ_form hrc
    conv_lhs => rw [h1, h4]
  have hmidrc : k[idx - 1 + 1 - 1]? = some mid := by rw [he1]; exact hmid
  rcases (show lc.leaf = true ∨ lc.leaf = false by
    rcases lc.leaf with _ | _
    · exact Or.inr rfl
    · exact Or.inl rfl) with hl | hlf
  · -- leaf donor
    have hrl : rc.leaf = true := by rw [hleq, hl]
    obtain ⟨hlcc, _, _⟩ := structOk_parts hlcS
    obtain ⟨hrcc, _, _⟩ := structOk_parts hrcS
    have hlcc2 := hlcc hl
    have hrcc2 := hrcc hrl
    refine ⟨Node.mk lc.keys.dropLast lc.children lc.leaf lc.order,
      Node.mk (mid :: rc.keys) rc.children rc.leaf rc.order,
      lc.keys.getLast hkne, ?_, ?_⟩
    · -- the equation
      simp only [Node.rotate_right]
      rw [if_neg (by omega)]
      simp only [hmid, hrc, hlc, hlastq]
      rw [if_pos hl, hnk]
      have hchf : (cs.set idx (Node.mk (mid :: rc.keys) rc.children rc.leaf rc.order)).set
          (idx - 1) (Node.mk lc.keys.dropLast lc.children lc.leaf lc.order)
          = cs.take (idx - 1) ++
            (Node.mk lc.keys.dropLast lc.children lc.leaf lc.order) ::
            (Node.mk (mid :: rc.keys) rc.children rc.leaf rc.order) ::
            cs.drop (idx + 1) := by
        conv_lhs => rw [hcseq2]
        have h5 := set_cons_junction_succ (cs.take (idx - 1)) (cs.drop (idx + 1)) lc rc
          (Node.mk (mid :: rc.keys) rc.children rc.leaf rc.order)
        rw [hAlen2, he1] at h5
        rw [h5]
        have h7 := set_cons_junction (cs.take (idx - 1))
          ((Node.mk (mid :: rc.keys) rc.children rc.leaf rc.order) :: cs.drop (idx + 1)) lc
          (Node.mk lc.keys.dropLast lc.children lc.leaf lc.order)
        rw [hAlen2] at h7
        exact h7
      rw [hchf]
    · -- the bundle via rotate_frame
      have hseg : (Node.mk lc.keys.dropLast lc.children lc.leaf lc.order).toList ++
          lc.keys.getLast hkne ::
            (Node.mk (mid :: rc.keys) rc.children rc.leaf rc.order).toList
          = lc.toList ++ mid :: rc.toList := by
        rw [toList_of_leaf (by simp [hl]), toList_of_leaf (by simp [hrl])]
        rw [toList_of_leaf hl, toList_of_leaf hrl]
        simp only [Node.keys_mk]
        conv_rhs => rw [← hkdl]
        simp
      have h1S : (Node.mk lc.keys.dropLast lc.children lc.leaf lc.order).structOk = true := by
        rw [structOk_mk]
        rw [hlcc2]
        simp [hl]
      have h2S : (Node.mk (mid :: rc.keys) rc.children rc.leaf rc.order).structOk = true := by
        rw [structOk_mk]
        rw [hrcc2]
        simp [hrl]
      have h1h : (Node.mk lc.keys.dropLast lc.children lc.leaf lc.order).height = lc.height := by
        rw [height_of_leaf (by simp [hl]), height_of_leaf hl]
      have h2h : (Node.mk (mid :: rc.keys) rc.children rc.leaf rc.order).height = rc.height := by
        rw [height_of_leaf (by simp [hrl]), height_of_leaf hrl]
      have h1U : (Node.mk lc.keys.dropLast lc.children lc.leaf lc.order).unifH = true := by
        rw [hlcc2]
        exact unifH_nil_children
      have h2U : (Node.mk (mid :: rc.keys) rc.children rc.leaf rc.order).unifH = true := by
        rw [hrcc2]
        exact unifH_nil_children
      have h1ord : ∀ o, (Node.mk k cs false o9).ordAll o = true →
          (Node.mk lc.keys.dropLast lc.children lc.leaf lc.order).ordAll o = true := by
        intro o ho
        rw [ordAll_mk]
        exact ⟨(ordAll_parts (hlcord o ho)).1, fun x hx => (ordAll_parts (hlcord o ho)).2 x hx⟩
      have h2ord : ∀ o, (Node.mk k cs false o9).ordAll o = true →
          (Node.mk (mid :: rc.keys) rc.children rc.leaf rc.order).ordAll o = true := by
        intro o ho
        rw [ordAll_mk]
        exact ⟨(ordAll_parts (hrcord o ho)).1, fun x hx => (ordAll_parts (hrcord o ho)).2 x hx⟩
      have h1sub : (∀ x ∈ cs, x.subMin = true) →
          (Node.mk lc.keys.dropLast lc.children lc.leaf lc.order).subMin = true := by
        intro hsub
        rw [subMin_mk]
        constructor
        · apply List.ne_nil_of_length_pos
          omega
        · intro x hx
          exact (subMin_parts (hsub lc hlcmem)).2 x hx
      have h2sub : (∀ x ∈ cs, x.subMin = true) →
          (Node.mk (mid :: rc.keys) rc.children rc.leaf rc.order).subMin = true := by
        intro hsub
        rw [subMin_mk]
        refine ⟨by simp, ?_⟩
        intro x hx
        exact (subMin_parts (hsub rc hrcmem)).2 x hx
      have hrc' : cs[idx - 1 + 1]? = some rc := by rw [he1]; exact hrc
      obtain ⟨hF1, hF2, hF3, hF4, hF5, hF6, hF7, hF8, hF9⟩ :=
        rotate_frame hlen hmid hlc hrc' hstruct hunif hseg h1S h2S h1h h2h h1U h2U
          h1ord h2ord h1sub h2sub
      simp only [he1, he2] at hF2 hF3 hF4 hF5 hF6 hF7 hF8 hF9
      refine ⟨hF2, ?_, by simp, h2h, h2S, hF3, hF4, hF5, hF6, hF7, hF8, hF9⟩
      rw [toList_of_leaf hrl, toList_of_leaf (by simp [hrl])]
      simp only [Node.keys_mk]
      exact List.subset_cons_of_subset _ (List.Subset.refl _)
  · -- internal donor
    have hrf : rc.leaf = false := by rw [hleq, hlf]
    obtain ⟨_, hlcnt, hlkid⟩ := structOk_parts hlcS
    obtain ⟨_, hrcnt, hrkid⟩ := structOk_parts hrcS
    have hlcnt2 := hlcnt hlf
    have hrcnt2 := hrcnt hrf
    have hmcne : lc.children ≠ [] := by
      apply List.ne_nil_of_length_pos
      omega
    have hmcq : lc.children.getLast? = some (lc.children.getLast hmcne) :=
      List.getLast?_eq_getLast _ _
    have hcdl : lc.children.dropLast ++ [lc.children.getLast hmcne] = lc.children :=
      List.dropLast_append_getLast hmcne
    have hmcmem : lc.children.getLast hmcne ∈ lc.children := List.getLast_mem hmcne
    have hmch : (lc.children.getLast hmcne).height + 1 = lc.height := by
      have h9 := height_eq_maxH_of_eq hmcmem (unifH_parts hlcU).1
      have h10 := height_of_int hlf
      omega
    have hlcx : ∀ x ∈ lc.children, x.height + 1 = lc.height := by
      intro x hx
      have h9 := height_eq_maxH_of_eq hx (unifH_parts hlcU).1
      have h10 := height_of_int hlf
      omega
    have hrcx : ∀ x ∈ rc.children, x.height + 1 = rc.height := by
      intro x hx
      have h9 := height_eq_maxH_of_eq hx (unifH_parts hrcU).1
      have h10 := height_of_int hrf
      omega
    refine ⟨Node.mk lc.keys.dropLast lc.children.dropLast lc.leaf lc.order,
      Node.mk (mid :: rc.keys) (lc.children.getLast hmcne :: rc.children) rc.leaf rc.order,
      lc.keys.getLast hkne, ?_, ?_⟩
    · simp only [Node.rotate_right]
      rw [if_neg (by omega)]
      simp only [hmid, hrc, hlc, hlastq]
      rw [if_neg (by simp [hlf])]
      simp only [hmcq]
      rw [hnk]
      have hchf : (cs.set idx (Node.mk (mid :: rc.keys)
            (lc.children.getLast hmcne :: rc.children) rc.leaf rc.order)).set
          (idx - 1) (Node.mk lc.keys.dropLast lc.children.dropLast lc.leaf lc.order)
          = cs.take (idx - 1) ++
            (Node.mk lc.keys.dropLast lc.children.dropLast lc.leaf lc.order) ::
            (Node.mk (mid :: rc.keys)
              (lc.children.getLast hmcne :: rc.children) rc.leaf rc.order) ::
            cs.drop (idx + 1) := by
        conv_lhs => rw [hcseq2]
        have h5 := set_cons_junction_succ (cs.take (idx - 1)) (cs.drop (idx + 1)) lc rc
          (Node.mk (mid :: rc.keys) (lc.children.getLast hmcne :: rc.children) rc.leaf rc.order)
        rw [hAlen2, he1] at h5
        rw [h5]
        have h7 := set_cons_junction (cs.take (idx - 1))
          ((Node.mk (mid :: rc.keys) (lc.children.getLast hmcne :: rc.children)
            rc.leaf rc.order) :: cs.drop (idx + 1)) lc
          (Node.mk lc.keys.dropLast lc.children.dropLast lc.leaf lc.order)
        rw [hAlen2] at h7
        exact h7
      rw [hchf]
    · have hseg : (Node.mk lc.keys.dropLast lc.children.dropLast lc.leaf lc.order).toList ++
          lc.keys.getLast hkne ::
            (Node.mk (mid :: rc.keys)
              (lc.children.getLast hmcne :: rc.children) rc.leaf rc.order).toList
          = lc.toList ++ mid :: rc.toList := by
        rw [toList_of_int (by simp [hlf]), toList_of_int (by simp [hrf])]
        rw [toList_of_int hlf, toList_of_int hrf]
        simp only [Node.keys_mk, Node.children_mk]
        rw [glueT_cons]
        conv_rhs => rw [← hcdl, ← hkdl]
        rw [glueT_snoc (by rw [List.length_dropLast, List.length_dropLast]; omega)]
        simp
      have h1S : (Node.mk lc.keys.dropLast lc.children.dropLast lc.leaf lc.order).structOk
          = true := by
        rw [structOk_mk]
        simp only [hlf, Bool.false_eq_true, if_false]
        constructor
        · rw [List.length_dropLast, List.length_dropLast, hlcnt2]
          omega
        · intro x hx
          exact hlkid x ((List.dropLast_sublist _).subset hx)
      have h2S : (Node.mk (mid :: rc.keys)
          (lc.children.getLast hmcne :: rc.children) rc.leaf rc.order).structOk = true := by
        rw [structOk_mk]
        simp only [hrf, Bool.false_eq_true, if_false]
        constructor
        · simp only [List.length_cons, hrcnt2]
        · intro x hx
          rcases List.mem_cons.1 hx with rfl | hx2
          · exact hlkid _ hmcmem
          · exact hrkid x hx2
      have h1h : (Node.mk lc.keys.dropLast lc.children.dropLast lc.leaf lc.order).height
          = lc.height := by
        rw [height_of_int (by simp [hlf]), height_of_int hlf]
        simp only [Node.children_mk]
        have hdne : lc.children.dropLast ≠ [] := by
          apply List.ne_nil_of_length_pos
          rw [List.length_dropLast]
          omega
        rw [maxH_sublist_eq (fun x hx => (List.dropLast_sublist _).subset hx) hdne
          (unifH_parts hlcU).1]
      have h2h : (Node.mk (mid :: rc.keys)
          (lc.children.getLast hmcne :: rc.children) rc.leaf rc.order).height = rc.height := by
        rw [height_of_int (by simp [hrf])]
        simp only [Node.children_mk, maxH_cons]
        have h9 := height_of_int hrf
        have h10 := hmch
        rw [hlh] at h10
        omega
      have h1U : (Node.mk lc.keys.dropLast lc.children.dropLast lc.leaf lc.order).unifH
          = true := by
        apply unifH_mk.2
        constructor
        · intro x hx y hy
          exact (unifH_parts hlcU).1 x ((List.dropLast_sublist _).subset hx) y
            ((List.dropLast_sublist _).subset hy)
        · intro x hx
          exact (unifH_parts hlcU).2 x ((List.dropLast_sublist _).subset hx)
      have h2U : (Node.mk (mid :: rc.keys)
          (lc.children.getLast hmcne :: rc.children) rc.leaf rc.order).unifH = true := by
        apply unifH_mk.2
        constructor
        · intro x hx y hy
          have hht : ∀ z ∈ (lc.children.getLast hmcne :: rc.children),
              z.height + 1 = rc.height := by
            intro z hz
            rcases List.mem_cons.1 hz with rfl | hz2
            · rw [← hlh]; exact hmch
            · exact hrcx z hz2
          have h1 := hht x hx
          have h2 := hht y hy
          omega
        · intro x hx
          rcases List.mem_cons.1 hx with rfl | hx2
          · exact (unifH_parts hlcU).2 _ hmcmem
          · exact (unifH_parts hrcU).2 x hx2
      have h1ord : ∀ o, (Node.mk k cs false o9).ordAll o = true →
          (Node.mk lc.keys.dropLast lc.children.dropLast lc.leaf lc.order).ordAll o
            = true := by
        intro o ho
        rw [ordAll_mk]
        refine ⟨(ordAll_parts (hlcord o ho)).1, ?_⟩
        intro x hx
        exact (ordAll_parts (hlcord o ho)).2 x ((List.dropLast_sublist _).subset hx)
      have h2ord : ∀ o, (Node.mk k cs false o9).ordAll o = true →
          (Node.mk (mid :: rc.keys)
            (lc.children.getLast hmcne :: rc.children) rc.leaf rc.order).ordAll o = true := by
        intro o ho
        rw [ordAll_mk]
        refine ⟨(ordAll_parts (hrcord o ho)).1, ?_⟩
        intro x hx
        rcases List.mem_cons.1 hx with rfl | hx2
        · exact (ordAll_parts (hlcord o ho)).2 _ hmcmem
        · exact (ordAll_parts (hrcord o ho)).2 x hx2
      have h1sub : (∀ x ∈ cs, x.subMin = true) →
          (Node.mk lc.keys.dropLast lc.children.dropLast lc.leaf lc.order).subMin = true := by
        intro hsub
        rw [subMin_mk]
        constructor
        · apply List.ne_nil_of_length_pos
          omega
        · intro x hx
          exact (subMin_parts (hsub lc hlcmem)).2 x ((List.dropLast_sublist _).subset hx)
      have h2sub : (∀ x ∈ cs, x.subMin = true) →
          (Node.mk (mid :: rc.keys)
            (lc.children.getLast hmcne :: rc.children) rc.leaf rc.order).subMin = true := by
        intro hsub
        rw [subMin_mk]
        refine ⟨by simp, ?_⟩
        intro x hx
        rcases List.mem_cons.1 hx with rfl | hx2
        · exact (subMin_parts (hsub lc hlcmem)).2 _ hmcmem
        · exact (subMin_parts (hsub rc hrcmem)).2 x hx2
      have hrc' : cs[idx - 1 + 1]? = some rc := by rw [he1]; exact hrc
      obtain ⟨hF1, hF2, hF3, hF4, hF5, hF6, hF7, hF8, hF9⟩ :=
        rotate_frame hlen hmid hlc hrc' hstruct hunif hseg h1S h2S h1h h2h h1U h2U
          h1ord h2ord h1sub h2sub
      simp only [he1, he2] at hF2 hF3 hF4 hF5 hF6 hF7 hF8 hF9
      refine ⟨hF2, ?_, by simp, h2h, h2S, hF3, hF4, hF5, hF6, hF7, hF8, hF9⟩
      rw [toList_of_int hrf, toList_of_int (by simp [hrf])]
      simp only [Node.keys_mk, Node.children_mk]
      rw [glueT_cons]
      intro x hx
      simp only [List.mem_append, List.mem_cons]
      exact Or.inr (Or.inr hx)

theorem rotate_left_spec {k : List Int} {cs : List Node} {o9 idx : Nat} {mid : Int}
    {lc rc : Node}
    (hlen : cs.length = k.length + 1)
    (hmid : k[idx]? = some mid)
    (hlc : cs[idx]? = some lc)
    (hrc : cs[idx + 1]? = some rc)
    (hstruct : (Node.mk k cs false o9).structOk = true)
    (hunif : (Node.mk k cs false o9).unifH = true)
    (hrk2 : 2 ≤ rc.keys.length) :
    ∃ lc1 rc1 w,
      (Node.mk k cs false o9).rotate_left idx =
        some (.mk (k.take idx ++ w :: k.drop (idx + 1))
          (cs.take idx ++ lc1 :: rc1 :: cs.drop (idx + 2)) false o9) ∧
      (cs.take idx ++ lc1 :: rc1 :: cs.drop (idx + 2))[idx]? = some lc1 ∧
      lc.toList ⊆ lc1.toList ∧
      lc1.keys.length = lc.keys.length + 1 ∧
      lc1.height = lc.height ∧
      lc1.structOk = true ∧
      (k.take idx ++ w :: k.drop (idx + 1)).length = k.length ∧
      (Node.mk (k.take idx ++ w :: k.drop (idx + 1))
          (cs.take idx ++ lc1 :: rc1 :: cs.drop (idx + 2)) false o9).toList
        = (Node.mk k cs false o9).toList ∧
      (Node.mk (k.take idx ++ w :: k.drop (idx + 1))
          (cs.take idx ++ lc1 :: rc1 :: cs.drop (idx + 2)) false o9).structOk = true ∧
      (Node.mk (k.take idx ++ w :: k.drop (idx + 1))
          (cs.take idx ++ lc1 :: rc1 :: cs.drop (idx + 2)) false o9).height
        = (Node.mk k cs false o9).height ∧
      (Node.mk (k.take idx ++ w :: k.drop (idx + 1))
          (cs.take idx ++ lc1 :: rc1 :: cs.drop (idx + 2)) false o9).unifH = true ∧
      (∀ o, (Node.mk k cs false o9).ordAll o = true →
        (Node.mk (k.take idx ++ w :: k.drop (idx + 1))
          (cs.take idx ++ lc1 :: rc1 :: cs.drop (idx + 2)) false o9).ordAll o = true) ∧
      ((∀ x ∈ cs, x.subMin = true) →
        ∀ x ∈ cs.take idx ++ lc1 :: rc1 :: cs.drop (idx + 2), x.subMin = true) := by
  have hik : idx < k.length := by
    by_contra hcon
    rw [List.getElem?_eq_none (by omega)] at hmid
    cases hmid
  have hic : idx + 1 < cs.length := by
    by_contra hcon
    rw [List.getElem?_eq_none (by omega)] at hrc
    cases hrc
  obtain ⟨_, hcntf, hkids⟩ := structOk_parts hstruct
  simp only [Node.children_mk] at hkids
  obtain ⟨hueq, huall⟩ := unifH_mk.1 hunif
  have hlcmem : lc ∈ cs := List.getElem?_mem hlc
  have hrcmem : rc ∈ cs := List.getElem?_mem hrc
  have hlcS : lc.structOk = true := hkids lc hlcmem
  have hrcS : rc.structOk = true := hkids rc hrcmem
  have hlh : lc.height = rc.height := hueq lc hlcmem rc hrcmem
  have hleq : rc.leaf = lc.leaf := leaf_flag_eq hlcS hrcS hlh
  have hlcU : lc.unifH = true := huall lc hlcmem
  have hrcU : rc.unifH = true := huall rc hrcmem
  have hlcord : ∀ o, (Node.mk k cs false o9).ordAll o = true → lc.ordAll o = true := by
    intro o ho
    have h9 := (ordAll_parts ho).2
    simp only [Node.children_mk] at h9
    exact h9 lc hlcmem
  have hrcord : ∀ o, (Node.mk k cs false o9).ordAll o = true → rc.ordAll o = true := by
    intro o ho
    have h9 := (ordAll_parts ho).2
    simp only [Node.children_mk] at h9
    exact h9 rc hrcmem
  rcases hrk : rc.keys with _ | ⟨w, rest⟩
  · have h9 : rc.keys.length = 0 := by rw [hrk]; rfl
    omega
  have hrestlen : rest.length = rc.keys.length - 1 := by rw [hrk]; rfl
  have hnk : (k.eraseIdx idx).insertIdx idx w
      = k.take idx ++ w :: k.drop (idx + 1) :=
    erase_insert_set k idx w (by omega)
  have hAlen2 : (cs.take idx).length = idx := by rw [List.length_take]; omega
  have hcseq2 : cs = cs.take idx ++ lc :: rc :: cs.drop (idx + 2) := by
    have h1 := list_eq_take_get_drop cs idx lc hlc
    have h4 : cs.drop (idx + 1) = rc :: cs.drop (idx + 2) := drop_succ_form hrc
    conv_lhs => rw [h1, h4]
  rcases (show rc.leaf = true ∨ rc.leaf = false by
    rcases rc.leaf with _ | _
    · exact Or.inr rfl
    · exact Or.inl rfl) with hrl | hrf
  · -- leaf receiver
    have hl : lc.leaf = true := by rw [← hleq, hrl]
    obtain ⟨hlcc, _, _⟩ := structOk_parts hlcS
    obtain ⟨hrcc, _, _⟩ := structOk_parts hrcS
    have hlcc2 := hlcc hl
    have hrcc2 := hrcc hrl
    refine ⟨Node.mk (lc.keys ++ [mid]) lc.children lc.leaf lc.order,
      Node.mk rest rc.children rc.leaf rc.order, w, ?_, ?_⟩
    · simp only [Node.rotate_left]
      simp only [hmid, hlc, hrc, hrk]
      rw [if_pos hrl, hnk]
      have hchf : (cs.set idx (Node.mk (lc.keys ++ [mid]) lc.children lc.leaf lc.order)).set
          (idx + 1) (Node.mk rest rc.children rc.leaf rc.order)
          = cs.take idx ++
            (Node.mk (lc.keys ++ [mid]) lc.children lc.leaf lc.order) ::
            (Node.mk rest rc.children rc.leaf rc.order) :: cs.drop (idx + 2) := by
        conv_lhs => rw [hcseq2]
        have h5 := set_cons_junction (cs.take idx) (rc :: cs.drop (idx + 2)) lc
          (Node.mk (lc.keys ++ [mid]) lc.children lc.leaf lc.order)
        rw [hAlen2] at h5
        rw [h5]
        have h7 := set_cons_junction_succ (cs.take idx) (cs.drop (idx + 2))
          (Node.mk (lc.keys ++ [mid]) lc.children lc.leaf lc.order) rc
          (Node.mk rest rc.children rc.leaf rc.order)
        rw [hAlen2] at h7
        exact h7
      rw [hchf]
    · have hseg : (Node.mk (lc.keys ++ [mid]) lc.children lc.leaf lc.order).toList ++
          w :: (Node.mk rest rc.children rc.leaf rc.order).toList
          = lc.toList ++ mid :: rc.toList := by
        rw [toList_of_leaf hl, toList_of_leaf hrl]
        rw [toList_of_leaf (by simp [hl]), toList_of_leaf (by simp [hrl])]
        simp only [Node.keys_mk, hrk]
        simp
      have h1S : (Node.mk (lc.keys ++ [mid]) lc.children lc.leaf lc.order).structOk = true := by
        rw [structOk_mk, hlcc2]
        simp [hl]
      have h2S : (Node.mk rest rc.children rc.leaf rc.order).structOk = true := by
        rw [structOk_mk, hrcc2]
        simp [hrl]
      have h1h : (Node.mk (lc.keys ++ [mid]) lc.children lc.leaf lc.order).height
          = lc.height := by
        rw [height_of_leaf (by simp [hl]), height_of_leaf hl]
      have h2h : (Node.mk rest rc.children rc.leaf rc.order).height = rc.height := by
        rw [height_of_leaf (by simp [hrl]), height_of_leaf hrl]
      have h1U : (Node.mk (lc.keys ++ [mid]) lc.children lc.leaf lc.order).unifH = true := by
        rw [hlcc2]
        exact unifH_nil_children
      have h2U : (Node.mk rest rc.children rc.leaf rc.order).unifH = true := by
        rw [hrcc2]
        exact unifH_nil_children
      have h1ord : ∀ o, (Node.mk k cs false o9).ordAll o = true →
          (Node.mk (lc.keys ++ [mid]) lc.children lc.leaf lc.order).ordAll o = true := by
        intro o ho
        rw [ordAll_mk]
        exact ⟨(ordAll_parts (hlcord o ho)).1, fun x hx => (ordAll_parts (hlcord o ho)).2 x hx⟩
      have h2ord : ∀ o, (Node.mk k cs false o9).ordAll o = true →
          (Node.mk rest rc.children rc.leaf rc.order).ordAll o = true := by
        intro o ho
        rw [ordAll_mk]
        exact ⟨(ordAll_parts (hrcord o ho)).1, fun x hx => (ordAll_parts (hrcord o ho)).2 x hx⟩
      have h1sub : (∀ x ∈ cs, x.subMin = true) →
          (Node.mk (lc.keys ++ [mid]) lc.children lc.leaf lc.order).subMin = true := by
        intro hsub
        rw [subMin_mk]
        refine ⟨by simp, ?_⟩
        intro x hx
        exact (subMin_parts (hsub lc hlcmem)).2 x hx
      have h2sub : (∀ x ∈ cs, x.subMin = true) →
          (Node.mk rest rc.children rc.leaf rc.order).subMin = true := by
        intro hsub
        rw [subMin_mk]
        constructor
        · apply List.ne_nil_of_length_pos
          omega
        · intro x hx
          exact (subMin_parts (hsub rc hrcmem)).2 x hx
      obtain ⟨hF1, hF2, hF3, hF4, hF5, hF6, hF7, hF8, hF9⟩ :=
        rotate_frame hlen hmid hlc hrc hstruct hunif hseg h1S h2S h1h h2h h1U h2U
          h1ord h2ord h1sub h2sub
      refine ⟨hF1, ?_, by simp, h1h, h1S, hF3, hF4, hF5, hF6, hF7, hF8, hF9⟩
      rw [toList_of_leaf hl, toList_of_leaf (by simp [hl])]
      simp only [Node.keys_mk]
      exact List.subset_append_left _ _
  · -- internal receiver
    have hlf : lc.leaf = false := by rw [← hleq, hrf]
    obtain ⟨_, hlcnt, hlkid⟩ := structOk_parts hlcS
    obtain ⟨_, hrcnt, hrkid⟩ := structOk_parts hrcS
    have hlcnt2 := hlcnt hlf
    have hrcnt2 := hrcnt hrf
    rcases hrcc : rc.children with _ | ⟨fc, rcc⟩
    · have h9 : rc.children.length = 0 := by rw [hrcc]; rfl
      omega
    have hfcmem : fc ∈ rc.children := by rw [hrcc]; exact List.mem_cons_self _ _
    have hrccmem : ∀ x ∈ rcc, x ∈ rc.children := by
      intro x hx
      rw [hrcc]
      exact List.mem_cons_of_mem _ hx
    have hrcclen : rcc.length = rc.children.length - 1 := by rw [hrcc]; rfl
    have hlcx : ∀ x ∈ lc.children, x.height + 1 = lc.height := by
      intro x hx
      have h9 := height_eq_maxH_of_eq hx (unifH_parts hlcU).1
      have h10 := height_of_int hlf
      omega
    have hrcx : ∀ x ∈ rc.children, x.height + 1 = rc.height := by
      intro x hx
      have h9 := height_eq_maxH_of_eq hx (unifH_parts hrcU).1
      have h10 := height_of_int hrf
      omega
    refine ⟨Node.mk (lc.keys ++ [mid]) (lc.children ++ [fc]) lc.leaf lc.order,
      Node.mk rest rcc rc.leaf rc.order, w, ?_, ?_⟩
    · simp only [Node.rotate_left]
      simp only [hmid, hlc, hrc, hrk]
      rw [if_neg (by simp [hrf])]
      simp only [hrcc]
      rw [hnk]
      have hchf : (cs.set idx (Node.mk (lc.keys ++ [mid]) (lc.children ++ [fc])
            lc.leaf lc.order)).set
          (idx + 1) (Node.mk rest rcc rc.leaf rc.order)
          = cs.take idx ++
            (Node.mk (lc.keys ++ [mid]) (lc.children ++ [fc]) lc.leaf lc.order) ::
            (Node.mk rest rcc rc.leaf rc.order) :: cs.drop (idx + 2) := by
        conv_lhs => rw [hcseq2]
        have h5 := set_cons_junction (cs.take idx) (rc :: cs.drop (idx + 2)) lc
          (Node.mk (lc.keys ++ [mid]) (lc.children ++ [fc]) lc.leaf lc.order)
        rw [hAlen2] at h5
        rw [h5]
        have h7 := set_cons_junction_succ (cs.take idx) (cs.drop (idx + 2))
          (Node.mk (lc.keys ++ [mid]) (lc.children ++ [fc]) lc.leaf lc.order) rc
          (Node.mk rest rcc rc.leaf rc.order)
        rw [hAlen2] at h7
        exact h7
      rw [hchf]
    · have hseg : (Node.mk (lc.keys ++ [mid]) (lc.children ++ [fc]) lc.leaf lc.order).toList ++
          w :: (Node.mk rest rcc rc.leaf rc.order).toList
          = lc.toList ++ mid :: rc.toList := by
        rw [toList_of_int hlf, toList_of_int hrf]
        rw [toList_of_int (by simp [hlf]), toList_of_int (by simp [hrf])]
        simp only [Node.keys_mk, Node.children_mk, hrk, hrcc]
        rw [glueT_cons, glueT_snoc (hlcnt2 ▸ rfl)]
        simp
      have h1S : (Node.mk (lc.keys ++ [mid]) (lc.children ++ [fc])
          lc.leaf lc.order).structOk = true := by
        rw [structOk_mk]
        simp only [hlf, Bool.false_eq_true, if_false]
        constructor
        · simp only [List.length_append, List.length_singleton, hlcnt2]
        · intro x hx
          rcases List.mem_append.1 hx with hx | hx
          · exact hlkid x hx
          · rw [List.mem_singleton.1 hx]
            exact hrkid _ hfcmem
      have h2S : (Node.mk rest rcc rc.leaf rc.order).structOk = true := by
        rw [structOk_mk]
        simp only [hrf, Bool.false_eq_true, if_false]
        constructor
        · rw [hrcclen, hrcnt2, hrestlen]
          omega
        · intro x hx
          exact hrkid x (hrccmem x hx)
      have h1h : (Node.mk (lc.keys ++ [mid]) (lc.children ++ [fc]) lc.leaf lc.order).height
          = lc.height := by
        rw [height_of_int (by simp [hlf])]
        simp only [Node.children_mk]
        rw [maxH_append]
        have h9 := height_of_int hlf
        have h10 := hrcx fc hfcmem
        rw [← hlh] at h10
        simp only [maxH_cons, maxH]
        omega
      have h2h : (Node.mk rest rcc rc.leaf rc.order).height = rc.height := by
        rw [height_of_int (by simp [hrf])]
        simp only [Node.children_mk]
        have hrccne : rcc ≠ [] := by
          apply List.ne_nil_of_length_pos
          rw [hrcclen, hrcnt2]
          omega
        rw [maxH_all_eq (h := rc.height - 1)
          (fun x hx => by have := hrcx x (hrccmem x hx); omega) hrccne]
        have h9 := height_of_int hrf
        have h10 := hrcx fc hfcmem
        omega
      have h1U : (Node.mk (lc.keys ++ [mid]) (lc.children ++ [fc])
          lc.leaf lc.order).unifH = true := by
        apply unifH_mk.2
        constructor
        · intro x hx y hy
          have hht : ∀ z ∈ lc.children ++ [fc], z.height + 1 = lc.height := by
            intro z hz
            rcases List.mem_append.1 hz with hz | hz
            · exact hlcx z hz
            · rw [List.mem_singleton.1 hz]
              have := hrcx fc hfcmem
              omega
          have h1 := hht x hx
          have h2 := hht y hy
          omega
        · intro x hx
          rcases List.mem_append.1 hx with hx | hx
          · exact (unifH_parts hlcU).2 x hx
          · rw [List.mem_singleton.1 hx]
            exact (unifH_parts hrcU).2 _ hfcmem
      have h2U : (Node.mk rest rcc rc.leaf rc.order).unifH = true := by
        apply unifH_mk.2
        constructor
        · intro x hx y hy
          exact (unifH_parts hrcU).1 x (hrccmem x hx) y (hrccmem y hy)
        · intro x hx
          exact (unifH_parts hrcU).2 x (hrccmem x hx)
      have h1ord : ∀ o, (Node.mk k cs false o9).ordAll o = true →
          (Node.mk (lc.keys ++ [mid]) (lc.children ++ [fc])
            lc.leaf lc.order).ordAll o = true := by
        intro o ho
        rw [ordAll_mk]
        refine ⟨(ordAll_parts (hlcord o ho)).1, ?_⟩
        intro x hx
        rcases List.mem_append.1 hx with hx | hx
        · exact (ordAll_parts (hlcord o ho)).2 x hx
        · rw [List.mem_singleton.1 hx]
          exact (ordAll_parts (hrcord o ho)).2 _ hfcmem
      have h2ord : ∀ o, (Node.mk k cs false o9).ordAll o = true →
          (Node.mk rest rcc rc.leaf rc.order).ordAll o = true := by
        intro o ho
        rw [ordAll_mk]
        refine ⟨(ordAll_parts (hrcord o ho)).1, ?_⟩
        intro x hx
        exact (ordAll_parts (hrcord o ho)).2 x (hrccmem x hx)
      have h1sub : (∀ x ∈ cs, x.subMin = true) →
          (Node.mk (lc.keys ++ [mid]) (lc.children ++ [fc])
            lc.leaf lc.order).subMin = true := by
        intro hsub
        rw [subMin_mk]
        refine ⟨by simp, ?_⟩
        intro x hx
        rcases List.mem_append.1 hx with hx | hx
        · exact (subMin_parts (hsub lc hlcmem)).2 x hx
        · rw [List.mem_singleton.1 hx]
          exact (subMin_parts (hsub rc hrcmem)).2 _ hfcmem
      have h2sub : (∀ x ∈ cs, x.subMin = true) →
          (Node.mk rest rcc rc.leaf rc.order).subMin = true := by
        intro hsub
        rw [subMin_mk]
        constructor
        · apply List.ne_nil_of_length_pos
          omega
        · intro x hx
          exact (subMin_parts (hsub rc hrcmem)).2 x (hrccmem x hx)
      obtain ⟨hF1, hF2, hF3, hF4, hF5, hF6, hF7, hF8, hF9⟩ :=
        rotate_frame hlen hmid hlc hrc hstruct hunif hseg h1S h2S h1h h2h h1U h2U
          h1ord h2ord h1sub h2sub
      refine ⟨hF1, ?_, by simp, h1h, h1S, hF3, hF4, hF5, hF6, hF7, hF8, hF9⟩
      rw [toList_of_int hlf, toList_of_int (by simp [hlf])]
      simp only [Node.keys_mk, Node.children_mk]
      rw [glueT_snoc (hlcnt2 ▸ rfl)]
      exact List.subset_append_left _ _

/-! ## Reassembly lemmas for delete -/

theorem take_of_junction {α : Type} {A B : List α} {i : Nat} (h : A.length = i) :
    (A ++ B).take i = A := by
  rw [← h]
  exact List.take_left A B

theorem drop_of_junction {α : Type} {A B : List α} {i : Nat} (h : A.length = i) :
    (A ++ B).drop i = B := by
  rw [← h]
  exact List.drop_left A B

theorem glueT_key_decomp' {cs : List Node} {ks : List Int} {j : Nat} {v : Int}
    (hlen : cs.length = ks.length + 1) (hj : ks[j]? = some v) :
    glueT cs ks = glueT (cs.take (j + 1)) (ks.take j) ++
      v :: glueT (cs.drop (j + 1)) (ks.drop (j + 1)) := by
  obtain ⟨h, he⟩ := List.getElem?_eq_some_iff.1 hj
  rw [glueT_key_decomp hlen h, he]

theorem assemble_del {k : List Int} {cs : List Node} {idx : Nat} {c c1 : Node} {o9 : Nat}
    {v : Int}
    (hlen : cs.length = k.length + 1)
    (hc : cs[idx]? = some c)
    (hsort : List.Sorted (· ≤ ·) (glueT cs k))
    (hstruct : (Node.mk k cs false o9).structOk = true)
    (h1 : c1.structOk = true)
    (hperm : (v :: c1.toList).Perm c.toList)
    (hs1 : List.Sorted (· ≤ ·) c1.toList)
    (hh : c1.height = c.height) :
    (Node.mk k (cs.set idx c1) false o9).structOk = true ∧
    List.Sorted (· ≤ ·) (glueT (cs.set idx c1) k) ∧
    (v :: glueT (cs.set idx c1) k).Perm (glueT cs k) ∧
    (Node.mk k (cs.set idx c1) false o9).height = (Node.mk k cs false o9).height ∧
    (∀ o, (Node.mk k cs false o9).ordAll o = true → c1.ordAll o = true →
      (Node.mk k (cs.set idx c1) false o9).ordAll o = true) ∧
    ((∀ x ∈ cs, x.subMin = true) → c1.subMin = true →
      ∀ x ∈ cs.set idx c1, x.subMin = true) ∧
    ((Node.mk k cs false o9).unifH = true → c1.unifH = true →
      (Node.mk k (cs.set idx c1) false o9).unifH = true) := by
  have hidx : idx < cs.length := by
    by_contra hcon
    rw [List.getElem?_eq_none (by omega)] at hc
    cases hc
  have hik : idx ≤ k.length := by omega
  obtain ⟨_, hcntf, hkids⟩ := structOk_parts hstruct
  simp only [Node.children_mk] at hkids
  have hcmem : c ∈ cs := List.getElem?_mem hc
  have hset : cs.set idx c1 = cs.take idx ++ c1 :: cs.drop (idx + 1) :=
    list_setN_eq cs idx c1 hidx
  have hid : cs = cs.take idx ++ c :: cs.drop (idx + 1) := list_eq_take_get_drop cs idx c hc
  have hmemset : ∀ x ∈ cs.set idx c1, x = c1 ∨ x ∈ cs := by
    intro x hx
    rcases List.mem_or_eq_of_mem_set hx with hx2 | rfl
    · exact Or.inr hx2
    · exact Or.inl rfl
  have hsform := glueT_set_form c1 hidx hik
  have hiform := glueT_id_form hc hlen
  have hsub1 : ∀ x ∈ c1.toList, x ∈ c.toList := fun x hx =>
    hperm.mem_iff.1 (List.mem_cons_of_mem v hx)
  have hAx : ∀ x ∈ c1.toList, ∀ a ∈ glueT (cs.take idx) (k.take idx), a ≤ x := by
    intro x hx a ha
    have hsort2 := hsort
    rw [hiform, List.append_assoc] at hsort2
    exact sorted_append_pair hsort2 a ha x (List.mem_append.2 (Or.inl (hsub1 x hx)))
  have hCx : ∀ x ∈ c1.toList, ∀ b ∈ glueS (cs.drop (idx + 1)) (k.drop idx), x ≤ b := by
    intro x hx b hb
    have hsort2 := hsort
    rw [hiform, List.append_assoc] at hsort2
    have h9 := (List.pairwise_append.1 hsort2).2.1
    exact sorted_append_pair h9 x (hsub1 x hx) b hb
  refine ⟨?_, ?_, ?_, ?_, ?_, ?_, ?_⟩
  · rw [structOk_mk]
    simp only [Bool.false_eq_true, if_false, List.length_set]
    refine ⟨by omega, ?_⟩
    intro x hx
    rcases hmemset x hx with rfl | hx2
    · exact h1
    · exact hkids x hx2
  · rw [hsform]
    have hsort2 := hsort
    rw [hiform] at hsort2
    exact sorted_replace_mid hsort2 hs1 hAx hCx
  · rw [hsform, hiform]
    rw [List.append_assoc, List.append_assoc]
    refine List.Perm.trans List.perm_middle.symm ?_
    exact List.Perm.append_left _ (List.Perm.append_right _ hperm)
  · simp only [height_mk_int]
    conv_lhs => rw [hset]
    conv_rhs => rw [hid]
    rw [maxH_append, maxH_append, maxH_cons, maxH_cons, hh]
  · intro o ho ho1
    obtain ⟨ho9, hkord⟩ := ordAll_parts ho
    simp only [Node.children_mk] at hkord
    simp only [Node.order_mk] at ho9
    rw [ordAll_mk]
    refine ⟨ho9, ?_⟩
    intro x hx
    rcases hmemset x hx with rfl | hx2
    · exact ho1
    · exact hkord x hx2
  · intro hsub h1sub x hx
    rcases hmemset x hx with rfl | hx2
    · exact h1sub
    · exact hsub x hx2
  · intro hu hu1
    obtain ⟨hueq, huall⟩ := unifH_mk.1 hu
    apply unifH_mk.2
    have hgt : ∀ x ∈ cs.set idx c1, x.height = c.height := by
      intro x hx
      rcases hmemset x hx with rfl | hx2
      · exact hh
      · exact hueq x hx2 c hcmem
    constructor
    · intro x hx y hy
      rw [hgt x hx, hgt y hy]
    · intro x hx
      rcases hmemset x hx with rfl | hx2
      · exact hu1
      · exact huall x hx2

theorem assemble_pred {k : List Int} {cs : List Node} {idx : Nat} {lc lc1 : Node} {o9 : Nat}
    {v w : Int}
    (hlen : cs.length = k.length + 1)
    (hv : k[idx]? = some v)
    (hlc : cs[idx]? = some lc)
    (hsort : List.Sorted (· ≤ ·) (glueT cs k))
    (hstruct : (Node.mk k cs false o9).structOk = true)
    (h1 : lc1.structOk = true)
    (hperm : (w :: lc1.toList).Perm lc.toList)
    (hs1 : List.Sorted (· ≤ ·) lc1.toList)
    (hh : lc1.height = lc.height)
    (hwmem : w ∈ lc.toList)
    (hwmax : ∀ x ∈ lc.toList, x ≤ w) :
    (Node.mk (k.set idx w) (cs.set idx lc1) false o9).structOk = true ∧
    List.Sorted (· ≤ ·) (glueT (cs.set idx lc1) (k.set idx w)) ∧
    (v :: glueT (cs.set idx lc1) (k.set idx w)).Perm (glueT cs k) ∧
    (Node.mk (k.set idx w) (cs.set idx lc1) false o9).height
      = (Node.mk k cs false o9).height ∧
    (k.set idx w).length = k.length ∧
    (∀ o, (Node.mk k cs false o9).ordAll o = true → lc1.ordAll o = true →
      (Node.mk (k.set idx w) (cs.set idx lc1) false o9).ordAll o = true) ∧
    ((∀ x ∈ cs, x.subMin = true) → lc1.subMin = true →
      ∀ x ∈ cs.set idx lc1, x.subMin = true) ∧
    ((Node.mk k cs false o9).unifH = true → lc1.unifH = true →
      (Node.mk (k.set idx w) (cs.set idx lc1) false o9).unifH = true) := by
  have hik : idx < k.length := by
    by_contra hcon
    rw [List.getElem?_eq_none (by omega)] at hv
    cases hv
  have hidx : idx < cs.length := by omega
  obtain ⟨_, hcntf, hkids⟩ := structOk_parts hstruct
  simp only [Node.children_mk] at hkids
  have hlcmem : lc ∈ cs := List.getElem?_mem hlc
  have hAlen : (cs.take idx).length = idx := by rw [List.length_take]; omega
  have hKAlen : (k.take idx).length = idx := by rw [List.length_take]; omega
  have hmemset : ∀ x ∈ cs.set idx lc1, x = lc1 ∨ x ∈ cs := by
    intro x hx
    rcases List.mem_or_eq_of_mem_set hx with hx2 | rfl
    · exact Or.inr hx2
    · exact Or.inl rfl
  have hsub1 : ∀ x ∈ lc1.toList, x ∈ lc.toList := fun x hx =>
    hperm.mem_iff.1 (List.mem_cons_of_mem w hx)
  have htsucc : cs.take (idx + 1) = cs.take idx ++ [lc] := by
    rw [List.take_succ, hlc]
    rfl
  have eOld : glueT cs k = glueT (cs.take idx) (k.take idx) ++ (lc.toList ++ [v]) ++
      glueT (cs.drop (idx + 1)) (k.drop (idx + 1)) := by
    rw [glueT_key_decomp' hlen hv, htsucc,
      glueT_snoc_child (by rw [hAlen, hKAlen])]
    simp
  have hksete : k.set idx w = k.take idx ++ w :: k.drop (idx + 1) := list_set_eq k idx w hik
  have hcsete : cs.set idx lc1 = cs.take idx ++ lc1 :: cs.drop (idx + 1) :=
    list_setN_eq cs idx lc1 hidx
  have hw' : (k.set idx w)[idx]? = some w := List.getElem?_set_eq hik
  have hlen' : (cs.set idx lc1).length = (k.set idx w).length + 1 := by
    rw [List.length_set, List.length_set]
    exact hlen
  have htake1 : (cs.set idx lc1).take (idx + 1) = cs.take idx ++ [lc1] := by
    rw [hcsete]
    have h9 : cs.take idx ++ lc1 :: cs.drop (idx + 1)
        = (cs.take idx ++ [lc1]) ++ cs.drop (idx + 1) := by simp
    rw [h9]
    exact take_of_junction (by rw [List.length_append, hAlen]; rfl)
  have hdrop1 : (cs.set idx lc1).drop (idx + 1) = cs.drop (idx + 1) := by
    rw [hcsete]
    have h9 : cs.take idx ++ lc1 :: cs.drop (idx + 1)
        = (cs.take idx ++ [lc1]) ++ cs.drop (idx + 1) := by simp
    rw [h9]
    exact drop_of_junction (by rw [List.length_append, hAlen]; rfl)
  have hktake : (k.set idx w).take idx = k.take idx := by
    rw [hksete]
    exact take_of_junction hKAlen
  have hkdrop : (k.set idx w).drop (idx + 1) = k.drop (idx + 1) := by
    rw [hksete]
    have h9 : k.take idx ++ w :: k.drop (idx + 1)
        = (k.take idx ++ [w]) ++ k.drop (idx + 1) := by simp
    rw [h9]
    exact drop_of_junction (by rw [List.length_append, hKAlen]; rfl)
  have eNew : glueT (cs.set idx lc1) (k.set idx w)
      = glueT (cs.take idx) (k.take idx) ++ (lc1.toList ++ [w]) ++
        glueT (cs.drop (idx + 1)) (k.drop (idx + 1)) := by
    rw [glueT_key_decomp' hlen' hw', htake1, hdrop1, hktake, hkdrop,
      glueT_snoc_child (by rw [hAlen, hKAlen])]
    simp
  have hs2 := hsort
  rw [eOld] at hs2
  have hsPB : List.Sorted (· ≤ ·)
      (glueT (cs.take idx) (k.take idx) ++ (lc.toList ++ [v])) :=
    (List.pairwise_append.1 hs2).1
  have hPB2 : ∀ y ∈ glueT (cs.take idx) (k.take idx) ++ (lc.toList ++ [v]),
      ∀ g ∈ glueT (cs.drop (idx + 1)) (k.drop (idx + 1)), y ≤ g :=
    (List.pairwise_append.1 hs2).2.2
  have hPlc : ∀ a ∈ glueT (cs.take idx) (k.take idx), ∀ y ∈ lc.toList ++ [v], a ≤ y :=
    sorted_append_pair hsPB
  have hsB' : List.Sorted (· ≤ ·) (lc1.toList ++ [w]) := by
    rw [List.Sorted, List.pairwise_append]
    refine ⟨hs1, by simp, ?_⟩
    intro x hx y hy
    rw [List.mem_singleton.1 hy]
    exact hwmax x (hsub1 x hx)
  have hA : ∀ x ∈ lc1.toList ++ [w], ∀ a ∈ glueT (cs.take idx) (k.take idx), a ≤ x := by
    intro x hx a ha
    rcases List.mem_append.1 hx with hx | hx
    · exact hPlc a ha x (List.mem_append.2 (Or.inl (hsub1 x hx)))
    · rw [List.mem_singleton.1 hx]
      exact hPlc a ha w (List.mem_append.2 (Or.inl hwmem))
  have hC : ∀ x ∈ lc1.toList ++ [w],
      ∀ g ∈ glueT (cs.drop (idx + 1)) (k.drop (idx + 1)), x ≤ g := by
    intro x hx g hg
    rcases List.mem_append.1 hx with hx | hx
    · exact hPB2 x (List.mem_append.2 (Or.inr (List.mem_append.2 (Or.inl (hsub1 x hx))))) g hg
    · rw [List.mem_singleton.1 hx]
      exact hPB2 w (List.mem_append.2 (Or.inr (List.mem_append.2 (Or.inl hwmem)))) g hg
  refine ⟨?_, ?_, ?_, ?_, by simp, ?_, ?_, ?_⟩
  · rw [structOk_mk]
    simp only [Bool.false_eq_true, if_false, List.length_set]
    refine ⟨by omega, ?_⟩
    intro x hx
    rcases hmemset x hx with rfl | hx2
    · exact h1
    · exact hkids x hx2
  · rw [eNew]
    exact sorted_replace_mid hs2 hsB' hA hC
  · rw [eNew, eOld]
    have q1 : (lc1.toList ++ [w]).Perm lc.toList := by
      refine List.Perm.trans List.perm_middle ?_
      rw [List.append_nil]
      exact hperm
    have q2 : (v :: (lc1.toList ++ [w])).Perm (lc.toList ++ [v]) := by
      refine List.Perm.trans (List.Perm.cons v q1) ?_
      have h9 := @List.perm_middle _ v lc.toList []
      rw [List.append_nil] at h9
      exact h9.symm
    conv_lhs => rw [List.append_assoc]
    conv_rhs => rw [List.append_assoc]
    refine List.Perm.trans List.perm_middle.symm ?_
    exact List.Perm.append_left _ (List.Perm.append_right _ q2)
  · simp only [height_mk_int]
    conv_lhs => rw [hcsete]
    conv_rhs => rw [list_eq_take_get_drop cs idx lc hlc]
    rw [maxH_append, maxH_append, maxH_cons, maxH_cons, hh]
  · intro o ho ho1
    obtain ⟨ho9, hkord⟩ := ordAll_parts ho
    simp only [Node.children_mk] at hkord
    simp only [Node.order_mk] at ho9
    rw [ordAll_mk]
    refine ⟨ho9, ?_⟩
    intro x hx
    rcases hmemset x hx with rfl | hx2
    · exact ho1
    · exact hkord x hx2
  · intro hsub h1sub x hx
    rcases hmemset x hx with rfl | hx2
    · exact h1sub
    · exact hsub x hx2
  · intro hu hu1
    obtain ⟨hueq, huall⟩ := unifH_mk.1 hu
    apply unifH_mk.2
    have hgt : ∀ x ∈ cs.set idx lc1, x.height = lc.height := by
      intro x hx
      rcases hmemset x hx with rfl | hx2
      · exact hh
      · exact hueq x hx2 lc hlcmem
    constructor
    · intro x hx y hy
      rw [hgt x hx, hgt y hy]
    · intro x hx
      rcases hmemset x hx with rfl | hx2
      · exact hu1
      · exact huall x hx2

theorem assemble_succ {k : List Int} {cs : List Node} {idx : Nat} {rc rc1 : Node} {o9 : Nat}
    {v w : Int}
    (hlen : cs.length = k.length + 1)
    (hv : k[idx]? = some v)
    (hrc : cs[idx + 1]? = some rc)
    (hsort : List.Sorted (· ≤ ·) (glueT cs k))
    (hstruct : (Node.mk k cs false o9).structOk = true)
    (h1 : rc1.structOk = true)
    (hperm : (w :: rc1.toList).Perm rc.toList)
    (hs1 : List.Sorted (· ≤ ·) rc1.toList)
    (hh : rc1.height = rc.height)
    (hwmem : w ∈ rc.toList)
    (hwmin : ∀ x ∈ rc.toList, w ≤ x) :
    (Node.mk (k.set idx w) (cs.set (idx + 1) rc1) false o9).structOk = true ∧
    List.Sorted (· ≤ ·) (glueT (cs.set (idx + 1) rc1) (k.set idx w)) ∧
    (v :: glueT (cs.set (idx + 1) rc1) (k.set idx w)).Perm (glueT cs k) ∧
    (Node.mk (k.set idx w) (cs.set (idx + 1) rc1) false o9).height
      = (Node.mk k cs false o9).height ∧
    (k.set idx w).length = k.length ∧
    (∀ o, (Node.mk k cs false o9).ordAll o = true → rc1.ordAll o = true →
      (Node.mk (k.set idx w) (cs.set (idx + 1) rc1) false o9).ordAll o = true) ∧
    ((∀ x ∈ cs, x.subMin = true) → rc1.subMin = true →
      ∀ x ∈ cs.set (idx + 1) rc1, x.subMin = true) ∧
    ((Node.mk k cs false o9).unifH = true → rc1.unifH = true →
      (Node.mk (k.set idx w) (cs.set (idx + 1) rc1) false o9).unifH = true) := by
  have hik : idx < k.length := by
    by_contra hcon
    rw [List.getElem?_eq_none (by omega)] at hv
    cases hv
  have hidx : idx + 1 < cs.length := by
    by_contra hcon
    rw [List.getElem?_eq_none (by omega)] at hrc
    cases hrc
  obtain ⟨_, hcntf, hkids⟩ := structOk_parts hstruct
  simp only [Node.children_mk] at hkids
  have hrcmem : rc ∈ cs := List.getElem?_mem hrc
  have hT1len : (cs.take (idx + 1)).length = idx + 1 := by rw [List.length_take]; omega
  have hKAlen : (k.take idx).length = idx := by rw [List.length_take]; omega
  have hmemset : ∀ x ∈ cs.set (idx + 1) rc1, x = rc1 ∨ x ∈ cs := by
    intro x hx
    rcases List.mem_or_eq_of_mem_set hx with hx2 | rfl
    · exact Or.inr hx2
    · exact Or.inl rfl
  have hsub1 : ∀ x ∈ rc1.toList, x ∈ rc.toList := fun x hx =>
    hperm.mem_iff.1 (List.mem_cons_of_mem w hx)
  have hdform : cs.drop (idx + 1) = rc :: cs.drop (idx + 2) := drop_succ_form hrc
  have eOld : glueT cs k = glueT (cs.take (idx + 1)) (k.take idx) ++ (v :: rc.toList) ++
      glueS (cs.drop (idx + 2)) (k.drop (idx + 1)) := by
    rw [glueT_key_decomp' hlen hv, hdform, glueT_cons_eq_glueS]
    simp
  have hcsete : cs.set (idx + 1) rc1 = cs.take (idx + 1) ++ rc1 :: cs.drop (idx + 2) :=
    list_setN_eq cs (idx + 1) rc1 hidx
  have hksete : k.set idx w = k.take idx ++ w :: k.drop (idx + 1) := list_set_eq k idx w hik
  have hw' : (k.set idx w)[idx]? = some w := List.getElem?_set_eq hik
  have hlen' : (cs.set (idx + 1) rc1).length = (k.set idx w).length + 1 := by
    rw [List.length_set, List.length_set]
    exact hlen
  have htake1 : (cs.set (idx + 1) rc1).take (idx + 1) = cs.take (idx + 1) := by
    rw [hcsete]
    exact take_of_junction hT1len
  have hdrop1 : (cs.set (idx + 1) rc1).drop (idx + 1) = rc1 :: cs.drop (idx + 2) := by
    rw [hcsete]
    exact drop_of_junction hT1len
  have hktake : (k.set idx w).take idx = k.take idx := by
    rw [hksete]
    exact take_of_junction hKAlen
  have hkdrop : (k.set idx w).drop (idx + 1) = k.drop (idx + 1) := by
    rw [hksete]
    have h9 : k.take idx ++ w :: k.drop (idx + 1)
        = (k.take idx ++ [w]) ++ k.drop (idx + 1) := by simp
    rw [h9]
    exact drop_of_junction (by rw [List.length_append, hKAlen]; rfl)
  have eNew : glueT (cs.set (idx + 1) rc1) (k.set idx w)
      = glueT (cs.take (idx + 1)) (k.take idx) ++ (w :: rc1.toList) ++
        glueS (cs.drop (idx + 2)) (k.drop (idx + 1)) := by
    rw [glueT_key_decomp' hlen' hw', htake1, hdrop1, hktake, hkdrop, glueT_cons_eq_glueS]
    simp
  have hs2 := hsort
  rw [eOld] at hs2
  have hsPB : List.Sorted (· ≤ ·)
      (glueT (cs.take (idx + 1)) (k.take idx) ++ (v :: rc.toList)) :=
    (List.pairwise_append.1 hs2).1
  have hPB2 : ∀ y ∈ glueT (cs.take (idx + 1)) (k.take idx) ++ (v :: rc.toList),
      ∀ g ∈ glueS (cs.drop (idx + 2)) (k.drop (idx + 1)), y ≤ g :=
    (List.pairwise_append.1 hs2).2.2
  have hPrc : ∀ a ∈ glueT (cs.take (idx + 1)) (k.take idx), ∀ y ∈ v :: rc.toList, a ≤ y :=
    sorted_append_pair hsPB
  have hsB' : List.Sorted (· ≤ ·) (w :: rc1.toList) := by
    rw [List.Sorted, List.pairwise_cons]
    refine ⟨?_, hs1⟩
    intro x hx
    exact hwmin x (hsub1 x hx)
  have hA : ∀ x ∈ w :: rc1.toList, ∀ a ∈ glueT (cs.take (idx + 1)) (k.take idx), a ≤ x := by
    intro x hx a ha
    rcases List.mem_cons.1 hx with rfl | hx
    · exact hPrc a ha x (List.mem_cons_of_mem v hwmem)
    · exact hPrc a ha x (List.mem_cons_of_mem v (hsub1 x hx))
  have hC : ∀ x ∈ w :: rc1.toList,
      ∀ g ∈ glueS (cs.drop (idx + 2)) (k.drop (idx + 1)), x ≤ g := by
    intro x hx g hg
    rcases List.mem_cons.1 hx with rfl | hx
    · exact hPB2 x (List.mem_append.2 (Or.inr (List.mem_cons_of_mem v hwmem))) g hg
    · exact hPB2 x (List.mem_append.2 (Or.inr (List.mem_cons_of_mem v (hsub1 x hx)))) g hg
  refine ⟨?_, ?_, ?_, ?_, by simp, ?_, ?_, ?_⟩
  · rw [structOk_mk]
    simp only [Bool.false_eq_true, if_false, List.length_set]
    refine ⟨by omega, ?_⟩
    intro x hx
    rcases hmemset x hx with rfl | hx2
    · exact h1
    · exact hkids x hx2
  · rw [eNew]
    exact sorted_replace_mid hs2 hsB' hA hC
  · rw [eNew, eOld]
    have q2 : (v :: (w :: rc1.toList)).Perm (v :: rc.toList) := List.Perm.cons v hperm
    conv_lhs => rw [List.append_assoc]
    conv_rhs => rw [List.append_assoc]
    refine List.Perm.trans List.perm_middle.symm ?_
    exact List.Perm.append_left _ (List.Perm.append_right _ q2)
  · simp only [height_mk_int]
    conv_lhs => rw [hcsete]
    conv_rhs => rw [list_eq_take_get_drop cs (idx + 1) rc hrc]
    rw [maxH_append, maxH_append, maxH_cons, maxH_cons, hh]
  · intro o ho ho1
    obtain ⟨ho9, hkord⟩ := ordAll_parts ho
    simp only [Node.children_mk] at hkord
    simp only [Node.order_mk] at ho9
    rw [ordAll_mk]
    refine ⟨ho9, ?_⟩
    intro x hx
    rcases hmemset x hx with rfl | hx2
    · exact ho1
    · exact hkord x hx2
  · intro hsub h1sub x hx
    rcases hmemset x hx with rfl | hx2
    · exact h1sub
    · exact hsub x hx2
  · intro hu hu1
    obtain ⟨hueq, huall⟩ := unifH_mk.1 hu
    apply unifH_mk.2
    have hgt : ∀ x ∈ cs.set (idx + 1) rc1, x.height = rc.height := by
      intro x hx
      rcases hmemset x hx with rfl | hx2
      · exact hh
      · exact hueq x hx2 rc hrcmem
    constructor
    · intro x hx y hy
      rw [hgt x hx, hgt y hy]
    · intro x hx
      rcases hmemset x hx with rfl | hx2
      · exact hu1
      · exact huall x hx2

/-! ## The delete specification -/

theorem getLast?_some_of_ne_nil {l : List Int} (h : l ≠ []) : ∃ a, l.getLast? = some a :=
  ⟨l.getLast h, List.getLast?_eq_getLast l h⟩

theorem head?_some_of_ne_nil {l : List Int} (h : l ≠ []) : ∃ a, l.head? = some a := by
  rcases l with _ | ⟨a, t⟩
  · cases h rfl
  · exact ⟨a, rfl⟩

/-- Bundle of conclusions of the `Node::delete` specification in the
present case. -/
def DelOut (o : Nat) (v : Int) (n n' : Node) : Prop :=
  n'.structOk = true ∧ n'.ordAll o = true ∧
  List.Sorted (· ≤ ·) n'.toList ∧
  (v :: n'.toList).Perm n.toList ∧
  n'.height = n.height ∧
  n'.leaf = n.leaf ∧ n'.order = n.order ∧
  n.keys.length - 1 ≤ n'.keys.length ∧ n'.keys.length ≤ n.keys.length ∧
  (∀ x ∈ n'.children, x.subMin = true) ∧
  n'.unifH = true

theorem delete_spec :
    ∀ fuel (n : Node) (v : Int) (o : Nat), 3 ≤ o →
      n.structOk = true → n.ordAll o = true →
      List.Sorted (· ≤ ·) n.toList →
      (∀ x ∈ n.children, x.subMin = true) →
      n.unifH = true →
      (n.leaf = false → n.keys ≠ []) →
      n.height < fuel →
      (v ∈ n.toList → ∃ n', Node.delete fuel n v = .ok n' ∧ DelOut o v n n') ∧
      (v ∉ n.toList → Node.delete fuel n v = .error DErr.notFound) := by
  intro fuel
  induction fuel with
  | zero => intro n v o h3 _ _ _ _ _ _ hh; omega
  | succ fuel ih =>
    rintro ⟨k, cs, l, o9⟩ v o h3 hstruct hord hsort hsubC hunif hkne hh
    obtain ⟨ho9, hkord⟩ := ordAll_parts hord
    simp only [Node.order_mk] at ho9
    subst ho9
    simp only [Node.children_mk] at hsubC hkord
    rw [Node.delete]
    set idx := ((Node.mk k cs l o9).search v).2 with hidxdef
    have hik : idx ≤ k.length := search_idx_le _ v
    simp only [Node.leaf_mk] at hkne
    cases l with
    | true =>
      obtain ⟨hleafC, _, _⟩ := structOk_parts hstruct
      have hcnil : cs = [] := by simpa using hleafC rfl
      subst hcnil
      simp only [toList_mk_leaf] at hsort ⊢
      rcases hf : ((Node.mk k [] true o9).search v).1 with _ | _
      · rw [if_neg (by simp [hf])]
        rw [if_pos (by trivial)]
        have hnm := search_false_not_mem _ v (by simpa using hsort) hf
        simp only [Node.keys_mk] at hnm
        exact ⟨fun hv => absurd hv hnm, fun _ => rfl⟩
      · rw [if_pos (by trivial)]
        rw [if_pos (by trivial)]
        have hvk : (Node.mk k [] true o9).keys[idx]? = some v := search_found_get _ v hf
        simp only [Node.keys_mk] at hvk
        have hikx : idx < k.length := by
          rcases List.getElem?_eq_some_iff.1 hvk with ⟨h9, _⟩
          exact h9
        have hkeq : k = k.take idx ++ v :: k.drop (idx + 1) := list_eq_take_get_drop k idx v hvk
        have hvmem : v ∈ k := search_found_mem _ v hf
        refine ⟨fun _ => ⟨_, rfl, ?_, ?_, ?_, ?_, ?_, ?_, ?_, ?_, ?_, ?_, ?_⟩,
          fun hnv => absurd hvmem hnv⟩
        · simp [structOk_mk]
        · simp [ordAll_mk]
        · simp only [toList_mk_leaf]
          exact List.Pairwise.sublist (List.eraseIdx_sublist k idx) hsort
        · simp only [toList_mk_leaf]
          rw [List.eraseIdx_eq_take_drop_succ]
          conv_rhs => rw [hkeq]
          exact List.perm_middle.symm
        · simp
        · simp
        · simp
        · simp only [Node.keys_mk]
          rw [List.length_eraseIdx]
          simp [hikx]
        · simp only [Node.keys_mk]
          rw [List.length_eraseIdx]
          simp [hikx]
        · simp
        · exact unifH_nil_children
    | false =>
      obtain ⟨_, hcntf, hkids⟩ := structOk_parts hstruct
      have hlen : cs.length = k.length + 1 := by simpa using hcntf rfl
      simp only [toList_mk_int] at hsort ⊢
      have hsk : List.Sorted (· ≤ ·) k := List.Pairwise.sublist (sublist_glueT cs k) hsort
      simp only [Node.children_mk] at hkids
      have hknz : k ≠ [] := hkne rfl
      have hklp : 0 < k.length := List.length_pos.2 hknz
      have hthr2 : 2 ≤ (o9 - 1) / 2 + 1 := by omega
      obtain ⟨hueq, huall⟩ := unifH_mk.1 hunif
      rcases hf : ((Node.mk k cs false o9).search v).1 with _ | _
      · -- not found at this node
        rw [if_neg (by simp [hf]), if_neg (by simp)]
        obtain ⟨H1, H2⟩ := search_partition _ v (by simpa using hsk) hf
        simp only [Node.keys_mk] at H1 H2
        have hicx : idx < cs.length := by omega
        rcases hciq : cs[idx]? with _ | ci
        · rw [List.getElem?_eq_none_iff] at hciq; omega
        simp only [hciq]
        have hmemiff : v ∈ glueT cs k ↔ v ∈ ci.toList :=
          mem_glueT_iff_child hlen hsort hciq H1 H2
        have hcimem : ci ∈ cs := List.getElem?_mem hciq
        have hciS : ci.structOk = true := hkids ci hcimem
        have hciord : ci.ordAll o9 = true := hkord ci hcimem
        have hcisub : ci.subMin = true := hsubC ci hcimem
        have hciU : ci.unifH = true := huall ci hcimem
        have hcisort : List.Sorted (· ≤ ·) ci.toList := by
          have h9 := hsort
          rw [glueT_id_form hciq hlen] at h9
          exact sorted_of_decomp h9
        have hcih : ci.height < fuel := by
          have h9 := height_child_lt' (k := k) (o := o9) hciq
          simp only [height_mk_int] at h9 hh
          omega
        by_cases hdef : ci.keys.length < (o9 - 1) / 2 + 1
        · rw [if_pos hdef]
          by_cases hrot1 : 0 < idx ∧ sibSurplus ((o9 - 1) / 2 + 1) cs[idx - 1]?
          · rw [if_pos hrot1]
            obtain ⟨hpos, hsurL⟩ := hrot1
            rcases hsibq : cs[idx - 1]? with _ | sib
            · rw [hsibq] at hsurL
              simp [sibSurplus] at hsurL
            have hsibk : (o9 - 1) / 2 + 1 ≤ sib.keys.length := by
              rw [hsibq] at hsurL
              simpa [sibSurplus] using hsurL
            have hsibk2 : 2 ≤ sib.keys.length := by omega
            have hmidx : idx - 1 < k.length := by omega
            rcases hmidq : k[idx - 1]? with _ | mid
            · rw [List.getElem?_eq_none_iff] at hmidq; omega
            obtain ⟨lc1, rc1, w, hreq, hrget, hrsub2, hrk1, hrh, hrS, hklen, hrtl,
              hrpS, hrph, hrpU, hrpOrd, hrpsub⟩ :=
              rotate_right_spec hlen hpos hmidq hsibq hciq hstruct hunif hsibk2
            simp only [hreq, Node.children_mk, hrget, Node.keys_mk, Node.leaf_mk,
              Node.order_mk]
            have hlen2 : (cs.take (idx - 1) ++ lc1 :: rc1 :: cs.drop (idx + 1)).length
                = (k.take (idx - 1) ++ w :: k.drop idx).length + 1 := by
              simp only [List.length_append, List.length_cons, List.length_take,
                List.length_drop]
              omega
            have hp1sort : List.Sorted (· ≤ ·)
                (glueT (cs.take (idx - 1) ++ lc1 :: rc1 :: cs.drop (idx + 1))
                  (k.take (idx - 1) ++ w :: k.drop idx)) := by
              have h9 := hrtl
              simp only [toList_mk_int] at h9
              rw [h9]
              exact hsort
            have hrc1sort : List.Sorted (· ≤ ·) rc1.toList := by
              have h9 := hp1sort
              rw [glueT_id_form hrget hlen2] at h9
              exact sorted_of_decomp h9
            have hrc1ord : rc1.ordAll o9 = true := by
              have h9 := (ordAll_parts (hrpOrd o9 hord)).2
              simp only [Node.children_mk] at h9
              exact h9 rc1 (List.getElem?_mem hrget)
            have hrc1subM : rc1.subMin = true :=
              hrpsub hsubC rc1 (List.getElem?_mem hrget)
            have hrc1U : rc1.unifH = true := by
              have h9 := (unifH_parts hrpU).2
              simp only [Node.children_mk] at h9
              exact h9 rc1 (List.getElem?_mem hrget)
            have hcikne : ci.keys ≠ [] := (subMin_parts hcisub).1
            have hrc1h2 : rc1.height < fuel := by
              rw [hrh]
              exact hcih
            refine ⟨fun hv => ?_, fun hnv => ?_⟩
            · have hv2 : v ∈ rc1.toList := hrsub2 (hmemiff.1 hv)
              obtain ⟨c2, hdel2, D1, D2, D3, D4, D5, D6, D7, D8, D9, D10, D11⟩ :=
                (ih rc1 v o9 h3 hrS hrc1ord hrc1sort (subMin_parts hrc1subM).2 hrc1U
                  (fun _ => (subMin_parts hrc1subM).1) hrc1h2).1 hv2
              simp only [hdel2]
              obtain ⟨B1, B2, B3, B4, B5, B6, B7⟩ :=
                assemble_del hlen2 hrget hp1sort hrpS D1 D4 D3 D5
              have hc2sub : c2.subMin = true := by
                apply subMin_build
                · apply List.ne_nil_of_length_pos
                  have h10 : 0 < ci.keys.length := List.length_pos.2 hcikne
                  omega
                · exact D10
              refine ⟨_, rfl, B1, B5 o9 (hrpOrd o9 hord) D2, by simpa using B2, ?_, ?_,
                by simp, by simp, ?_, ?_, ?_, ?_⟩
              · simp only [toList_mk_int]
                refine B3.trans ?_
                have h9 := hrtl
                simp only [toList_mk_int] at h9
                rw [h9]
              · exact B4.trans hrph
              · simp only [Node.keys_mk]
                rw [hklen]
                omega
              · simp only [Node.keys_mk]
                rw [hklen]
              · simp only [Node.children_mk]
                exact B6 (hrpsub hsubC) hc2sub
              · exact B7 hrpU D11
            · have hsubT : rc1.toList ⊆ glueT cs k := by
                have h9 := hrtl
                simp only [toList_mk_int] at h9
                rw [← h9]
                exact child_subset_glueT hrget (by
                  have h10 := congrArg List.length (rfl : k.take (idx - 1) ++ w :: k.drop idx
                    = k.take (idx - 1) ++ w :: k.drop idx)
                  rw [hklen]
                  omega)
              have hv2 : v ∉ rc1.toList := fun hx => hnv (hsubT hx)
              have herr := (ih rc1 v o9 h3 hrS hrc1ord hrc1sort (subMin_parts hrc1subM).2
                hrc1U (fun _ => (subMin_parts hrc1subM).1) hrc1h2).2 hv2
              rw [herr]
          · rw [if_neg hrot1]
            by_cases hrot2 : idx < cs.length - 1 ∧ sibSurplus ((o9 - 1) / 2 + 1) cs[idx + 1]?
            · rw [if_pos hrot2]
              obtain ⟨hlt, hsurR⟩ := hrot2
              rcases hsibq : cs[idx + 1]? with _ | sib
              · rw [hsibq] at hsurR
                simp [sibSurplus] at hsurR
              have hsibk : (o9 - 1) / 2 + 1 ≤ sib.keys.length := by
                rw [hsibq] at hsurR
                simpa [sibSurplus] using hsurR
              have hsibk2 : 2 ≤ sib.keys.length := by omega
              have hmidx : idx < k.length := by omega
              rcases hmidq : k[idx]? with _ | mid
              · rw [List.getElem?_eq_none_iff] at hmidq; omega
              obtain ⟨lc1, rc1, w, hreq, hrget, hrsub2, hrk1, hrh, hrS, hklen, hrtl,
                hrpS, hrph, hrpU, hrpOrd, hrpsub⟩ :=
                rotate_left_spec hlen hmidq hciq hsibq hstruct hunif hsibk2
              simp only [hreq, Node.children_mk, hrget, Node.keys_mk, Node.leaf_mk,
                Node.order_mk]
              have hlen2 : (cs.take idx ++ lc1 :: rc1 :: cs.drop (idx + 2)).length
                  = (k.take idx ++ w :: k.drop (idx + 1)).length + 1 := by
                simp only [List.length_append, List.length_cons, List.length_take,
                  List.length_drop]
                omega
              have hp1sort : List.Sorted (· ≤ ·)
                  (glueT (cs.take idx ++ lc1 :: rc1 :: cs.drop (idx + 2))
                    (k.take idx ++ w :: k.drop (idx + 1))) := by
                have h9 := hrtl
                simp only [toList_mk_int] at h9
                rw [h9]
                exact hsort
              have hlc1sort : List.Sorted (· ≤ ·) lc1.toList := by
                have h9 := hp1sort
                rw [glueT_id_form hrget hlen2] at h9
                exact sorted_of_decomp h9
              have hlc1ord : lc1.ordAll o9 = true := by
                have h9 := (ordAll_parts (hrpOrd o9 hord)).2
                simp only [Node.children_mk] at h9
                exact h9 lc1 (List.getElem?_mem hrget)
              have hlc1subM : lc1.subMin = true :=
                hrpsub hsubC lc1 (List.getElem?_mem hrget)
              have hlc1U : lc1.unifH = true := by
                have h9 := (unifH_parts hrpU).2
                simp only [Node.children_mk] at h9
                exact h9 lc1 (List.getElem?_mem hrget)
              have hcikne : ci.keys ≠ [] := (subMin_parts hcisub).1
              have hlc1h2 : lc1.height < fuel := by
                rw [hrh]
                exact hcih
              refine ⟨fun hv => ?_, fun hnv => ?_⟩
              · have hv2 : v ∈ lc1.toList := hrsub2 (hmemiff.1 hv)
                obtain ⟨c2, hdel2, D1, D2, D3, D4, D5, D6, D7, D8, D9, D10, D11⟩ :=
                  (ih lc1 v o9 h3 hrS hlc1ord hlc1sort (subMin_parts hlc1subM).2 hlc1U
                    (fun _ => (subMin_parts hlc1subM).1) hlc1h2).1 hv2
                simp only [hdel2]
                obtain ⟨B1, B2, B3, B4, B5, B6, B7⟩ :=
                  assemble_del hlen2 hrget hp1sort hrpS D1 D4 D3 D5
                have hc2sub : c2.subMin = true := by
                  apply subMin_build
                  · apply List.ne_nil_of_length_pos
                    have h10 : 0 < ci.keys.length := List.length_pos.2 hcikne
                    omega
                  · exact D10
                refine ⟨_, rfl, B1, B5 o9 (hrpOrd o9 hord) D2, by simpa using B2, ?_, ?_,
                  by simp, by simp, ?_, ?_, ?_, ?_⟩
                · simp only [toList_mk_int]
                  refine B3.trans ?_
                  have h9 := hrtl
                  simp only [toList_mk_int] at h9
                  rw [h9]
                · exact B4.trans hrph
                · simp only [Node.keys_mk]
                  rw [hklen]
                  omega
                · simp only [Node.keys_mk]
                  rw [hklen]
                · simp only [Node.children_mk]
                  exact B6 (hrpsub hsubC) hc2sub
                · exact B7 hrpU D11
              · have hsubT : lc1.toList ⊆ glueT cs k := by
                  have h9 := hrtl
                  simp only [toList_mk_int] at h9
                  rw [← h9]
                  exact child_subset_glueT hrget (by rw [hklen]; omega)
                have hv2 : v ∉ lc1.toList := fun hx => hnv (hsubT hx)
                have herr := (ih lc1 v o9 h3 hrS hlc1ord hlc1sort (subMin_parts hlc1subM).2
                  hlc1U (fun _ => (subMin_parts hlc1subM).1) hlc1h2).2 hv2
                rw [herr]
            · rw [if_neg hrot2]
              by_cases hlast : idx = cs.length - 1
              · rw [if_pos hlast]
                have hpos1 : 0 < idx := by omega
                have hmidx : idx - 1 < k.length := by omega
                have he1 : idx - 1 + 1 = idx := by omega
                rcases hmidq : k[idx - 1]? with _ | v2
                · rw [List.getElem?_eq_none_iff] at hmidq; omega
                rcases hlcq2 : cs[idx - 1]? with _ | lcm
                · rw [List.getElem?_eq_none_iff] at hlcq2; omega
                have hciq2 : cs[idx - 1 + 1]? = some ci := by rw [he1]; exact hciq
                obtain ⟨mg, hmeq, hmtl, hmk, hmh, hml, hmS, hmU, hmOrd, hmSub, hsetf,
                  hmget, hp1tl, hp1S, hp1h, hp1U, hp1Ord, hp1sub⟩ :=
                  merge_spec hlen hmidq hlcq2 hciq2 hstruct hunif
                simp only [he1] at hmeq hmget hp1tl hp1S hp1h hp1U hp1Ord hp1sub
                simp only [hmeq, Node.children_mk, hmget, Node.keys_mk, Node.leaf_mk,
                  Node.order_mk]
                have hlen3 : ((cs.eraseIdx idx).set (idx - 1) mg).length
                    = (k.eraseIdx (idx - 1)).length + 1 := by
                  rw [List.length_set, List.length_eraseIdx, List.length_eraseIdx,
                    if_pos hicx, if_pos hmidx]
                  omega
                have hp1sort : List.Sorted (· ≤ ·)
                    (glueT ((cs.eraseIdx idx).set (idx - 1) mg) (k.eraseIdx (idx - 1))) := by
                  have h9 := hp1tl
                  simp only [toList_mk_int] at h9
                  rw [h9]
                  exact hsort
                have hmgsort : List.Sorted (· ≤ ·) mg.toList := by
                  have h9 := hp1sort
                  rw [glueT_id_form hmget hlen3] at h9
                  exact sorted_of_decomp h9
                have hmSubT : mg.subMin = true :=
                  hmSub (hsubC lcm (List.getElem?_mem hlcq2)) (hsubC ci hcimem)
                have hlcmkeys : 0 < lcm.keys.length :=
                  List.length_pos.2 (subMin_parts (hsubC lcm (List.getElem?_mem hlcq2))).1
                have hmgkne : mg.keys ≠ [] := by
                  apply List.ne_nil_of_length_pos
                  rw [hmk]
                  omega
                have hmgh2 : mg.height < fuel := by
                  rw [hmh]
                  have h9 := height_child_lt' (k := k) (o := o9) hlcq2
                  simp only [height_mk_int] at h9 hh
                  omega
                refine ⟨fun hv => ?_, fun hnv => ?_⟩
                · have hv2 : v ∈ mg.toList := by
                    rw [hmtl]
                    simp only [List.mem_append, List.mem_cons]
                    exact Or.inr (Or.inr (hmemiff.1 hv))
                  obtain ⟨c2, hdel2, D1, D2, D3, D4, D5, D6, D7, D8, D9, D10, D11⟩ :=
                    (ih mg v o9 h3 hmS (hmOrd o9 hord) hmgsort (subMin_parts hmSubT).2 hmU
                      (fun _ => hmgkne) hmgh2).1 hv2
                  simp only [hdel2]
                  obtain ⟨B1, B2, B3, B4, B5, B6, B7⟩ :=
                    assemble_del hlen3 hmget hp1sort hp1S D1 D4 D3 D5
                  have hc2sub : c2.subMin = true := by
                    apply subMin_build
                    · apply List.ne_nil_of_length_pos
                      omega
                    · exact D10
                  refine ⟨_, rfl, B1, B5 o9 (hp1Ord o9 hord) D2, by simpa using B2, ?_, ?_,
                    by simp, by simp, ?_, ?_, ?_, ?_⟩
                  · simp only [toList_mk_int]
                    refine B3.trans ?_
                    have h9 := hp1tl
                    simp only [toList_mk_int] at h9
                    rw [h9]
                  · exact B4.trans hp1h
                  · simp only [Node.keys_mk]
                    rw [List.length_eraseIdx, if_pos hmidx]
                  · simp only [Node.keys_mk]
                    rw [List.length_eraseIdx, if_pos hmidx]
                    omega
                  · simp only [Node.children_mk]
                    exact B6 (hp1sub hsubC) hc2sub
                  · exact B7 hp1U D11
                · have hsubT : mg.toList ⊆ glueT cs k := by
                    have h9 := hp1tl
                    simp only [toList_mk_int] at h9
                    rw [← h9]
                    exact child_subset_glueT hmget (by
                      rw [List.length_eraseIdx, if_pos hmidx]
                      omega)
                  have hv2 : v ∉ mg.toList := fun hx => hnv (hsubT hx)
                  have herr := (ih mg v o9 h3 hmS (hmOrd o9 hord) hmgsort
                    (subMin_parts hmSubT).2 hmU (fun _ => hmgkne) hmgh2).2 hv2
                  rw [herr]
              · rw [if_neg hlast]
                have hmidx : idx < k.length := by omega
                rcases hmidq : k[idx]? with _ | v2
                · rw [List.getElem?_eq_none_iff] at hmidq; omega
                rcases hrcq2 : cs[idx + 1]? with _ | rcm
                · rw [List.getElem?_eq_none_iff] at hrcq2; omega
                obtain ⟨mg, hmeq, hmtl, hmk, hmh, hml, hmS, hmU, hmOrd, hmSub, hsetf,
                  hmget, hp1tl, hp1S, hp1h, hp1U, hp1Ord, hp1sub⟩ :=
                  merge_spec hlen hmidq hciq hrcq2 hstruct hunif
                simp only [hmeq, Node.children_mk, hmget, Node.keys_mk, Node.leaf_mk,
                  Node.order_mk]
                have hlen3 : ((cs.eraseIdx (idx + 1)).set idx mg).length
                    = (k.eraseIdx idx).length + 1 := by
                  rw [List.length_set, List.length_eraseIdx, List.length_eraseIdx,
                    if_pos (by omega : idx + 1 < cs.length), if_pos hmidx]
                  omega
                have hp1sort : List.Sorted (· ≤ ·)
                    (glueT ((cs.eraseIdx (idx + 1)).set idx mg) (k.eraseIdx idx)) := by
                  have h9 := hp1tl
                  simp only [toList_mk_int] at h9
                  rw [h9]
                  exact hsort
                have hmgsort : List.Sorted (· ≤ ·) mg.toList := by
                  have h9 := hp1sort
                  rw [glueT_id_form hmget hlen3] at h9
                  exact sorted_of_decomp h9
                have hmSubT : mg.subMin = true :=
                  hmSub (hsubC ci hcimem) (hsubC rcm (List.getElem?_mem hrcq2))
                have hcikeys : 0 < ci.keys.length :=
                  List.length_pos.2 (subMin_parts hcisub).1
                have hmgkne : mg.keys ≠ [] := by
                  apply List.ne_nil_of_length_pos
                  rw [hmk]
                  omega
                have hmgh2 : mg.height < fuel := by
                  rw [hmh]
                  exact hcih
                refine ⟨fun hv => ?_, fun hnv => ?_⟩
                · have hv2 : v ∈ mg.toList := by
                    rw [hmtl]
                    simp only [List.mem_append, List.mem_cons]
                    exact Or.inl (hmemiff.1 hv)
                  obtain ⟨c2, hdel2, D1, D2, D3, D4, D5, D6, D7, D8, D9, D10, D11⟩ :=
                    (ih mg v o9 h3 hmS (hmOrd o9 hord) hmgsort (subMin_parts hmSubT).2 hmU
                      (fun _ => hmgkne) hmgh2).1 hv2
                  simp only [hdel2]
                  obtain ⟨B1, B2, B3, B4, B5, B6, B7⟩ :=
                    assemble_del hlen3 hmget hp1sort hp1S D1 D4 D3 D5
                  have hc2sub : c2.subMin = true := by
                    apply subMin_build
                    · apply List.ne_nil_of_length_pos
                      omega
                    · exact D10
                  refine ⟨_, rfl, B1, B5 o9 (hp1Ord o9 hord) D2, by simpa using B2, ?_, ?_,
                    by simp, by simp, ?_, ?_, ?_, ?_⟩
                  · simp only [toList_mk_int]
                    refine B3.trans ?_
                    have h9 := hp1tl
                    simp only [toList_mk_int] at h9
                    rw [h9]
                  · exact B4.trans hp1h
                  · simp only [Node.keys_mk]
                    rw [List.length_eraseIdx, if_pos hmidx]
                  · simp only [Node.keys_mk]
                    rw [List.length_eraseIdx, if_pos hmidx]
                    omega
                  · simp only [Node.children_mk]
                    exact B6 (hp1sub hsubC) hc2sub
                  · exact B7 hp1U D11
                · have hsubT : mg.toList ⊆ glueT cs k := by
                    have h9 := hp1tl
                    simp only [toList_mk_int] at h9
                    rw [← h9]
                    exact child_subset_glueT hmget (by
                      rw [List.length_eraseIdx, if_pos hmidx]
                      omega)
                  have hv2 : v ∉ mg.toList := fun hx => hnv (hsubT hx)
                  have herr := (ih mg v o9 h3 hmS (hmOrd o9 hord) hmgsort
                    (subMin_parts hmSubT).2 hmU (fun _ => hmgkne) hmgh2).2 hv2
                  rw [herr]
        · rw [if_neg hdef]
          refine ⟨fun hv => ?_, fun hnv => ?_⟩
          · have hv2 : v ∈ ci.toList := hmemiff.1 hv
            obtain ⟨c2, hdel2, D1, D2, D3, D4, D5, D6, D7, D8, D9, D10, D11⟩ :=
              (ih ci v o9 h3 hciS hciord hcisort (subMin_parts hcisub).2 hciU
                (fun _ => (subMin_parts hcisub).1) hcih).1 hv2
            rw [hdel2]
            obtain ⟨B1, B2, B3, B4, B5, B6, B7⟩ :=
              assemble_del hlen hciq hsort hstruct D1 D4 D3 D5
            have hc2sub : c2.subMin = true := by
              apply subMin_build
              · apply List.ne_nil_of_length_pos
                have h9 := (subMin_parts hcisub).1
                have h10 : 0 < ci.keys.length := List.length_pos.2 h9
                omega
              · exact D10
            refine ⟨_, rfl, B1, B5 o9 hord D2, by simpa using B2, by simpa using B3,
              by simpa using B4, by simp, by simp, by simp, by simp, ?_, ?_⟩
            · simp only [Node.children_mk]
              exact B6 hsubC hc2sub
            · exact B7 hunif D11
          · have hv2 : v ∉ ci.toList := fun hx => hnv (hmemiff.2 hx)
            have herr := (ih ci v o9 h3 hciS hciord hcisort (subMin_parts hcisub).2 hciU
              (fun _ => (subMin_parts hcisub).1) hcih).2 hv2
            rw [herr]
      · -- found at this node
        rw [if_pos (by trivial), if_neg (by simp)]
        have hvk : k[idx]? = some v := by
          have h9 := search_found_get _ v hf
          simpa using h9
        have hvmem : v ∈ glueT cs k := keys_subset_glueT cs k (search_found_mem _ v hf)
        have hikx : idx < k.length := by
          rcases List.getElem?_eq_some_iff.1 hvk with ⟨h9, _⟩
          exact h9
        have hicx : idx < cs.length := by omega
        rcases hlcq : cs[idx]? with _ | lc
        · rw [List.getElem?_eq_none_iff] at hlcq; omega
        simp only [hlcq]
        have hlcmem : lc ∈ cs := List.getElem?_mem hlcq
        have hlcS : lc.structOk = true := hkids lc hlcmem
        have hlcord : lc.ordAll o9 = true := hkord lc hlcmem
        have hlcsub : lc.subMin = true := hsubC lc hlcmem
        have hlcU : lc.unifH = true := huall lc hlcmem
        have hlcsort : List.Sorted (· ≤ ·) lc.toList := by
          have h9 := hsort
          rw [glueT_id_form hlcq hlen] at h9
          exact sorted_of_decomp h9
        have hlch : lc.height < fuel := by
          have h9 := height_child_lt' (k := k) (o := o9) hlcq
          simp only [height_mk_int] at h9 hh
          omega
        by_cases hsur : (o9 - 1) / 2 + 1 ≤ lc.keys.length
        · rw [if_pos hsur]
          obtain ⟨hlcne, hgr⟩ := get_rightmost_spec (lc.height + 1) lc hlcS hlcsub (by omega)
          obtain ⟨pred, hgl⟩ := getLast?_some_of_ne_nil hlcne
          simp only [hgr, hgl]
          obtain ⟨hpredmem, hpredmax⟩ := sorted_max_of_getLast hlcsort hgl
          obtain ⟨lc1, hdel, D1, D2, D3, D4, D5, D6, D7, D8, D9, D10, D11⟩ :=
            (ih lc pred o9 h3 hlcS hlcord hlcsort (subMin_parts hlcsub).2 hlcU
              (fun _ => (subMin_parts hlcsub).1) hlch).1 hpredmem
          simp only [hdel]
          obtain ⟨A1, A2, A3, A4, A5, A6, A7, A8⟩ :=
            assemble_pred hlen hvk hlcq hsort hstruct D1 D4 D3 D5 hpredmem hpredmax
          have hlc1sub : lc1.subMin = true := by
            apply subMin_build
            · apply List.ne_nil_of_length_pos
              omega
            · exact D10
          refine ⟨fun _ => ⟨_, rfl, A1, A6 o9 hord D2, by simpa using A2, by simpa using A3,
            by simpa using A4, by simp, by simp, ?_, ?_, ?_, ?_⟩,
            fun hnv => absurd hvmem hnv⟩
          · simp only [Node.keys_mk, List.length_set]
            omega
          · simp only [Node.keys_mk, List.length_set]
            omega
          · simp only [Node.children_mk]
            exact A7 hsubC hlc1sub
          · exact A8 hunif D11
        · rw [if_neg hsur]
          have hrcx : idx + 1 < cs.length := by omega
          rcases hrcq : cs[idx + 1]? with _ | rc
          · rw [List.getElem?_eq_none_iff] at hrcq; omega
          simp only [hrcq]
          have hrcmem : rc ∈ cs := List.getElem?_mem hrcq
          have hrcS : rc.structOk = true := hkids rc hrcmem
          have hrcord : rc.ordAll o9 = true := hkord rc hrcmem
          have hrcsub : rc.subMin = true := hsubC rc hrcmem
          have hrcU : rc.unifH = true := huall rc hrcmem
          have hrcsort : List.Sorted (· ≤ ·) rc.toList := by
            have h9 := hsort
            rw [glueT_id_form hrcq hlen] at h9
            exact sorted_of_decomp h9
          have hrch : rc.height < fuel := by
            have h9 := height_child_lt' (k := k) (o := o9) hrcq
            simp only [height_mk_int] at h9 hh
            omega
          by_cases hsur2 : (o9 - 1) / 2 + 1 ≤ rc.keys.length
          · rw [if_pos hsur2]
            obtain ⟨hrcne, hgl2⟩ := get_leftmost_spec (rc.height + 1) rc hrcS hrcsub (by omega)
            obtain ⟨succ, hhd⟩ := head?_some_of_ne_nil hrcne
            simp only [hgl2, hhd]
            obtain ⟨hsuccmem, hsuccmin⟩ := sorted_min_of_head hrcsort hhd
            obtain ⟨rc1, hdel, D1, D2, D3, D4, D5, D6, D7, D8, D9, D10, D11⟩ :=
              (ih rc succ o9 h3 hrcS hrcord hrcsort (subMin_parts hrcsub).2 hrcU
                (fun _ => (subMin_parts hrcsub).1) hrch).1 hsuccmem
            simp only [hdel]
            obtain ⟨A1, A2, A3, A4, A5, A6, A7, A8⟩ :=
              assemble_succ hlen hvk hrcq hsort hstruct D1 D4 D3 D5 hsuccmem hsuccmin
            have hrc1sub : rc1.subMin = true := by
              apply subMin_build
              · apply List.ne_nil_of_length_pos
                omega
              · exact D10
            refine ⟨fun _ => ⟨_, rfl, A1, A6 o9 hord D2, by simpa using A2, by simpa using A3,
              by simpa using A4, by simp, by simp, ?_, ?_, ?_, ?_⟩,
              fun hnv => absurd hvmem hnv⟩
            · simp only [Node.keys_mk, List.length_set]
              omega
            · simp only [Node.keys_mk, List.length_set]
              omega
            · simp only [Node.children_mk]
              exact A7 hsubC hrc1sub
            · exact A8 hunif D11
          · rw [if_neg hsur2]
            obtain ⟨mg, hmeq, hmtl, hmk, hmh, hml, hmS, hmU, hmOrd, hmSub, hsetf,
              hmget, hp1tl, hp1S, hp1h, hp1U, hp1Ord, hp1sub⟩ :=
              merge_spec hlen hvk hlcq hrcq hstruct hunif
            simp only [hmeq, Node.children_mk, hmget, Node.keys_mk, Node.leaf_mk,
              Node.order_mk]
            have hlen3 : ((cs.eraseIdx (idx + 1)).set idx mg).length
                = (k.eraseIdx idx).length + 1 := by
              rw [List.length_set, List.length_eraseIdx, List.length_eraseIdx,
                if_pos (by omega : idx + 1 < cs.length), if_pos hikx]
              omega
            have hp1sort : List.Sorted (· ≤ ·)
                (glueT ((cs.eraseIdx (idx + 1)).set idx mg) (k.eraseIdx idx)) := by
              have h9 := hp1tl
              simp only [toList_mk_int] at h9
              rw [h9]
              exact hsort
            have hmgsort : List.Sorted (· ≤ ·) mg.toList := by
              have h9 := hp1sort
              rw [glueT_id_form hmget hlen3] at h9
              exact sorted_of_decomp h9
            have hmSubT : mg.subMin = true := hmSub hlcsub hrcsub
            have hlckeys : 0 < lc.keys.length :=
              List.length_pos.2 (subMin_parts hlcsub).1
            have hmgkne : mg.keys ≠ [] := by
              apply List.ne_nil_of_length_pos
              rw [hmk]
              omega
            have hmgh2 : mg.height < fuel := by
              rw [hmh]
              exact hlch
            have hv2 : v ∈ mg.toList := by
              rw [hmtl]
              simp
            refine ⟨fun _ => ?_, fun hnv => absurd hvmem hnv⟩
            obtain ⟨c2, hdel2, D1, D2, D3, D4, D5, D6, D7, D8, D9, D10, D11⟩ :=
              (ih mg v o9 h3 hmS (hmOrd o9 hord) hmgsort (subMin_parts hmSubT).2 hmU
                (fun _ => hmgkne) hmgh2).1 hv2
            simp only [hdel2]
            obtain ⟨B1, B2, B3, B4, B5, B6, B7⟩ :=
              assemble_del hlen3 hmget hp1sort hp1S D1 D4 D3 D5
            have hc2sub : c2.subMin = true := by
              apply subMin_build
              · apply List.ne_nil_of_length_pos
                omega
              · exact D10
            refine ⟨_, rfl, B1, B5 o9 (hp1Ord o9 hord) D2, by simpa using B2, ?_, ?_,
              by simp, by simp, ?_, ?_, ?_, ?_⟩
            · simp only [toList_mk_int]
              refine B3.trans ?_
              have h9 := hp1tl
              simp only [toList_mk_int] at h9
              rw [h9]
            · exact B4.trans hp1h
            · simp only [Node.keys_mk]
              rw [List.length_eraseIdx, if_pos hikx]
            · simp only [Node.keys_mk]
              rw [List.length_eraseIdx, if_pos hikx]
              omega
            · simp only [Node.children_mk]
              exact B6 (hp1sub hsubC) hc2sub
            · exact B7 hp1U D11

/-! ## Facade delete specification -/

theorem BTree_delete_spec (t : BTree) (v : Int) (hwf : t.wf = true) :
    (t.root = none → t.delete v = .error DErr.emptyTree) ∧
    (t.root.isSome = true → v ∉ t.toList → t.delete v = .error DErr.notFound) ∧
    (v ∈ t.toList → ∃ u, t.delete v = .ok u ∧ u.wf = true ∧ u.order = t.order ∧
      (v :: u.toList).Perm t.toList ∧ u.root.isSome = true) := by
  rcases t with ⟨root, o⟩
  simp only [BTree.wf, Bool.and_eq_true, decide_eq_true_eq] at hwf
  obtain ⟨ho3, hroot⟩ := hwf
  rcases root with _ | r
  · refine ⟨fun _ => rfl, (fun hs _ => nomatch hs), fun hv => ?_⟩
    simp [BTree.toList] at hv
  · have hwfr : r.wfB o = true := hroot
    obtain ⟨hstruct, hord, hsort, hdm, hkeys, hunif⟩ := wfB_parts hwfr
    obtain ⟨hpres, habs⟩ :=
      delete_spec (r.height + 1) r v o ho3 hstruct hord hsort hdm hunif hkeys (by omega)
    refine ⟨(fun h => by cases h), fun _ hnv => ?_, fun hv => ?_⟩
    · have h9 : v ∉ r.toList := by simpa [BTree.toList] using hnv
      simp only [BTree.delete, habs h9]
    · have hv2 : v ∈ r.toList := by simpa [BTree.toList] using hv
      obtain ⟨r1, hdel, D1, D2, D3, D4, D5, D6, D7, D8, D9, D10, D11⟩ := hpres hv2
      simp only [BTree.delete, hdel]
      by_cases hshr : r1.keys = [] ∧ r1.children.isEmpty = false
      · rw [if_pos hshr]
        obtain ⟨hk0, hcne⟩ := hshr
        have hleaf : r1.leaf = false := by
          rcases hb : r1.leaf with _ | _
          · rfl
          · have h9 := (structOk_parts D1).1 hb
            rw [h9] at hcne
            cases hcne
        have hclen : r1.children.length = 1 := by
          have h9 := (structOk_parts D1).2.1 hleaf
          rw [hk0] at h9
          simpa using h9
        rcases hc0 : r1.children[0]? with _ | c
        · rw [List.getElem?_eq_none_iff] at hc0; omega
        simp only [hc0]
        have hcmem : c ∈ r1.children := List.getElem?_mem hc0
        have htl : r1.toList = c.toList := by
          rw [toList_of_int hleaf]
          have h9 : r1.children = [c] := by
            rcases hcs : r1.children with _ | ⟨d, ds⟩
            · rw [hcs] at hclen
              simp at hclen
            · rw [hcs] at hclen hc0
              have hds : ds = [] := by simpa using hclen
              subst hds
              simp only [List.getElem?_cons_zero, Option.some.injEq] at hc0
              rw [hc0]
          rw [h9, hk0, glueT_single]
        refine ⟨⟨some c, o⟩, rfl, ?_, rfl, ?_, rfl⟩
        · simp only [BTree.wf, Bool.and_eq_true, decide_eq_true_eq]
          refine ⟨ho3, ?_⟩
          apply wfB_build
          · exact (structOk_parts D1).2.2 c hcmem
          · exact (ordAll_parts D2).2 c hcmem
          · rw [← htl]
            exact D3
          · exact (subMin_parts (D10 c hcmem)).2
          · exact (unifH_parts D11).2 c hcmem
          · intro _
            exact (subMin_parts (D10 c hcmem)).1
        · simp only [BTree.toList]
          rw [← htl]
          exact D4
      · rw [if_neg hshr]
        refine ⟨⟨some r1, o⟩, rfl, ?_, rfl, ?_, rfl⟩
        · simp only [BTree.wf, Bool.and_eq_true, decide_eq_true_eq]
          refine ⟨ho3, ?_⟩
          apply wfB_build
          · exact D1
          · exact D2
          · exact D3
          · exact D10
          · exact D11
          · intro hlf hk0
            apply hshr
            refine ⟨hk0, ?_⟩
            have h9 := (structOk_parts D1).2.1 hlf
            rw [hk0] at h9
            have h10 : r1.children ≠ [] := by
              apply List.ne_nil_of_length_pos
              rw [h9]
              simp
            simpa using h10
        · simp only [BTree.toList]
          exact D4

/-! ## The claims layer: reachable trees, batch insertion, and the ten
claim theorems with their witnesses and counterexamples -/

/-- A freshly constructed tree with order at least 3 is well formed. -/
theorem wf_new {m : Nat} (h : 3 ≤ m) : (BTree.new m).wf = true := by
  simp [BTree.new, BTree.wf, h]

/-- A freshly constructed tree holds no keys. -/
theorem toList_new (m : Nat) : (BTree.new m).toList = [] := rfl

/-- Every tree reachable through the public API is well formed: the facade
invariant is preserved by construction, insertion and deletion. -/
theorem Reach_wf : ∀ {t : BTree}, Reach t → t.wf = true := by
  intro t h
  induction h with
  | new m hm => exact wf_new hm
  | @ins s u v ht hins ih =>
    obtain ⟨u2, hu2, hwf2, _, _, _⟩ := BTree_insert_spec s v ih
    rw [hins] at hu2
    injection hu2 with h9
    rw [h9]
    exact hwf2
  | @del s u v ht hdel ih =>
    obtain ⟨hE, hNF, hOK⟩ := BTree_delete_spec s v ih
    rcases hroot : s.root with _ | r
    · rw [hE hroot] at hdel
      simp at hdel
    · by_cases hmem : v ∈ s.toList
      · obtain ⟨u2, hdel2, hwf2, _, _, _⟩ := hOK hmem
        rw [hdel2] at hdel
        injection hdel with h9
        rw [← h9]
        exact hwf2
      · rw [hNF (by rw [hroot]; rfl) hmem] at hdel
        simp at hdel

/-- A successful batch insertion starting from a reachable tree ends in a
reachable tree. -/
theorem Reach_insertAll : ∀ (l : List Int) {t u : BTree}, Reach t →
    BTree.insertAll t l = some u → Reach u := by
  intro l
  induction l with
  | nil =>
    intro t u ht h
    simp only [BTree.insertAll] at h
    cases h
    exact ht
  | cons v vs ih =>
    intro t u ht h
    simp only [BTree.insertAll] at h
    rcases hv : t.insert v with _ | u1
    · rw [hv] at h
      simp at h
    · rw [hv] at h
      exact ih (Reach.ins v ht hv) h

/-- Batch insertion into a well-formed tree always succeeds, preserves
well-formedness and the order, and adds exactly the inserted values to the
key multiset. -/
theorem insertAll_spec : ∀ (l : List Int) (t : BTree), t.wf = true →
    ∃ u, BTree.insertAll t l = some u ∧ u.wf = true ∧ u.order = t.order ∧
      u.toList.Perm (l ++ t.toList) := by
  intro l
  induction l with
  | nil =>
    intro t hwf
    exact ⟨t, rfl, hwf, rfl, by simp⟩
  | cons v vs ih =>
    intro t hwf
    obtain ⟨u1, hu1, hwf1, hord1, hperm1, _⟩ := BTree_insert_spec t v hwf
    obtain ⟨u, hu, hwfu, hordu, hpermu⟩ := ih u1 hwf1
    refine ⟨u, ?_, hwfu, by rw [hordu, hord1], ?_⟩
    · simp only [BTree.insertAll, hu1]
      exact hu
    · refine hpermu.trans ?_
      refine (List.Perm.append_left vs hperm1).trans ?_
      exact List.perm_middle

/-- C1: for every order of at least 3 and every list of distinct values,
inserting them all into the fresh empty tree succeeds and `search` then
returns true exactly for the inserted values and false for every value
never inserted. -/
theorem C1_distinct_insert_search (m : Nat) (l : List Int) (h3 : 3 ≤ m)
    (hd : l.Nodup) :
    ∃ u, BTree.insertAll (BTree.new m) l = some u ∧
      (∀ v ∈ l, u.search v = some true) ∧
      (∀ v : Int, v ∉ l → u.search v = some false) := by
  obtain ⟨u, hu, hwfu, _, hperm⟩ := insertAll_spec l (BTree.new m) (wf_new h3)
  have hmem : ∀ x : Int, x ∈ u.toList ↔ x ∈ l := by
    intro x
    rw [hperm.mem_iff]
    simp [toList_new]
  refine ⟨u, hu, ?_, ?_⟩
  · intro v hv
    rw [BTree_search_correct u v hwfu]
    simp [hmem, hv]
  · intro v hv
    rw [BTree_search_correct u v hwfu]
    simp [hmem, hv]

/-- Witness for C1: order 3 with the inserted values 10, 20, 30. -/
theorem C1_witness :
    ∃ u, BTree.insertAll (BTree.new 3) [10, 20, 30] = some u ∧
      (∀ v ∈ [(10 : Int), 20, 30], u.search v = some true) ∧
      (∀ v : Int, v ∉ [(10 : Int), 20, 30] → u.search v = some false) :=
  C1_distinct_insert_search 3 [10, 20, 30] (by decide) (by decide)

/-- C2 is refuted: the section 3 key-count bounds do not hold on every
reachable tree.  With order 5 (so K = 4 and a non-root leaf must hold at
least 2 keys) the inserts 10, 20, 30, 40, 15 leave the root's right child a
leaf holding the single key 40: the code maintains only a one-key minimum
for non-root nodes, not the documented half-full minimum. -/
theorem C2_bounds_counterexample :
    ∃ t : BTree, BTree.insertAll (BTree.new 5) [10, 20, 30, 40, 15] = some t ∧
      Reach t ∧ t.root.isSome = true ∧ t.specBounds = false := by
  refine ⟨⟨some (.mk [30] [.mk [10, 15, 20] [] true 5, .mk [40] [] true 5] false 5), 5⟩,
    rfl, ?_, rfl, rfl⟩
  exact Reach_insertAll [10, 20, 30, 40, 15] (Reach.new 5 (by decide)) rfl

/-- C3: deleting a value present in a well-formed tree succeeds, removes
exactly one occurrence of it, and leaves the search result of every other
value unchanged. -/
theorem C3_delete_removes_one (t : BTree) (v : Int) (hwf : t.wf = true)
    (hv : v ∈ t.toList) :
    ∃ u, t.delete v = .ok u ∧ u.wf = true ∧
      u.toList.count v + 1 = t.toList.count v ∧
      (v :: u.toList).Perm t.toList ∧
      (∀ w : Int, w ≠ v → u.search w = t.search w) := by
  obtain ⟨u, hdel, hwfu, _, hperm, _⟩ := (BTree_delete_spec t v hwf).2.2 hv
  refine ⟨u, hdel, hwfu, ?_, hperm, ?_⟩
  · have h9 := hperm.count_eq v
    simpa using h9
  · intro w hw
    rw [BTree_search_correct u w hwfu, BTree_search_correct t w hwf]
    have h9 : w ∈ u.toList ↔ w ∈ t.toList := by
      rw [← hperm.mem_iff]
      simp [hw]
    simp [h9]

/-- Witness for C3: deleting 1 from the two-key leaf root holding 1 and 2. -/
theorem C3_witness :
    ∃ u, (⟨some (Node.mk [1, 2] [] true 3), 3⟩ : BTree).delete 1 = .ok u ∧
      u.wf = true ∧
      u.toList.count 1 + 1 = (⟨some (Node.mk [1, 2] [] true 3), 3⟩ : BTree).toList.count 1 ∧
      ((1 : Int) :: u.toList).Perm (⟨some (Node.mk [1, 2] [] true 3), 3⟩ : BTree).toList ∧
      (∀ w : Int, w ≠ 1 →
        u.search w = (⟨some (Node.mk [1, 2] [] true 3), 3⟩ : BTree).search w) :=
  C3_delete_removes_one ⟨some (Node.mk [1, 2] [] true 3), 3⟩ 1 (by decide) (by decide)

/-- C4: inserting a value not already present and then deleting it restores
the original key multiset, so every search result equals its value before
the insert. -/
theorem C4_insert_then_delete (t : BTree) (v : Int) (hwf : t.wf = true)
    (hv : v ∉ t.toList) :
    ∃ u w, t.insert v = some u ∧ u.delete v = .ok w ∧ w.wf = true ∧
      w.toList.Perm t.toList ∧ (∀ x : Int, w.search x = t.search x) := by
  obtain ⟨u, hins, hwfu, _, hpermu, _⟩ := BTree_insert_spec t v hwf
  have hvu : v ∈ u.toList := hpermu.mem_iff.2 (List.mem_cons_self v t.toList)
  obtain ⟨w, hdel, hwfw, _, hpermw, _⟩ := (BTree_delete_spec u v hwfu).2.2 hvu
  have hperm : w.toList.Perm t.toList := List.Perm.cons_inv (hpermw.trans hpermu)
  refine ⟨u, w, hins, hdel, hwfw, hperm, ?_⟩
  intro x
  rw [BTree_search_correct w x hwfw, BTree_search_correct t x hwf]
  simp [hperm.mem_iff]

/-- Witness for C4: inserting and deleting 7 on the empty tree of order 3. -/
theorem C4_witness :
    ∃ u w, (BTree.new 3).insert 7 = some u ∧ u.delete 7 = .ok w ∧ w.wf = true ∧
      w.toList.Perm (BTree.new 3).toList ∧
      (∀ x : Int, w.search x = (BTree.new 3).search x) :=
  C4_insert_then_delete (BTree.new 3) 7 (by decide) (by decide)

/-- C5: the delete error taxonomy on a well-formed tree: the empty-tree
error occurs exactly when the tree has no root, the not-found error exactly
when the tree is non-empty and the value absent, and delete succeeds
exactly when the value is present. -/
theorem C5_delete_error_taxonomy (t : BTree) (v : Int) (hwf : t.wf = true) :
    (t.delete v = .error DErr.emptyTree ↔ t.root = none) ∧
    (t.delete v = .error DErr.notFound ↔ (t.root ≠ none ∧ v ∉ t.toList)) ∧
    ((∃ u, t.delete v = .ok u) ↔ v ∈ t.toList) := by
  obtain ⟨hE, hNF, hOK⟩ := BTree_delete_spec t v hwf
  rcases hroot : t.root with _ | r
  · have hnil : t.toList = [] := by
      rcases t with ⟨root, o⟩
      have h9 : root = none := hroot
      subst h9
      rfl
    rw [hE hroot, hnil]
    simp [hroot]
  · have hrs : t.root.isSome = true := by rw [hroot]; rfl
    by_cases hmem : v ∈ t.toList
    · obtain ⟨u, hdel, _, _, _, _⟩ := hOK hmem
      rw [hdel]
      simp [hroot, hmem]
    · rw [hNF hrs hmem]
      simp [hroot, hmem]

/-- Witness for C5 on the single-key leaf root holding 2. -/
theorem C5_witness :
    ((⟨some (Node.mk [2] [] true 3), 3⟩ : BTree).delete 2 = .error DErr.emptyTree ↔
      (⟨some (Node.mk [2] [] true 3), 3⟩ : BTree).root = none) ∧
    ((⟨some (Node.mk [2] [] true 3), 3⟩ : BTree).delete 2 = .error DErr.notFound ↔
      ((⟨some (Node.mk [2] [] true 3), 3⟩ : BTree).root ≠ none ∧
        (2 : Int) ∉ (⟨some (Node.mk [2] [] true 3), 3⟩ : BTree).toList)) ∧
    ((∃ u, (⟨some (Node.mk [2] [] true 3), 3⟩ : BTree).delete 2 = .ok u) ↔
      (2 : Int) ∈ (⟨some (Node.mk [2] [] true 3), 3⟩ : BTree).toList) :=
  C5_delete_error_taxonomy ⟨some (Node.mk [2] [] true 3), 3⟩ 2 (by decide)

/-- C6: given a child with at least one key, `split_child` promotes the key
at position mid = ⌊keys.length / 2⌋ into the parent's keys at the child
index, keeps the first mid keys (and, when internal, the first mid + 1
subtrees) in the left child, and moves the keys (and, when internal, the
subtrees) after position mid into a new right sibling inserted at the next
child position. -/
theorem C6_split_child (k : List Int) (cs : List Node) (pl : Bool) (o childIdx : Nat)
    (c : Node) (hc : cs[childIdx]? = some c) (hknz : c.keys ≠ [])
    (hcc : c.leaf = false → c.children.length = c.keys.length + 1)
    (hki : childIdx ≤ k.length) :
    ∃ m, c.keys[c.keys.length / 2]? = some m ∧
      (Node.mk k cs pl o).split_child childIdx =
        some (.mk (k.insertIdx childIdx m)
          ((cs.set childIdx
              (Node.mk (c.keys.take (c.keys.length / 2))
                (if c.leaf then c.children else c.children.take (c.keys.length / 2 + 1))
                c.leaf c.order)).insertIdx (childIdx + 1)
            (Node.mk (c.keys.drop (c.keys.length / 2 + 1))
              (if c.leaf then [] else c.children.drop (c.keys.length / 2 + 1))
              c.leaf c.order)) pl o) :=
  (split_child_spec hc hknz hcc hki).imp fun _ h => ⟨h.1, h.2.1⟩

/-- Witness for C6: splitting the full leaf child holding 1, 2, 3 under a
one-key parent of order 4 promotes 2 and leaves siblings holding 1 and 3. -/
theorem C6_witness :
    (Node.mk [10] [Node.mk [1, 2, 3] [] true 4, Node.mk [20] [] true 4] false 4).split_child 0 =
      some (Node.mk [2, 10]
        [Node.mk [1] [] true 4, Node.mk [3] [] true 4, Node.mk [20] [] true 4] false 4) := by
  obtain ⟨m, hm, heq⟩ :=
    C6_split_child [10] [Node.mk [1, 2, 3] [] true 4, Node.mk [20] [] true 4] false 4 0
      (Node.mk [1, 2, 3] [] true 4) rfl (by decide) (fun h => nomatch h) (by decide)
  have h9 : some (2 : Int) = some m := hm
  cases h9
  exact heq

/-- C7 (corrected): an insert changes the height of a well-formed tree's
root by at most one; when the root already holds the code's overflow
threshold (order − 1 keys, or 3 keys for order 3) the facade runs the
pre-insertion root split and the height grows by exactly one; for order
other than 3 an insert on a non-full root keeps the height.  For order 3
the height can also grow on a root that was not at the threshold, through
the deferred root split after the insertion (see the counterexample). -/
theorem C7_root_overflow (t : BTree) (v : Int) (r : Node) (hwf : t.wf = true)
    (hr : t.root = some r) :
    ∃ u ru, t.insert v = some u ∧ u.root = some ru ∧ u.order = t.order ∧
      (ru.height = r.height ∨ ru.height = r.height + 1) ∧
      ((if t.order = 3 then 3 else t.order - 1) ≤ r.keys.length →
        ru.height = r.height + 1) ∧
      (t.order ≠ 3 → r.keys.length < t.order - 1 → ru.height = r.height) := by
  rcases t with ⟨root, o⟩
  have h9 : root = some r := hr
  subst h9
  simp only [BTree.wf, Bool.and_eq_true, decide_eq_true_eq] at hwf
  obtain ⟨ho3, hroot⟩ := hwf
  have hwfr : r.wfB o = true := hroot
  obtain ⟨hstruct, hord, hsort, hdm, hkeys, hunif⟩ := wfB_parts hwfr
  simp only [BTree.insert]
  by_cases hfull : r.keys.length < (if o = 3 then 3 else o - 1)
  · rw [if_pos hfull]
    obtain ⟨r1, hr1, hio⟩ :=
      insNF_spec (r.height + 1) r v o ho3 hstruct hord hsort (by omega)
    obtain ⟨h1struct, _, _, _, h1h, _, _, _, _, _, _, _⟩ := hio
    simp only [hr1]
    by_cases h33 : o = 3 ∧ r1.keys.length = 3
    · rw [if_pos h33]
      have hc0 : [r1][0]? = some r1 := by simp
      have hkid0 : ∀ x ∈ [r1], x.structOk = true := by
        intro x hx
        rw [List.mem_singleton.1 hx]
        exact h1struct
      obtain ⟨n1, m, hn1eq, _, _, hn1h, _, _, _, _, _, _, _, _, _, _, _⟩ :=
        @assemble_split [] [r1] 0 r1 o rfl hc0 (by simp) h1struct hkid0 (by omega)
      simp only [hn1eq]
      have hh1 : n1.height = r.height + 1 := by
        rw [hn1h, @height_of_int (Node.mk [] [r1] false o) rfl]
        simp only [Node.children_mk, maxH, h1h]
        omega
      exact ⟨⟨some n1, o⟩, n1, rfl, rfl, rfl, Or.inr hh1,
        fun h => absurd hfull (not_lt.2 h), fun hno _ => absurd h33.1 hno⟩
    · rw [if_neg h33]
      exact ⟨⟨some r1, o⟩, r1, rfl, rfl, rfl, Or.inl h1h,
        fun h => absurd hfull (not_lt.2 h), fun _ _ => h1h⟩
  · rw [if_neg hfull]
    have h3r : 3 ≤ r.keys.length := by
      by_cases ho : o = 3
      · rw [if_pos ho] at hfull
        omega
      · rw [if_neg ho] at hfull
        omega
    have hc0 : [r][0]? = some r := by simp
    have hkid0 : ∀ x ∈ [r], x.structOk = true := by
      intro x hx
      rw [List.mem_singleton.1 hx]
      exact hstruct
    obtain ⟨n1, m, hn1eq, hn1tl, hn1struct, hn1h, _, _, _, _, hn1ord, _, _, _, _, _, _⟩ :=
      @assemble_split [] [r] 0 r o rfl hc0 (by simp) hstruct hkid0 h3r
    simp only [hn1eq]
    have hn1tl2 : n1.toList = r.toList := by
      rw [hn1tl]
      simp only [toList_mk_int]
      rw [glueT_single]
    have hn1ordT : n1.ordAll o = true := by
      apply hn1ord
      rw [ordAll_mk]
      refine ⟨rfl, ?_⟩
      intro x hx
      rw [List.mem_singleton.1 hx]
      exact hord
    obtain ⟨n2, hn2, hio2⟩ :=
      insNF_spec (n1.height + 1) n1 v o ho3 hn1struct hn1ordT
        (by rw [hn1tl2]; exact hsort) (by omega)
    obtain ⟨_, _, _, _, h2h, _, _, _, _, _, _, _⟩ := hio2
    simp only [hn2]
    have hh2 : n2.height = r.height + 1 := by
      rw [h2h, hn1h, @height_of_int (Node.mk [] [r] false o) rfl]
      simp only [Node.children_mk, maxH]
      omega
    refine ⟨⟨some n2, o⟩, n2, rfl, rfl, rfl, Or.inr hh2, fun _ => hh2, ?_⟩
    intro hno hlt
    exfalso
    have hno2 : o ≠ 3 := hno
    have hlt2 : r.keys.length < o - 1 := hlt
    rw [if_neg hno2] at hfull
    exact hfull hlt2

/-- Witness for C7: order 4 with a full three-key leaf root; inserting 4
splits the root and the height grows from 0 to 1. -/
theorem C7_witness :
    ∃ u ru, (⟨some (Node.mk [1, 2, 3] [] true 4), 4⟩ : BTree).insert 4 = some u ∧
      u.root = some ru ∧
      u.order = (⟨some (Node.mk [1, 2, 3] [] true 4), 4⟩ : BTree).order ∧
      (ru.height = (Node.mk [1, 2, 3] [] true 4).height ∨
        ru.height = (Node.mk [1, 2, 3] [] true 4).height + 1) ∧
      ((if (⟨some (Node.mk [1, 2, 3] [] true 4), 4⟩ : BTree).order = 3 then 3
        else (⟨some (Node.mk [1, 2, 3] [] true 4), 4⟩ : BTree).order - 1) ≤
          (Node.mk [1, 2, 3] [] true 4).keys.length →
        ru.height = (Node.mk [1, 2, 3] [] true 4).height + 1) ∧
      ((⟨some (Node.mk [1, 2, 3] [] true 4), 4⟩ : BTree).order ≠ 3 →
        (Node.mk [1, 2, 3] [] true 4).keys.length <
          (⟨some (Node.mk [1, 2, 3] [] true 4), 4⟩ : BTree).order - 1 →
        ru.height = (Node.mk [1, 2, 3] [] true 4).height) :=
  C7_root_overflow ⟨some (Node.mk [1, 2, 3] [] true 4), 4⟩ 4
    (Node.mk [1, 2, 3] [] true 4) (by decide) rfl

/-- C7 counterexample: order 3 with a two-key leaf root — below the claimed
overflow trigger of 3 keys — yet inserting 3 grows the height from 0 to 1
through the deferred root split after the insertion. -/
theorem C7_counterexample :
    ∃ u ru, (⟨some (Node.mk [1, 2] [] true 3), 3⟩ : BTree).insert 3 = some u ∧
      u.root = some ru ∧ (Node.mk [1, 2] [] true 3).keys.length = 2 ∧
      (Node.mk [1, 2] [] true 3).height = 0 ∧ ru.height = 1 :=
  ⟨⟨some (Node.mk [2] [Node.mk [1] [] true 3, Node.mk [3] [] true 3] false 3), 3⟩,
    Node.mk [2] [Node.mk [1] [] true 3, Node.mk [3] [] true 3] false 3,
    rfl, rfl, rfl, rfl, rfl⟩

/-- C8 (corrected): on every reachable tree the traversal output is weakly
ascending (non-decreasing) and contains exactly the currently-present keys,
the values for which search returns true.  Strict ascension fails once a
duplicate has been inserted (see the counterexample). -/
theorem C8_traverse_sorted_present (t : BTree) (hreach : Reach t) :
    List.Sorted (· ≤ ·) t.traverse ∧
    (∀ v : Int, v ∈ t.traverse ↔ t.search v = some true) := by
  have hwf := Reach_wf hreach
  constructor
  · rcases t with ⟨root, o⟩
    rcases root with _ | r
    · simp [BTree.traverse, BTree.toList]
    · have hr : r.wfB o = true := by
        simp only [BTree.wf, Bool.and_eq_true] at hwf
        exact hwf.2
      exact (wfB_parts hr).2.2.1
  · intro v
    rw [BTree_search_correct t v hwf]
    simp [BTree.traverse]

/-- Witness for C8 on the reachable single-key tree made by inserting 5
into the fresh tree of order 3. -/
theorem C8_witness :
    List.Sorted (· ≤ ·) (⟨some (Node.mk [5] [] true 3), 3⟩ : BTree).traverse ∧
    (∀ v : Int, v ∈ (⟨some (Node.mk [5] [] true 3), 3⟩ : BTree).traverse ↔
      (⟨some (Node.mk [5] [] true 3), 3⟩ : BTree).search v = some true) :=
  C8_traverse_sorted_present ⟨some (Node.mk [5] [] true 3), 3⟩
    (Reach.ins 5 (Reach.new 3 (by decide)) rfl)

/-- C8 counterexample: inserting 5 twice succeeds and the traversal output
is [5, 5], which is not strictly ascending. -/
theorem C8_counterexample :
    ∃ t : BTree, BTree.insertAll (BTree.new 3) [5, 5] = some t ∧ Reach t ∧
      t.traverse = [5, 5] ∧ strictAsc t.traverse = false := by
  refine ⟨⟨some (.mk [5, 5] [] true 3), 3⟩, rfl, ?_, rfl, rfl⟩
  exact Reach_insertAll [5, 5] (Reach.new 3 (by decide)) rfl

/-- C9: duplicates are accepted: inserting a value already present succeeds
and adds a second occurrence, and one subsequent delete removes exactly one
occurrence, so the value is still found afterwards. -/
theorem C9_duplicate_insert_delete (t : BTree) (v : Int) (hwf : t.wf = true)
    (hv : v ∈ t.toList) :
    ∃ u w, t.insert v = some u ∧ u.toList.count v = t.toList.count v + 1 ∧
      u.delete v = .ok w ∧ w.toList.count v = t.toList.count v ∧
      w.search v = some true := by
  obtain ⟨u, hins, hwfu, _, hpermu, _⟩ := BTree_insert_spec t v hwf
  have hvu : v ∈ u.toList := hpermu.mem_iff.2 (List.mem_cons_self v t.toList)
  obtain ⟨w, hdel, hwfw, _, hpermw, _⟩ := (BTree_delete_spec u v hwfu).2.2 hvu
  have hcu : u.toList.count v = t.toList.count v + 1 := by
    have h9 := hpermu.count_eq v
    simpa using h9
  have hcw : w.toList.count v = t.toList.count v := by
    have h9 := hpermw.count_eq v
    simp only [List.count_cons_self] at h9
    omega
  refine ⟨u, w, hins, hcu, hdel, hcw, ?_⟩
  rw [BTree_search_correct w v hwfw]
  have hvw : v ∈ w.toList := by
    by_contra hcon
    have h0 : w.toList.count v = 0 := List.count_eq_zero.2 hcon
    have h1 : t.toList.count v = 0 := by omega
    exact (List.count_eq_zero.1 h1) hv
  simp [hvw]

/-- Witness for C9: inserting a second 5 into the leaf root holding 5 and
deleting one of them. -/
theorem C9_witness :
    ∃ u w, (⟨some (Node.mk [5] [] true 3), 3⟩ : BTree).insert 5 = some u ∧
      u.toList.count 5 = (⟨some (Node.mk [5] [] true 3), 3⟩ : BTree).toList.count 5 + 1 ∧
      u.delete 5 = .ok w ∧
      w.toList.count 5 = (⟨some (Node.mk [5] [] true 3), 3⟩ : BTree).toList.count 5 ∧
      w.search 5 = some true :=
  C9_duplicate_insert_delete ⟨some (Node.mk [5] [] true 3), 3⟩ 5 (by decide) (by decide)

/-- C10: a present root is never removed: every successful delete leaves a
root in place, and on a tree whose root is a keyless leaf every delete
fails with the not-found error — never the empty-tree error — while every
search returns false. -/
theorem C10_root_never_removed (t : BTree) (hwf : t.wf = true)
    (hr : t.root.isSome = true) :
    (∀ v : Int, ∀ u : BTree, t.delete v = .ok u → u.root.isSome = true) ∧
    (t.toList = [] → ∀ w : Int,
      t.delete w = .error DErr.notFound ∧ t.search w = some false) := by
  constructor
  · intro v u hdel
    obtain ⟨hE, hNF, hOK⟩ := BTree_delete_spec t v hwf
    by_cases hmem : v ∈ t.toList
    · obtain ⟨u2, hdel2, _, _, _, hroot2⟩ := hOK hmem
      rw [hdel2] at hdel
      injection hdel with h9
      rw [← h9]
      exact hroot2
    · rw [hNF hr hmem] at hdel
      simp at hdel
  · intro hnil w
    obtain ⟨hE, hNF, hOK⟩ := BTree_delete_spec t w hwf
    have hwni : w ∉ t.toList := by
      rw [hnil]
      simp
    refine ⟨hNF hr hwni, ?_⟩
    rw [BTree_search_correct t w hwf]
    simp [hnil]

/-- Witness for C10 on the keyless leaf root left after all keys have been
deleted. -/
theorem C10_witness :
    (∀ v : Int, ∀ u : BTree,
      (⟨some (Node.mk [] [] true 3), 3⟩ : BTree).delete v = .ok u →
        u.root.isSome = true) ∧
    ((⟨some (Node.mk [] [] true 3), 3⟩ : BTree).toList = [] → ∀ w : Int,
      (⟨some (Node.mk [] [] true 3), 3⟩ : BTree).delete w = .error DErr.notFound ∧
      (⟨some (Node.mk [] [] true 3), 3⟩ : BTree).search w = some false) :=
  C10_root_never_removed ⟨some (Node.mk [] [] true 3), 3⟩ (by decide) (by decide)
